import Mathlib

/-!
Verification development for the graphml codec (package graphml).

The development gives a shallow embedding of the repository core:
the document model and attribute marshalling (graphml.go), the streaming
decoder (the later source variant with split key tables), and the
streaming encoder.  The external XML tokenizer and serializer are treated
as a token source and sink, exactly as the specification scopes them:
decoding and encoding are functions between token streams (`List Token`)
and the typed `Document` tree.  Go maps used only for membership are
embedded as association lists; Go errors are an explicit error type in
an `Except` result.  The decoder recursion, which in Go is a recursive
descent over a token cursor, is embedded as a fuel-indexed family of
loop functions; the top-level entry point supplies fuel exceeding the
stream length, which is always sufficient because every loop iteration
consumes at least one token.
-/

namespace GraphML

/-- An XML name, mirroring encoding/xml.Name: a namespace URL and a local name. -/
structure XName where
  Space : String
  Local : String
deriving DecidableEq, Repr

/-- An XML attribute, mirroring encoding/xml.Attr. -/
structure XAttr where
  Name : XName
  Value : String
deriving DecidableEq, Repr

/-- An XML token, mirroring the encoding/xml token vocabulary consumed and
produced by the core (StartElement, EndElement, CharData, Comment, ProcInst,
Directive). -/
inductive Token where
  | StartElement (name : XName) (attr : List XAttr)
  | EndElement (name : XName)
  | CharData (s : String)
  | Comment (s : String)
  | ProcInst (target : String) (inst : String)
  | Directive (s : String)
deriving DecidableEq, Repr

/-- A processing instruction record, mirroring xml.ProcInst as stored in
Document.Instr. -/
structure XProcInst where
  Target : String
  Inst : String
deriving DecidableEq, Repr

/-- Namespace is the canonical XML namespace for GraphML (graphml.go). -/
def Namespace : String := "http://graphml.graphdrawing.org/xmlns"

/-- Kind is an element kind used for extensions (graphml.go); a plain string
in the source. -/
abbrev Kind := String

def KindAll : Kind := "all"
def KindGraphML : Kind := "graphml"
def KindGraph : Kind := "graph"
def KindNode : Kind := "node"
def KindEdge : Kind := "edge"
def KindHyperEdge : Kind := "hyperedge"
def KindPort : Kind := "port"
def KindEndpoint : Kind := "endpoint"

/-- EdgeDir is a direction mode for edges (graphml.go); a plain string. -/
abbrev EdgeDir := String

def EdgeDirected : EdgeDir := "directed"
def EdgeUndirected : EdgeDir := "undirected"

/-- newAttr from graphml.go: builds an attribute from namespace, local name
and value. -/
def newAttr (ns loc value : String) : XAttr :=
  ⟨⟨ns, loc⟩, value⟩

/-- mlName from the encoder source: an element name with empty namespace. -/
def mlName (name : String) : XName :=
  ⟨"", name⟩

/-- canSkip from the decoder source: comments, and character data that is
all whitespace, are skippable.  bytes.TrimSpace yielding an empty result is
embedded as: every character of the string is whitespace. -/
def canSkip : Token → Bool
  | .Comment _ => true
  | .CharData s => s.toList.all Char.isWhitespace
  | _ => false

/-- Object from graphml.go: the common attributes of nodes, edges and
graphs — an identifier and the ordered unrecognized attributes. -/
structure Object where
  ID : String
  Unrecognized : List XAttr
deriving DecidableEq, Repr

def Object.empty : Object := ⟨"", []⟩

/-- Object.addAttr: the attribute with local name id is mapped to the ID
field; every other attribute is appended to Unrecognized. -/
def Object.addAttr (o : Object) (a : XAttr) : Object :=
  if a.Name.Local = "id" then { o with ID := a.Value }
  else { o with Unrecognized := o.Unrecognized ++ [a] }

/-- Object.attrs: the id attribute when ID is non-empty, then the
unrecognized attributes. -/
def Object.attrs (o : Object) : List XAttr :=
  (if o.ID ≠ "" then [newAttr "" "id" o.ID] else []) ++ o.Unrecognized

/-- Key from graphml.go: a definition of a custom attribute.  The Go field
Type is named Typ here because Type is reserved in Lean. -/
structure Key where
  toObject : Object
  For : Kind
  Name : String
  Typ : String
deriving DecidableEq, Repr

def Key.empty : Key := ⟨Object.empty, "", "", ""⟩

def Key.ID (k : Key) : String := k.toObject.ID

/-- Key.addAttr: for, attr.name and attr.type are mapped to fields, the
rest goes through Object.addAttr. -/
def Key.addAttr (k : Key) (a : XAttr) : Key :=
  if a.Name.Local = "for" then { k with For := a.Value }
  else if a.Name.Local = "attr.name" then { k with Name := a.Value }
  else if a.Name.Local = "attr.type" then { k with Typ := a.Value }
  else { k with toObject := k.toObject.addAttr a }

/-- Key.attrs: Object.attrs (id when non-empty, then unrecognized), then
for, then attr.name when non-empty, then attr.type when non-empty. -/
def Key.attrs (k : Key) : List XAttr :=
  k.toObject.attrs ++ [newAttr "" "for" k.For]
    ++ (if k.Name ≠ "" then [newAttr "" "attr.name" k.Name] else [])
    ++ (if k.Typ ≠ "" then [newAttr "" "attr.type" k.Typ] else [])

/-- Data from graphml.go: a raw XML value for a custom attribute — the key
reference, the unrecognized attributes, and the raw captured token
payload.  The Go payload field is itself named Data; it is named Tokens
here because a field cannot shadow its structure name in Lean. -/
structure Data where
  Key : String
  Unrecognized : List XAttr
  Tokens : List Token
deriving DecidableEq, Repr

def Data.empty : Data := ⟨"", [], []⟩

/-- Data.addAttr: key is mapped to the Key field, the rest is appended to
Unrecognized. -/
def Data.addAttr (d : Data) (a : XAttr) : Data :=
  if a.Name.Local = "key" then { d with Key := a.Value }
  else { d with Unrecognized := d.Unrecognized ++ [a] }

/-- Data.attrs: the key attribute (always emitted), then the unrecognized
attributes. -/
def Data.attrs (d : Data) : List XAttr :=
  newAttr "" "key" d.Key :: d.Unrecognized

/-- ExtObject from graphml.go: Object plus the ordered Data children. -/
structure ExtObject where
  toObject : Object
  Data : List Data
deriving DecidableEq, Repr

def ExtObject.empty : ExtObject := ⟨Object.empty, []⟩

/-- Edge from graphml.go: ExtObject plus source and target references.
Non-recursive, so a plain structure. -/
structure Edge where
  ext : ExtObject
  Source : String
  Target : String
deriving DecidableEq, Repr

def Edge.empty : Edge := ⟨ExtObject.empty, "", ""⟩

def Edge.ID (e : Edge) : String := e.ext.toObject.ID

def Edge.addAttr (e : Edge) (a : XAttr) : Edge :=
  if a.Name.Local = "source" then { e with Source := a.Value }
  else if a.Name.Local = "target" then { e with Target := a.Value }
  else { e with ext := { e.ext with toObject := e.ext.toObject.addAttr a } }

def Edge.attrs (e : Edge) : List XAttr :=
  e.ext.toObject.attrs ++ [newAttr "" "source" e.Source, newAttr "" "target" e.Target]

def Edge.setID (e : Edge) (id : String) : Edge :=
  { e with ext := { e.ext with toObject := { e.ext.toObject with ID := id } } }

def Edge.pushData (e : Edge) (d : Data) : Edge :=
  { e with ext := { e.ext with Data := e.ext.Data ++ [d] } }

-- Graph and Node from graphml.go, mutually recursive: a Graph holds Node
-- and Edge children, a Node holds nested Graph children (subgraphs).
mutual
inductive Graph where
  | mk (ext : ExtObject) (EdgeDefault : EdgeDir) (Nodes : List Node) (Edges : List Edge) : Graph
inductive Node where
  | mk (ext : ExtObject) (Graphs : List Graph) : Node
end

def Graph.ext : Graph → ExtObject
  | .mk e _ _ _ => e

def Graph.EdgeDefault : Graph → EdgeDir
  | .mk _ d _ _ => d

def Graph.Nodes : Graph → List Node
  | .mk _ _ ns _ => ns

def Graph.Edges : Graph → List Edge
  | .mk _ _ _ es => es

def Graph.ID (g : Graph) : String := g.ext.toObject.ID

def Graph.empty : Graph := .mk ExtObject.empty "" [] []

def Node.ext : Node → ExtObject
  | .mk e _ => e

def Node.Graphs : Node → List Graph
  | .mk _ gs => gs

def Node.ID (n : Node) : String := n.ext.toObject.ID

def Node.empty : Node := .mk ExtObject.empty []

/-- Graph.addAttr: edgedefault is mapped to the EdgeDefault field, the rest
goes through Object.addAttr. -/
def Graph.addAttr : Graph → XAttr → Graph
  | .mk e d ns es, a =>
    if a.Name.Local = "edgedefault" then .mk e a.Value ns es
    else .mk { e with toObject := e.toObject.addAttr a } d ns es

/-- Graph.attrs: Object.attrs, then edgedefault when non-empty. -/
def Graph.attrs : Graph → List XAttr
  | .mk e d _ _ =>
    e.toObject.attrs ++ (if d ≠ "" then [newAttr "" "edgedefault" d] else [])

def Graph.setID : Graph → String → Graph
  | .mk e d ns es, id => .mk { e with toObject := { e.toObject with ID := id } } d ns es

def Graph.pushData : Graph → Data → Graph
  | .mk e d ns es, dt => .mk { e with Data := e.Data ++ [dt] } d ns es

def Graph.pushNode : Graph → Node → Graph
  | .mk e d ns es, n => .mk e d (ns ++ [n]) es

def Graph.pushEdge : Graph → Edge → Graph
  | .mk e d ns es, ed => .mk e d ns (es ++ [ed])

/-- Node.addAttr: everything goes through Object.addAttr. -/
def Node.addAttr : Node → XAttr → Node
  | .mk e gs, a => .mk { e with toObject := e.toObject.addAttr a } gs

/-- Node.attrs: exactly Object.attrs. -/
def Node.attrs : Node → List XAttr
  | .mk e _ => e.toObject.attrs

def Node.setID : Node → String → Node
  | .mk e gs, id => .mk { e with toObject := { e.toObject with ID := id } } gs

def Node.pushData : Node → Data → Node
  | .mk e gs, dt => .mk { e with Data := e.Data ++ [dt] } gs

def Node.pushGraph : Node → Graph → Node
  | .mk e gs, g => .mk e (gs ++ [g])

/-- Document from graphml.go: the root of a GraphML document. -/
structure Document where
  Instr : XProcInst
  Attrs : List XAttr
  Keys : List Key
  Graphs : List Graph
  Data : List Data

def Document.empty : Document := ⟨⟨"", ""⟩, [], [], [], []⟩

/-! ## Decoder -/

/-- The decode errors raised by the decoder source.  Each constructor
corresponds to one fmt.Errorf site or sentinel: unexpectedEOF is
io.ErrUnexpectedEOF, unexpectedToken is "unexpected token",
unexpectedElement is "unexpected element" (child in a foreign namespace),
unknownElement is "unknown element" (known namespace, unknown local name),
redefinitionOfKey is "redefinition of key" (the kind is KindAll when the
collision is in the scope-all table), redefinitionOfID is "redefinition of
id", and unexpectedAttr is "unexpected attr" (a data key reference that
resolves in neither table).  outOfFuel is a modelling artifact of the fuel
embedding; the entry point supplies fuel larger than the stream length,
which never exhausts (every loop iteration consumes a token). -/
inductive DecodeError where
  | unexpectedEOF
  | unexpectedToken (t : Token)
  | unexpectedElement (n : XName)
  | unknownElement (n : XName)
  | redefinitionOfKey (id : String) (kind : Kind)
  | redefinitionOfID (id : String)
  | unexpectedAttr (kind : Kind) (key : String)
  | outOfFuel
deriving DecidableEq, Repr

/-- docKey from the decoder source: the lookup key of the scoped key
table. -/
structure docKey where
  name : String
  kind : Kind
deriving DecidableEq, Repr

/-- docDecoder from the decoder source: the two key tables, the set of
seen identifiers, and the document under construction.  The Go maps are
embedded as association lists used only for membership and insertion. -/
structure docDecoder where
  keysAll : List (String × Key)
  keys : List (docKey × Key)
  ids : List String
  doc : Document

def docDecoder.init : docDecoder := ⟨[], [], [], Document.empty⟩

/-- Membership in the scope-all key table. -/
def hasKeyAll (m : List (String × Key)) (id : String) : Bool :=
  m.any fun p => decide (p.1 = id)

/-- Membership in the scoped key table. -/
def hasKeyFor (m : List (docKey × Key)) (dk : docKey) : Bool :=
  m.any fun p => decide (p.1 = dk)

/-- Membership in the set of seen identifiers. -/
def hasID (l : List String) (id : String) : Bool :=
  l.any fun s => decide (s = id)

/-- docDecoder.addID: the empty identifier is accepted without being
registered; a non-empty identifier must be globally fresh and is added to
the seen set.  On success Go returns the identifier unchanged. -/
def addID (st : docDecoder) (id : String) : Except DecodeError (String × docDecoder) :=
  if id = "" then .ok ("", st)
  else if hasID st.ids id then .error (.redefinitionOfID id)
  else .ok (id, { st with ids := st.ids ++ [id] })

/-- docDecoder.expectEnd: skip skippable tokens until the matching end
element; anything else is an unexpected token, end of stream is
unexpectedEOF. -/
def expectEnd (name : XName) : List Token → Except DecodeError (List Token)
  | [] => .error .unexpectedEOF
  | t :: ts =>
    if canSkip t then expectEnd name ts
    else match t with
      | .EndElement n =>
        if n = name then .ok ts else .error (.unexpectedToken (.EndElement n))
      | _ => .error (.unexpectedToken t)

/-- The head of docDecoder.decodeKey: fold the start attributes into a
Key and default an unset scope to KindAll. -/
def normKey (attr : List XAttr) : Key :=
  let k0 := attr.foldl Key.addAttr Key.empty
  if k0.For = "" then { k0 with For := KindAll } else k0

/-- docDecoder.decodeKey: fold the start attributes into a Key, default the
scope to KindAll, reject a redefinition in the matching table, register the
key in that table and in Document.Keys, then expect the end element. -/
def decodeKey (st : docDecoder) (attr : List XAttr) (name : XName) (ts : List Token) :
    Except DecodeError (docDecoder × List Token) :=
  let k := normKey attr
  if k.For = KindAll then
    if hasKeyAll st.keysAll k.ID then .error (.redefinitionOfKey k.ID KindAll)
    else
      match expectEnd name ts with
      | .error e => .error e
      | .ok rest =>
        .ok ({ st with keysAll := st.keysAll ++ [(k.ID, k)],
                       doc := { st.doc with Keys := st.doc.Keys ++ [k] } }, rest)
  else
    if hasKeyFor st.keys ⟨k.ID, k.For⟩ then .error (.redefinitionOfKey k.ID k.For)
    else
      match expectEnd name ts with
      | .error e => .error e
      | .ok rest =>
        .ok ({ st with keys := st.keys ++ [(⟨k.ID, k.For⟩, k)],
                       doc := { st.doc with Keys := st.doc.Keys ++ [k] } }, rest)

/-- The raw capture loop of docDecoder.decodeData: every token up to the
first end element carrying the data element name — comments and whitespace
included, nothing skipped — is appended to the payload in order. -/
def decodeDataLoop (name : XName) (acc : List Token) :
    List Token → Except DecodeError (List Token × List Token)
  | [] => .error .unexpectedEOF
  | t :: ts =>
    match t with
    | .EndElement n =>
      if n = name then .ok (acc, ts)
      else decodeDataLoop name (acc ++ [.EndElement n]) ts
    | _ => decodeDataLoop name (acc ++ [t]) ts

/-- docDecoder.decodeData: fold the start attributes into a Data, require
the key reference to resolve in the scoped table for the enclosing kind or
in the scope-all table, then capture the raw payload. -/
def decodeData (st : docDecoder) (kind : Kind) (attr : List XAttr) (name : XName)
    (ts : List Token) : Except DecodeError (Data × List Token) :=
  let d := attr.foldl Data.addAttr Data.empty
  if hasKeyFor st.keys ⟨d.Key, kind⟩ || hasKeyAll st.keysAll d.Key then
    match decodeDataLoop name [] ts with
    | .error e => .error e
    | .ok (payload, rest) => .ok ({ d with Tokens := payload }, rest)
  else .error (.unexpectedAttr kind d.Key)

/-- docDecoder.startGraphML: skip skippable tokens, record processing
instructions, and accept the namespaced graphml root start element,
storing its raw attributes. -/
def startGraphML (doc : Document) : List Token → Except DecodeError (Document × XName × List Token)
  | [] => .error .unexpectedEOF
  | t :: ts =>
    if canSkip t then startGraphML doc ts
    else match t with
      | .ProcInst target inst => startGraphML { doc with Instr := ⟨target, inst⟩ } ts
      | .StartElement n attr =>
        if n.Local = "graphml" ∧ n.Space = Namespace then
          .ok ({ doc with Attrs := attr }, n, ts)
        else .error (.unexpectedToken (.StartElement n attr))
      | _ => .error (.unexpectedToken t)

/-- The attribute-and-identifier head of docDecoder.decodeGraph, before its
child loop: fold the start attributes and register the identifier. -/
def startGraphEl (st : docDecoder) (attr : List XAttr) :
    Except DecodeError (Graph × docDecoder) :=
  let g := attr.foldl Graph.addAttr Graph.empty
  match addID st g.ID with
  | .error e => .error e
  | .ok (id, st) => .ok (g.setID id, st)

/-- The attribute-and-identifier head of docDecoder.decodeNode. -/
def startNodeEl (st : docDecoder) (attr : List XAttr) :
    Except DecodeError (Node × docDecoder) :=
  let n := attr.foldl Node.addAttr Node.empty
  match addID st n.ID with
  | .error e => .error e
  | .ok (id, st) => .ok (n.setID id, st)

/-- The attribute-and-identifier head of docDecoder.decodeEdge. -/
def startEdgeEl (st : docDecoder) (attr : List XAttr) :
    Except DecodeError (Edge × docDecoder) :=
  let e := attr.foldl Edge.addAttr Edge.empty
  match addID st e.ID with
  | .error e2 => .error e2
  | .ok (id, st) => .ok (e.setID id, st)

/-- The four recursive-descent loops of the decoder source, as one fuel
level: root is the body of docDecoder.DecodeFrom after the root start,
graphNodes is docDecoder.decodeGraphNodes, nodeLoop and edgeLoop are the
child loops of docDecoder.decodeNode and docDecoder.decodeEdge. -/
structure Decoders where
  root : docDecoder → XName → List Token → Except DecodeError (docDecoder × List Token)
  graphNodes : docDecoder → Graph → XName → List Token → Except DecodeError (Graph × docDecoder × List Token)
  nodeLoop : docDecoder → Node → XName → List Token → Except DecodeError (Node × docDecoder × List Token)
  edgeLoop : docDecoder → Edge → XName → List Token → Except DecodeError (Edge × docDecoder × List Token)

/-- Fuel zero: every loop reports the fuel artifact error. -/
def decodersZero : Decoders :=
  { root := fun _ _ _ => .error .outOfFuel
    graphNodes := fun _ _ _ _ => .error .outOfFuel
    nodeLoop := fun _ _ _ _ => .error .outOfFuel
    edgeLoop := fun _ _ _ _ => .error .outOfFuel }

/-- docDecoder.decodeGraph against a given child loop: attribute head, then
the graph child loop. -/
def decodeGraphF
    (loop : docDecoder → Graph → XName → List Token → Except DecodeError (Graph × docDecoder × List Token))
    (st : docDecoder) (attr : List XAttr) (name : XName) (ts : List Token) :
    Except DecodeError (Graph × docDecoder × List Token) :=
  match startGraphEl st attr with
  | .error e => .error e
  | .ok (g, st) => loop st g name ts

/-- docDecoder.decodeNode against a given child loop. -/
def decodeNodeF
    (loop : docDecoder → Node → XName → List Token → Except DecodeError (Node × docDecoder × List Token))
    (st : docDecoder) (attr : List XAttr) (name : XName) (ts : List Token) :
    Except DecodeError (Node × docDecoder × List Token) :=
  match startNodeEl st attr with
  | .error e => .error e
  | .ok (n, st) => loop st n name ts

/-- docDecoder.decodeEdge against a given child loop. -/
def decodeEdgeF
    (loop : docDecoder → Edge → XName → List Token → Except DecodeError (Edge × docDecoder × List Token))
    (st : docDecoder) (attr : List XAttr) (name : XName) (ts : List Token) :
    Except DecodeError (Edge × docDecoder × List Token) :=
  match startEdgeEl st attr with
  | .error e => .error e
  | .ok (ed, st) => loop st ed name ts

/-- One fuel step: each loop consumes one token and continues, dispatches
to a child (at the previous fuel level), or returns at its matching end
element, exactly following the source switch statements. -/
def decodersStep (prev : Decoders) : Decoders where
  root := fun st rootName ts =>
    match ts with
    | [] => .error .unexpectedEOF
    | t :: ts =>
      if canSkip t then prev.root st rootName ts
      else match t with
        | .StartElement n attr =>
          if n.Space ≠ Namespace then .error (.unexpectedElement n)
          else if n.Local = "key" then
            match decodeKey st attr n ts with
            | .error e => .error e
            | .ok (st, rest) => prev.root st rootName rest
          else if n.Local = "graph" then
            match decodeGraphF prev.graphNodes st attr n ts with
            | .error e => .error e
            | .ok (g, st, rest) =>
              prev.root { st with doc := { st.doc with Graphs := st.doc.Graphs ++ [g] } } rootName rest
          else if n.Local = "data" then
            match decodeData st KindGraphML attr n ts with
            | .error e => .error e
            | .ok (d, rest) =>
              prev.root { st with doc := { st.doc with Data := st.doc.Data ++ [d] } } rootName rest
          else .error (.unknownElement n)
        | .EndElement n =>
          if n = rootName then .ok (st, ts) else .error (.unexpectedToken (.EndElement n))
        | _ => .error (.unexpectedToken t)
  graphNodes := fun st g name ts =>
    match ts with
    | [] => .error .unexpectedEOF
    | t :: ts =>
      if canSkip t then prev.graphNodes st g name ts
      else match t with
        | .StartElement n attr =>
          if n.Space ≠ Namespace then .error (.unexpectedElement n)
          else if n.Local = "data" then
            match decodeData st KindGraph attr n ts with
            | .error e => .error e
            | .ok (d, rest) => prev.graphNodes st (g.pushData d) name rest
          else if n.Local = "node" then
            match decodeNodeF prev.nodeLoop st attr n ts with
            | .error e => .error e
            | .ok (nd, st, rest) => prev.graphNodes st (g.pushNode nd) name rest
          else if n.Local = "edge" then
            match decodeEdgeF prev.edgeLoop st attr n ts with
            | .error e => .error e
            | .ok (ed, st, rest) => prev.graphNodes st (g.pushEdge ed) name rest
          else .error (.unknownElement n)
        | .EndElement n =>
          if n = name then .ok (g, st, ts) else .error (.unexpectedToken (.EndElement n))
        | _ => .error (.unexpectedToken t)
  nodeLoop := fun st nd name ts =>
    match ts with
    | [] => .error .unexpectedEOF
    | t :: ts =>
      if canSkip t then prev.nodeLoop st nd name ts
      else match t with
        | .StartElement n attr =>
          if n.Space ≠ Namespace then .error (.unexpectedElement n)
          else if n.Local = "data" then
            match decodeData st KindNode attr n ts with
            | .error e => .error e
            | .ok (d, rest) => prev.nodeLoop st (nd.pushData d) name rest
          else if n.Local = "graph" then
            match decodeGraphF prev.graphNodes st attr n ts with
            | .error e => .error e
            | .ok (g, st, rest) => prev.nodeLoop st (nd.pushGraph g) name rest
          else .error (.unknownElement n)
        | .EndElement n =>
          if n = name then .ok (nd, st, ts) else .error (.unexpectedToken (.EndElement n))
        | _ => .error (.unexpectedToken t)
  edgeLoop := fun st ed name ts =>
    match ts with
    | [] => .error .unexpectedEOF
    | t :: ts =>
      if canSkip t then prev.edgeLoop st ed name ts
      else match t with
        | .StartElement n attr =>
          if n.Space ≠ Namespace then .error (.unexpectedElement n)
          else if n.Local = "data" then
            match decodeData st KindEdge attr n ts with
            | .error e => .error e
            | .ok (d, rest) => prev.edgeLoop st (ed.pushData d) name rest
          else .error (.unknownElement n)
        | .EndElement n =>
          if n = name then .ok (ed, st, ts) else .error (.unexpectedToken (.EndElement n))
        | _ => .error (.unexpectedToken t)

/-- The fuel-indexed family of decoder loops. -/
def decoders : Nat → Decoders
  | 0 => decodersZero
  | fuel + 1 => decodersStep (decoders fuel)

/-- docDecoder.DecodeFrom after the root start element, at a given fuel. -/
def decodeRootLoop (fuel : Nat) : docDecoder → XName → List Token →
    Except DecodeError (docDecoder × List Token) :=
  (decoders fuel).root

/-- docDecoder.decodeGraphNodes at a given fuel. -/
def decodeGraphNodes (fuel : Nat) : docDecoder → Graph → XName → List Token →
    Except DecodeError (Graph × docDecoder × List Token) :=
  (decoders fuel).graphNodes

/-- The child loop of docDecoder.decodeNode at a given fuel. -/
def decodeNodeLoop (fuel : Nat) : docDecoder → Node → XName → List Token →
    Except DecodeError (Node × docDecoder × List Token) :=
  (decoders fuel).nodeLoop

/-- The child loop of docDecoder.decodeEdge at a given fuel. -/
def decodeEdgeLoop (fuel : Nat) : docDecoder → Edge → XName → List Token →
    Except DecodeError (Edge × docDecoder × List Token) :=
  (decoders fuel).edgeLoop

/-- docDecoder.decodeGraph at a given fuel. -/
def decodeGraph (fuel : Nat) (st : docDecoder) (attr : List XAttr) (name : XName)
    (ts : List Token) : Except DecodeError (Graph × docDecoder × List Token) :=
  decodeGraphF (decoders fuel).graphNodes st attr name ts

/-- docDecoder.decodeNode at a given fuel. -/
def decodeNode (fuel : Nat) (st : docDecoder) (attr : List XAttr) (name : XName)
    (ts : List Token) : Except DecodeError (Node × docDecoder × List Token) :=
  decodeNodeF (decoders fuel).nodeLoop st attr name ts

/-- docDecoder.decodeEdge at a given fuel. -/
def decodeEdge (fuel : Nat) (st : docDecoder) (attr : List XAttr) (name : XName)
    (ts : List Token) : Except DecodeError (Edge × docDecoder × List Token) :=
  decodeEdgeF (decoders fuel).edgeLoop st attr name ts

/-- The successful inner run of DecodeFrom: the root start element, then
the root loop up to the matching root end element.  The fuel is one more
than the remaining stream length, which is always sufficient. -/
def decodeRun (ts : List Token) : Except DecodeError (docDecoder × List Token) :=
  match startGraphML Document.empty ts with
  | .error e => .error e
  | .ok (doc, rootName, rest) =>
    decodeRootLoop (rest.length + 1) { docDecoder.init with doc := doc } rootName rest

/-- DecodeFrom from the decoder source: on any error of the inner run the
error alone is returned and the partially built document is discarded; the
document is published only on full success of the root element. -/
def DecodeFromTokens (ts : List Token) : Except DecodeError Document :=
  match decodeRun ts with
  | .error e => .error e
  | .ok (st, _) => .ok st.doc

/-! ## Encoder

The encoder walks the document and pushes tokens to the sink.  The sink
is embedded as the emitted token list (the Go sink, xml.Encoder, is an
external collaborator; its own I/O failures are outside the core).  The
element name constructor is a parameter: the source fixes it to mlName
(empty namespace); instantiating it with nsName describes the same stream
after the external tokenizer has re-applied the document namespace to the
element names, which the round-trip development needs. -/

/-- An element name carrying the GraphML namespace: the shape the external
tokenizer produces for the encoder output once the root default-namespace
declaration is in effect. -/
def nsName (name : String) : XName :=
  ⟨Namespace, name⟩

/-- docEncoder.encodeData for one Data: start element with Data.attrs, the
raw payload replayed unchanged, then the end element. -/
def encodeData1 (mk : String → XName) (d : Data) : List Token :=
  .StartElement (mk "data") d.attrs :: (d.Tokens ++ [.EndElement (mk "data")])

/-- docEncoder.encodeData over a Data sequence. -/
def encodeDataList (mk : String → XName) : List Data → List Token
  | [] => []
  | d :: ds => encodeData1 mk d ++ encodeDataList mk ds

/-- docEncoder.Encode on one Key: an empty element (startEnd) with
Key.attrs. -/
def encodeKey1 (mk : String → XName) (k : Key) : List Token :=
  [.StartElement (mk "key") k.attrs, .EndElement (mk "key")]

/-- The key-emission loop of docEncoder.Encode. -/
def encodeKeyList (mk : String → XName) : List Key → List Token
  | [] => []
  | k :: ks => encodeKey1 mk k ++ encodeKeyList mk ks

/-- docEncoder.encodeEdge: start element with Edge.attrs, the edge data,
then the end element. -/
def encodeEdge1 (mk : String → XName) (e : Edge) : List Token :=
  .StartElement (mk "edge") e.attrs :: (encodeDataList mk e.ext.Data ++ [.EndElement (mk "edge")])

/-- The edge-emission loop of docEncoder.encodeGraph. -/
def encodeEdgeList (mk : String → XName) : List Edge → List Token
  | [] => []
  | e :: es => encodeEdge1 mk e ++ encodeEdgeList mk es

mutual
/-- docEncoder.encodeGraph: start element with Graph.attrs, data, nodes,
edges, end element. -/
def encodeGraph1 (mk : String → XName) : Graph → List Token
  | .mk e d ns es =>
    .StartElement (mk "graph") (Graph.attrs (.mk e d ns es)) ::
      (encodeDataList mk e.Data ++ encodeNodeList mk ns ++ encodeEdgeList mk es
        ++ [.EndElement (mk "graph")])

/-- The node-emission loop of docEncoder.encodeGraph. -/
def encodeNodeList (mk : String → XName) : List Node → List Token
  | [] => []
  | n :: ns => encodeNode1 mk n ++ encodeNodeList mk ns

/-- docEncoder.encodeNode: start element with Node.attrs, data, subgraphs,
end element. -/
def encodeNode1 (mk : String → XName) : Node → List Token
  | .mk e gs =>
    .StartElement (mk "node") (Node.attrs (.mk e gs)) ::
      (encodeDataList mk e.Data ++ encodeGraphList mk gs ++ [.EndElement (mk "node")])

/-- The subgraph-emission loop of docEncoder.encodeNode. -/
def encodeGraphList (mk : String → XName) : List Graph → List Token
  | [] => []
  | g :: gs => encodeGraph1 mk g ++ encodeGraphList mk gs
end

/-- docEncoder.Encode with the element name constructor as a parameter:
the stored processing instruction, the root start element with the stored
raw attributes, the keys as empty elements, the graphs, the document data,
and the root end element. -/
def EncodeTokensW (mk : String → XName) (doc : Document) : List Token :=
  .ProcInst doc.Instr.Target doc.Instr.Inst ::
    .StartElement (mk "graphml") doc.Attrs ::
      (encodeKeyList mk doc.Keys ++ encodeGraphList mk doc.Graphs
        ++ encodeDataList mk doc.Data ++ [.EndElement (mk "graphml")])

/-- EncodeTo from the encoder source: the token stream pushed to the sink,
with element names built by mlName exactly as in the source. -/
def EncodeTokens (doc : Document) : List Token :=
  EncodeTokensW mlName doc

/-! ## The external serialize-and-retokenize bridge -/

/-- Modelled from the spec: the Token Sink and Token Source are external
collaborators (§2, §6) that the core treats as a black box, and the code
that turns the emitted tokens back into a decodable stream (the XML
serializer followed by the XML tokenizer) is not part of this repository.
The spec states that re-decoding the re-encoded output is meaningful
because the persisted format carries a single namespaced root element
(§6) whose raw attribute list — including its namespace declaration — is
preserved verbatim; the bridge is therefore modelled as re-applying the
root default-namespace declaration (the last attribute literally named
xmlns) to every element name the encoder emitted without a namespace,
leaving every other event unchanged (§4.2 guarantees captured payload
events are replayed with byte-level fidelity). -/
def xmlnsDefault (attrs : List XAttr) : Option String :=
  attrs.foldl (fun acc a => if a.Name = ⟨"", "xmlns"⟩ then some a.Value else acc) none

/-- The default namespace in effect at the root of a token stream: the
xmlns declaration of the first start element, when present. -/
def defaultNSOf : List Token → String
  | [] => ""
  | .StartElement _ attr :: _ => (xmlnsDefault attr).getD ""
  | _ :: ts => defaultNSOf ts

/-- Fill an element name that carries no namespace with the default
namespace. -/
def fillName (d : String) (n : XName) : XName :=
  if n.Space = "" then ⟨d, n.Local⟩ else n

/-- Apply the default namespace to the names of start and end elements;
all other events are unchanged. -/
def fillToken (d : String) : Token → Token
  | .StartElement n attr => .StartElement (fillName d n) attr
  | .EndElement n => .EndElement (fillName d n)
  | t => t

/-- Modelled from the spec: the serialize-and-retokenize round trip
through the external Token Sink and Token Source, reduced to its
namespace effect — every element name emitted without a namespace
receives the root default namespace. -/
def retokenize (ts : List Token) : List Token :=
  ts.map (fillToken (defaultNSOf ts))

/-! ## Derived tree functions

Collectors and checkers over the document tree, used to state the
invariants the decoder establishes and the conditions under which the
encoder output re-decodes to the same document.  They traverse the tree
in encoder order (data, then nodes, then edges; subgraphs after node
data). -/

/-- The identifier of an Edge as registered by the decoder: nothing when
empty. -/
def edgeIDs (e : Edge) : List String :=
  if e.ID ≠ "" then [e.ID] else []

def edgeListIDs : List Edge → List String
  | [] => []
  | e :: es => edgeIDs e ++ edgeListIDs es

mutual
/-- The non-empty identifiers of a graph subtree, in encoder order. -/
def graphIDs : Graph → List String
  | .mk ext _ ns es =>
    (if ext.toObject.ID ≠ "" then [ext.toObject.ID] else [])
      ++ nodeListIDs ns ++ edgeListIDs es

def nodeListIDs : List Node → List String
  | [] => []
  | n :: ns => nodeIDs n ++ nodeListIDs ns

/-- The non-empty identifiers of a node subtree, in encoder order. -/
def nodeIDs : Node → List String
  | .mk ext gs =>
    (if ext.toObject.ID ≠ "" then [ext.toObject.ID] else []) ++ graphListIDs gs

def graphListIDs : List Graph → List String
  | [] => []
  | g :: gs => graphIDs g ++ graphListIDs gs
end

/-- The non-empty element identifiers of a document, in encoder order. -/
def docIDs (doc : Document) : List String :=
  graphListIDs doc.Graphs

/-- No attribute in the list carries one of the reserved local names. -/
def noReserved (reserved : List String) (attrs : List XAttr) : Bool :=
  attrs.all fun a => decide (a.Name.Local ∉ reserved)

/-- A Key as the decoder stores it: normalized non-empty scope and
unrecognized attributes free of the locals the marshaller absorbs. -/
def keyWFB (k : Key) : Bool :=
  decide (k.For ≠ "") && noReserved ["id", "for", "attr.name", "attr.type"] k.toObject.Unrecognized

/-- A Data as the decoder stores it: unrecognized attributes free of key,
and a payload free of the end element that terminates the capture. -/
def dataWFB (d : Data) : Bool :=
  noReserved ["key"] d.Unrecognized
    && d.Tokens.all fun t => decide (t ≠ .EndElement ⟨Namespace, "data"⟩)

/-- The data key reference resolves: in the scoped table under the given
kind, or in the scope-all table. -/
def dataResB (ka : List String) (ks : List docKey) (kind : Kind) (d : Data) : Bool :=
  decide ((⟨d.Key, kind⟩ : docKey) ∈ ks) || decide (d.Key ∈ ka)

def dataOKB (ka : List String) (ks : List docKey) (kind : Kind) (d : Data) : Bool :=
  dataWFB d && dataResB ka ks kind d

/-- An Edge as the decoder stores it, with resolvable data references. -/
def edgeWFB (ka : List String) (ks : List docKey) (e : Edge) : Bool :=
  noReserved ["id", "source", "target"] e.ext.toObject.Unrecognized
    && e.ext.Data.all (dataOKB ka ks KindEdge)

def edgeListWFB (ka : List String) (ks : List docKey) : List Edge → Bool
  | [] => true
  | e :: es => edgeWFB ka ks e && edgeListWFB ka ks es

mutual
/-- A Graph subtree as the decoder stores it. -/
def graphWFB (ka : List String) (ks : List docKey) : Graph → Bool
  | .mk ext _ ns es =>
    noReserved ["id", "edgedefault"] ext.toObject.Unrecognized
      && ext.Data.all (dataOKB ka ks KindGraph)
      && nodeListWFB ka ks ns
      && edgeListWFB ka ks es

def nodeListWFB (ka : List String) (ks : List docKey) : List Node → Bool
  | [] => true
  | n :: ns => nodeWFB ka ks n && nodeListWFB ka ks ns

/-- A Node subtree as the decoder stores it. -/
def nodeWFB (ka : List String) (ks : List docKey) : Node → Bool
  | .mk ext gs =>
    noReserved ["id"] ext.toObject.Unrecognized
      && ext.Data.all (dataOKB ka ks KindNode)
      && graphListWFB ka ks gs

def graphListWFB (ka : List String) (ks : List docKey) : List Graph → Bool
  | [] => true
  | g :: gs => graphWFB ka ks g && graphListWFB ka ks gs
end

/-- The scope-all table rebuilt from a key list, as pairs. -/
def keysPairsAll (keys : List Key) : List (String × Key) :=
  (keys.filter fun k => decide (k.For = KindAll)).map fun k => (k.ID, k)

/-- The scoped table rebuilt from a key list, as pairs. -/
def keysPairsFor (keys : List Key) : List (docKey × Key) :=
  (keys.filter fun k => decide (k.For ≠ KindAll)).map fun k => (⟨k.ID, k.For⟩, k)

/-- Two key declarations collide when they share identifier and scope. -/
def keysDistinctB (keys : List Key) : Bool :=
  decide (keys.Pairwise fun a b => ¬(a.ID = b.ID ∧ a.For = b.For))

/-- The whole-document invariant established by a successful decode:
normalized distinct keys, clean attribute lists, resolvable data
references against the document key tables, and document-wide unique
non-empty identifiers. -/
def docWFB (doc : Document) : Bool :=
  doc.Keys.all keyWFB
    && keysDistinctB doc.Keys
    && doc.Data.all
        (dataOKB ((keysPairsAll doc.Keys).map Prod.fst)
          ((keysPairsFor doc.Keys).map Prod.fst) KindGraphML)
    && graphListWFB ((keysPairsAll doc.Keys).map Prod.fst)
        ((keysPairsFor doc.Keys).map Prod.fst) doc.Graphs
    && decide (docIDs doc).Nodup

/-- A token whose element name, if any, carries an explicit namespace;
such tokens pass through the retokenize bridge unchanged. -/
def tokenNSB : Token → Bool
  | .StartElement n _ => decide (n.Space ≠ "")
  | .EndElement n => decide (n.Space ≠ "")
  | _ => true

def dataNSB (d : Data) : Bool :=
  d.Tokens.all tokenNSB

def edgeListNSB : List Edge → Bool
  | [] => true
  | e :: es => e.ext.Data.all dataNSB && edgeListNSB es

mutual
def graphNSB : Graph → Bool
  | .mk ext _ ns es => ext.Data.all dataNSB && nodeListNSB ns && edgeListNSB es

def nodeListNSB : List Node → Bool
  | [] => true
  | n :: ns => nodeNSB n && nodeListNSB ns

def nodeNSB : Node → Bool
  | .mk ext gs => ext.Data.all dataNSB && graphListNSB gs

def graphListNSB : List Graph → Bool
  | [] => true
  | g :: gs => graphNSB g && graphListNSB gs
end

/-- The namespace conditions of the round-trip theorem: the stored root
attributes declare the GraphML namespace as the default, and every raw
payload element carries an explicit namespace. -/
def docNSB (doc : Document) : Bool :=
  decide (xmlnsDefault doc.Attrs = some Namespace)
    && doc.Data.all dataNSB
    && graphListNSB doc.Graphs

/-- The loop iterations an edge body costs during decoding: one per data
child plus the end element. -/
def edgeBurn (e : Edge) : Nat :=
  e.ext.Data.length + 1

def edgeListBurn : List Edge → Nat
  | [] => 0
  | e :: es => 1 + edgeBurn e + edgeListBurn es

mutual
/-- The loop iterations a graph body costs during decoding. -/
def graphBurn : Graph → Nat
  | .mk ext _ ns es => ext.Data.length + nodeListBurn ns + edgeListBurn es + 1

def nodeListBurn : List Node → Nat
  | [] => 0
  | n :: ns => 1 + nodeBurn n + nodeListBurn ns

/-- The loop iterations a node body costs during decoding. -/
def nodeBurn : Node → Nat
  | .mk ext gs => ext.Data.length + graphListBurn gs + 1

def graphListBurn : List Graph → Nat
  | [] => 0
  | g :: gs => 1 + graphBurn g + graphListBurn gs
end

/-- Push a data list into a graph accumulator, one element at a time, the
way the decoder loop does. -/
def Graph.pushDataList : Graph → List Data → Graph
  | g, [] => g
  | g, d :: ds => (g.pushData d).pushDataList ds

def Graph.pushNodeList : Graph → List Node → Graph
  | g, [] => g
  | g, n :: ns => (g.pushNode n).pushNodeList ns

def Graph.pushEdgeList : Graph → List Edge → Graph
  | g, [] => g
  | g, e :: es => (g.pushEdge e).pushEdgeList es

def Node.pushDataList : Node → List Data → Node
  | n, [] => n
  | n, d :: ds => (n.pushData d).pushDataList ds

def Node.pushGraphList : Node → List Graph → Node
  | n, [] => n
  | n, g :: gs => (n.pushGraph g).pushGraphList gs

def Edge.pushDataList : Edge → List Data → Edge
  | e, [] => e
  | e, d :: ds => (e.pushData d).pushDataList ds

/-! ## Specification-side definitions for comparison -/

/-- The Key attribute order as the specification words it: id when
non-empty, then for, then attr.name when non-empty, then attr.type when
non-empty, then the unrecognized attributes last.  Written from the spec
sentence for comparison with Key.attrs, which is written from the
source. -/
def specKeyAttrs (k : Key) : List XAttr :=
  (if k.ID ≠ "" then [newAttr "" "id" k.ID] else [])
    ++ [newAttr "" "for" k.For]
    ++ (if k.Name ≠ "" then [newAttr "" "attr.name" k.Name] else [])
    ++ (if k.Typ ≠ "" then [newAttr "" "attr.type" k.Typ] else [])
    ++ k.toObject.Unrecognized

/-! ## Helper lemmas -/

theorem expectEnd_error_shape (name : XName) :
    ∀ ts e, expectEnd name ts = .error e →
      e = .unexpectedEOF ∨ ∃ t, e = .unexpectedToken t := by
  intro ts
  induction ts with
  | nil => intro e h; simp only [expectEnd] at h; exact Or.inl (by injection h with h2; exact h2.symm)
  | cons t ts ih =>
    intro e h
    simp only [expectEnd] at h
    by_cases hs : canSkip t
    · rw [if_pos hs] at h; exact ih e h
    · rw [if_neg hs] at h
      split at h
      · split at h
        · cases h
        · injection h with h2; exact Or.inr ⟨_, h2.symm⟩
      · injection h with h2; exact Or.inr ⟨_, h2.symm⟩

theorem decodeDataLoop_error_shape (name : XName) :
    ∀ ts acc e, decodeDataLoop name acc ts = .error e → e = .unexpectedEOF := by
  intro ts
  induction ts with
  | nil => intro acc e h; simp only [decodeDataLoop] at h; injection h with h2; exact h2.symm
  | cons t ts ih =>
    intro acc e h
    match t, h with
    | .EndElement n, h =>
      by_cases hn : n = name
      · simp only [decodeDataLoop, if_pos hn] at h; cases h
      · simp only [decodeDataLoop, if_neg hn] at h; exact ih _ _ h
    | .StartElement n a, h => exact ih _ _ h
    | .CharData s, h => exact ih _ _ h
    | .Comment s, h => exact ih _ _ h
    | .ProcInst a b, h => exact ih _ _ h
    | .Directive s, h => exact ih _ _ h

theorem foldl_Key_addAttr_For (start : Key) :
    ∀ attr : List XAttr, (∀ a ∈ attr, a.Name.Local ≠ "for") →
      (attr.foldl Key.addAttr start).For = start.For := by
  intro attr
  induction attr generalizing start with
  | nil => intro _; rfl
  | cons a attr ih =>
    intro h
    have ha : a.Name.Local ≠ "for" := h a (List.mem_cons_self a attr)
    have : (Key.addAttr start a).For = start.For := by
      simp only [Key.addAttr, if_neg ha]
      split <;> try rfl
      split <;> rfl
    rw [List.foldl_cons, ih _ (fun b hb => h b (List.mem_cons_of_mem a hb)), this]

theorem Graph_pushDataList_eq :
    ∀ ds e x ns es, Graph.pushDataList (.mk e x ns es) ds = .mk { e with Data := e.Data ++ ds } x ns es := by
  intro ds
  induction ds with
  | nil => intro e x ns es; simp [Graph.pushDataList]
  | cons d ds ih => intro e x ns es; simp [Graph.pushDataList, Graph.pushData, ih]

theorem Graph.pushNodeList_eq :
    ∀ ns2 e x ns es, Graph.pushNodeList (.mk e x ns es) ns2 = .mk e x (ns ++ ns2) es := by
  intro ns2
  induction ns2 with
  | nil => intro e x ns es; simp [Graph.pushNodeList]
  | cons n ns2 ih => intro e x ns es; simp [Graph.pushNodeList, Graph.pushNode, ih]

theorem Graph.pushEdgeList_eq :
    ∀ es2 e x ns es, Graph.pushEdgeList (.mk e x ns es) es2 = .mk e x ns (es ++ es2) := by
  intro es2
  induction es2 with
  | nil => intro e x ns es; simp [Graph.pushEdgeList]
  | cons e2 es2 ih => intro e x ns es; simp [Graph.pushEdgeList, Graph.pushEdge, ih]

theorem Node_pushDataList_eq :
    ∀ ds e gs, Node.pushDataList (.mk e gs) ds = .mk { e with Data := e.Data ++ ds } gs := by
  intro ds
  induction ds with
  | nil => intro e gs; simp [Node.pushDataList]
  | cons d ds ih => intro e gs; simp [Node.pushDataList, Node.pushData, ih]

theorem Node.pushGraphList_eq :
    ∀ gs2 e gs, Node.pushGraphList (.mk e gs) gs2 = .mk e (gs ++ gs2) := by
  intro gs2
  induction gs2 with
  | nil => intro e gs; simp [Node.pushGraphList]
  | cons g gs2 ih => intro e gs; simp [Node.pushGraphList, Node.pushGraph, ih]

theorem Edge_pushDataList_eq :
    ∀ ds e, Edge.pushDataList e ds = { e with ext := { e.ext with Data := e.ext.Data ++ ds } } := by
  intro ds
  induction ds with
  | nil => intro e; simp [Edge.pushDataList]
  | cons d ds ih => intro e; simp [Edge.pushDataList, Edge.pushData, ih]

theorem hasKeyAll_eq_mem (m : List (String × Key)) (i : String) :
    hasKeyAll m i = decide (i ∈ m.map Prod.fst) := by
  induction m with
  | nil => rfl
  | cons p m ih =>
    show (decide (p.1 = i) || hasKeyAll m i) = decide (i ∈ p.1 :: m.map Prod.fst)
    rw [ih]
    by_cases h : p.1 = i
    · subst h; simp
    · have h2 : ¬(i = p.1) := fun hc => h hc.symm
      simp [h, h2, List.mem_cons]

theorem hasKeyFor_eq_mem (m : List (docKey × Key)) (dk : docKey) :
    hasKeyFor m dk = decide (dk ∈ m.map Prod.fst) := by
  induction m with
  | nil => rfl
  | cons p m ih =>
    show (decide (p.1 = dk) || hasKeyFor m dk) = decide (dk ∈ p.1 :: m.map Prod.fst)
    rw [ih]
    by_cases h : p.1 = dk
    · subst h; simp
    · have h2 : ¬(dk = p.1) := fun hc => h hc.symm
      simp [h, h2, List.mem_cons]

theorem hasID_eq_mem (l : List String) (i : String) :
    hasID l i = decide (i ∈ l) := by
  induction l with
  | nil => rfl
  | cons s l ih =>
    show (decide (s = i) || hasID l i) = decide (i ∈ s :: l)
    rw [ih]
    by_cases h : s = i
    · subst h; simp
    · have h2 : ¬(i = s) := fun hc => h hc.symm
      simp [h, h2, List.mem_cons]

theorem foldl_Key_addAttr_unrec :
    ∀ (us : List XAttr) (k : Key),
      (∀ a ∈ us, a.Name.Local ∉ (["id", "for", "attr.name", "attr.type"] : List String)) →
      us.foldl Key.addAttr k
        = { k with toObject := { k.toObject with Unrecognized := k.toObject.Unrecognized ++ us } } := by
  intro us
  induction us with
  | nil => intro k _; simp
  | cons a us ih =>
    intro k h
    have ha := h a (List.mem_cons_self a us)
    simp only [List.mem_cons, List.not_mem_nil, or_false, not_or] at ha
    obtain ⟨h1, h2, h3, h4⟩ := ha
    rw [List.foldl_cons]
    have hstep : Key.addAttr k a
        = { k with toObject := { k.toObject with Unrecognized := k.toObject.Unrecognized ++ [a] } } := by
      simp [Key.addAttr, Object.addAttr, h1, h2, h3, h4]
    rw [hstep, ih _ (fun b hb => h b (List.mem_cons_of_mem a hb))]
    simp

theorem foldl_Data_addAttr_unrec :
    ∀ (us : List XAttr) (d : Data),
      (∀ a ∈ us, a.Name.Local ≠ "key") →
      us.foldl Data.addAttr d = { d with Unrecognized := d.Unrecognized ++ us } := by
  intro us
  induction us with
  | nil => intro d _; simp
  | cons a us ih =>
    intro d h
    have ha := h a (List.mem_cons_self a us)
    rw [List.foldl_cons]
    have hstep : Data.addAttr d a = { d with Unrecognized := d.Unrecognized ++ [a] } := by
      simp [Data.addAttr, ha]
    rw [hstep, ih _ (fun b hb => h b (List.mem_cons_of_mem a hb))]
    simp

theorem foldl_Graph_addAttr_unrec :
    ∀ (us : List XAttr) (e : ExtObject) (x : EdgeDir) (ns : List Node) (es : List Edge),
      (∀ a ∈ us, a.Name.Local ∉ (["id", "edgedefault"] : List String)) →
      us.foldl Graph.addAttr (.mk e x ns es)
        = .mk { e with toObject := { e.toObject with Unrecognized := e.toObject.Unrecognized ++ us } } x ns es := by
  intro us
  induction us with
  | nil => intro e x ns es _; simp
  | cons a us ih =>
    intro e x ns es h
    have ha := h a (List.mem_cons_self a us)
    simp only [List.mem_cons, List.not_mem_nil, or_false, not_or] at ha
    obtain ⟨h1, h2⟩ := ha
    rw [List.foldl_cons]
    have hstep : Graph.addAttr (.mk e x ns es) a
        = .mk { e with toObject := { e.toObject with Unrecognized := e.toObject.Unrecognized ++ [a] } } x ns es := by
      simp [Graph.addAttr, Object.addAttr, h1, h2]
    rw [hstep, ih _ _ _ _ (fun b hb => h b (List.mem_cons_of_mem a hb))]
    simp

theorem foldl_Node_addAttr_unrec :
    ∀ (us : List XAttr) (e : ExtObject) (gs : List Graph),
      (∀ a ∈ us, a.Name.Local ≠ "id") →
      us.foldl Node.addAttr (.mk e gs)
        = .mk { e with toObject := { e.toObject with Unrecognized := e.toObject.Unrecognized ++ us } } gs := by
  intro us
  induction us with
  | nil => intro e gs _; simp
  | cons a us ih =>
    intro e gs h
    have ha := h a (List.mem_cons_self a us)
    rw [List.foldl_cons]
    have hstep : Node.addAttr (.mk e gs) a
        = .mk { e with toObject := { e.toObject with Unrecognized := e.toObject.Unrecognized ++ [a] } } gs := by
      simp [Node.addAttr, Object.addAttr, ha]
    rw [hstep, ih _ _ (fun b hb => h b (List.mem_cons_of_mem a hb))]
    simp

theorem foldl_Edge_addAttr_unrec :
    ∀ (us : List XAttr) (e : Edge),
      (∀ a ∈ us, a.Name.Local ∉ (["id", "source", "target"] : List String)) →
      us.foldl Edge.addAttr e
        = { e with ext := { e.ext with toObject := { e.ext.toObject with Unrecognized := e.ext.toObject.Unrecognized ++ us } } } := by
  intro us
  induction us with
  | nil => intro e _; simp
  | cons a us ih =>
    intro e h
    have ha := h a (List.mem_cons_self a us)
    simp only [List.mem_cons, List.not_mem_nil, or_false, not_or] at ha
    obtain ⟨h1, h2, h3⟩ := ha
    rw [List.foldl_cons]
    have hstep : Edge.addAttr e a
        = { e with ext := { e.ext with toObject := { e.ext.toObject with Unrecognized := e.ext.toObject.Unrecognized ++ [a] } } } := by
      simp [Edge.addAttr, Object.addAttr, h1, h2, h3]
    rw [hstep, ih _ (fun b hb => h b (List.mem_cons_of_mem a hb))]
    simp

theorem Key_attrs_normKey (k : Key) (hWF : keyWFB k = true) :
    normKey (Key.attrs k) = k := by
  obtain ⟨⟨kID, kUn⟩, kFor, kName, kTyp⟩ := k
  simp only [keyWFB, Bool.and_eq_true, decide_eq_true_eq, noReserved, List.all_eq_true] at hWF
  obtain ⟨hFor, hUn⟩ := hWF
  have hUn2 : ∀ a ∈ kUn, a.Name.Local ∉ (["id", "for", "attr.name", "attr.type"] : List String) := hUn
  have hfold : (Key.attrs ⟨⟨kID, kUn⟩, kFor, kName, kTyp⟩).foldl Key.addAttr Key.empty
      = ⟨⟨kID, kUn⟩, kFor, kName, kTyp⟩ := by
    simp only [Key.attrs, Object.attrs, Key.ID]
    rw [List.foldl_append, List.foldl_append, List.foldl_append, List.foldl_append]
    have h1 : ((if kID ≠ "" then [newAttr "" "id" kID] else []) : List XAttr).foldl Key.addAttr Key.empty
        = ⟨⟨kID, []⟩, "", "", ""⟩ := by
      by_cases hID : kID = ""
      · rw [if_neg (by simp [hID])]
        simp [hID, Key.empty, Object.empty]
      · rw [if_pos hID]
        rfl
    rw [h1, foldl_Key_addAttr_unrec kUn _ hUn2]
    simp only [List.nil_append]
    by_cases hName : kName = "" <;> by_cases hTyp : kTyp = ""
    · rw [if_neg (by simp [hName]), if_neg (by simp [hTyp])]
      subst hName; subst hTyp; rfl
    · rw [if_neg (by simp [hName]), if_pos hTyp]
      subst hName; rfl
    · rw [if_pos hName, if_neg (by simp [hTyp])]
      subst hTyp; rfl
    · rw [if_pos hName, if_pos hTyp]
      rfl
  simp only [normKey, hfold]
  rw [if_neg hFor]

theorem Data_attrs_fold (d : Data) (h : noReserved ["key"] d.Unrecognized = true) :
    (Data.attrs d).foldl Data.addAttr Data.empty = ⟨d.Key, d.Unrecognized, []⟩ := by
  obtain ⟨dKey, dUn, dToks⟩ := d
  simp only [noReserved, List.all_eq_true, decide_eq_true_eq] at h
  have h2 : ∀ a ∈ dUn, a.Name.Local ≠ "key" := by
    intro a ha
    have := h a ha
    simpa using this
  simp only [Data.attrs]
  rw [List.foldl_cons]
  have hstep : Data.addAttr Data.empty (newAttr "" "key" dKey) = ⟨dKey, [], []⟩ := rfl
  rw [hstep, foldl_Data_addAttr_unrec dUn _ h2]
  simp

theorem Graph_attrs_fold (eo : ExtObject) (x : EdgeDir) (ns : List Node) (es : List Edge)
    (h : noReserved ["id", "edgedefault"] eo.toObject.Unrecognized = true) :
    (Graph.attrs (.mk eo x ns es)).foldl Graph.addAttr Graph.empty
      = .mk ⟨⟨eo.toObject.ID, eo.toObject.Unrecognized⟩, []⟩ x [] [] := by
  obtain ⟨⟨gID, gUn⟩, gData⟩ := eo
  simp only [noReserved, List.all_eq_true] at h
  have h2 : ∀ a ∈ gUn, a.Name.Local ∉ (["id", "edgedefault"] : List String) :=
    fun a ha => of_decide_eq_true (h a ha)
  simp only [Graph.attrs, Object.attrs]
  rw [List.foldl_append, List.foldl_append]
  have h1 : ((if gID ≠ "" then [newAttr "" "id" gID] else []) : List XAttr).foldl Graph.addAttr Graph.empty
      = .mk ⟨⟨gID, []⟩, []⟩ "" [] [] := by
    by_cases hID : gID = ""
    · rw [if_neg (by simp [hID])]
      simp [hID, Graph.empty, ExtObject.empty, Object.empty]
    · rw [if_pos hID]
      rfl
  rw [h1, foldl_Graph_addAttr_unrec gUn _ _ _ _ h2]
  simp only [List.nil_append]
  by_cases hx : x = ""
  · rw [if_neg (by simp [hx])]
    subst hx; rfl
  · rw [if_pos hx]
    rfl

theorem Node_attrs_fold (eo : ExtObject) (gs : List Graph)
    (h : noReserved ["id"] eo.toObject.Unrecognized = true) :
    (Node.attrs (.mk eo gs)).foldl Node.addAttr Node.empty
      = .mk ⟨⟨eo.toObject.ID, eo.toObject.Unrecognized⟩, []⟩ [] := by
  obtain ⟨⟨nID, nUn⟩, nData⟩ := eo
  simp only [noReserved, List.all_eq_true, decide_eq_true_eq] at h
  have h2 : ∀ a ∈ nUn, a.Name.Local ≠ "id" := by
    intro a ha
    have := h a ha
    simpa using this
  simp only [Node.attrs, Object.attrs]
  rw [List.foldl_append]
  have h1 : ((if nID ≠ "" then [newAttr "" "id" nID] else []) : List XAttr).foldl Node.addAttr Node.empty
      = .mk ⟨⟨nID, []⟩, []⟩ [] := by
    by_cases hID : nID = ""
    · rw [if_neg (by simp [hID])]
      simp [hID, Node.empty, ExtObject.empty, Object.empty]
    · rw [if_pos hID]
      rfl
  rw [h1, foldl_Node_addAttr_unrec nUn _ _ h2]
  simp

theorem Edge_attrs_fold (e : Edge)
    (h : noReserved ["id", "source", "target"] e.ext.toObject.Unrecognized = true) :
    (Edge.attrs e).foldl Edge.addAttr Edge.empty
      = ⟨⟨⟨e.ext.toObject.ID, e.ext.toObject.Unrecognized⟩, []⟩, e.Source, e.Target⟩ := by
  obtain ⟨⟨⟨eID, eUn⟩, eData⟩, eSrc, eTgt⟩ := e
  simp only [noReserved, List.all_eq_true] at h
  have h2 : ∀ a ∈ eUn, a.Name.Local ∉ (["id", "source", "target"] : List String) :=
    fun a ha => of_decide_eq_true (h a ha)
  simp only [Edge.attrs, Object.attrs]
  rw [List.foldl_append]
  have h1 : ((if eID ≠ "" then [newAttr "" "id" eID] else []) : List XAttr).foldl Edge.addAttr Edge.empty
      = ⟨⟨⟨eID, []⟩, []⟩, "", ""⟩ := by
    by_cases hID : eID = ""
    · rw [if_neg (by simp [hID])]
      simp [hID, Edge.empty, ExtObject.empty, Object.empty]
    · rw [if_pos hID]
      rfl
  rw [List.foldl_append, h1, foldl_Edge_addAttr_unrec eUn _ h2]
  rfl

theorem decodeDataLoop_sound (name : XName) :
    ∀ ts acc payload rest, decodeDataLoop name acc ts = .ok (payload, rest) →
      ∃ mid, payload = acc ++ mid ∧ ts = mid ++ .EndElement name :: rest ∧
        ∀ t ∈ mid, t ≠ .EndElement name := by
  intro ts
  induction ts with
  | nil => intro acc payload rest h; cases h
  | cons t ts ih =>
    intro acc payload rest h
    simp only [decodeDataLoop] at h
    split at h
    · rename_i n
      by_cases hn : n = name
      · rw [if_pos hn] at h
        simp only [Except.ok.injEq, Prod.mk.injEq] at h
        obtain ⟨h1, h2⟩ := h
        subst h1; subst h2; subst hn
        exact ⟨[], by simp, by simp, by simp⟩
      · rw [if_neg hn] at h
        obtain ⟨mid, h1, h2, h3⟩ := ih _ _ _ h
        refine ⟨.EndElement n :: mid, by simp [h1], by simp [h2], ?_⟩
        intro u hu
        rcases List.mem_cons.mp hu with h4 | h4
        · subst h4; intro h5; injection h5 with h6; exact hn h6
        · exact h3 u h4
    · rename_i hne
      obtain ⟨mid, h1, h2, h3⟩ := ih _ _ _ h
      refine ⟨t :: mid, by simp [h1], by simp [h2], ?_⟩
      intro u hu
      rcases List.mem_cons.mp hu with h4 | h4
      · subst h4; intro h5; exact hne name h5
      · exact h3 u h4

theorem decodeDataLoop_complete (name : XName) :
    ∀ payload acc rest, (∀ t ∈ payload, t ≠ .EndElement name) →
      decodeDataLoop name acc (payload ++ .EndElement name :: rest) = .ok (acc ++ payload, rest) := by
  intro payload
  induction payload with
  | nil =>
    intro acc rest h
    simp [decodeDataLoop]
  | cons t p ih =>
    intro acc rest h
    have ht : t ≠ .EndElement name := h t (List.mem_cons_self t p)
    have hp : ∀ u ∈ p, u ≠ .EndElement name := fun u hu => h u (List.mem_cons_of_mem t hu)
    rw [List.cons_append]
    match t, ht with
    | .EndElement n, ht =>
      have hn : n ≠ name := fun hc => ht (by rw [hc])
      simp only [decodeDataLoop, if_neg hn]
      rw [ih _ _ hp, List.append_assoc]
      rfl
    | .StartElement n a, ht =>
      simp only [decodeDataLoop]
      rw [ih _ _ hp, List.append_assoc]
      rfl
    | .CharData s, ht =>
      simp only [decodeDataLoop]
      rw [ih _ _ hp, List.append_assoc]
      rfl
    | .Comment s, ht =>
      simp only [decodeDataLoop]
      rw [ih _ _ hp, List.append_assoc]
      rfl
    | .ProcInst a b, ht =>
      simp only [decodeDataLoop]
      rw [ih _ _ hp, List.append_assoc]
      rfl
    | .Directive s, ht =>
      simp only [decodeDataLoop]
      rw [ih _ _ hp, List.append_assoc]
      rfl

theorem decoders_succ (fuel : Nat) : decoders (fuel + 1) = decodersStep (decoders fuel) := rfl

theorem expectEnd_append (name : XName) :
    ∀ ts rest, expectEnd name ts = .ok rest →
      ∀ ex, expectEnd name (ts ++ ex) = .ok (rest ++ ex) := by
  intro ts
  induction ts with
  | nil => intro rest h; cases h
  | cons t ts ih =>
    intro rest h ex
    rw [List.cons_append]
    cases t with
    | EndElement n =>
      simp [expectEnd, canSkip] at h ⊢
      by_cases hn : n = name
      · rw [if_pos hn] at h ⊢
        rw [Except.ok.injEq] at h
        subst h
        rfl
      · rw [if_neg hn] at h
        cases h
    | CharData s =>
      simp only [expectEnd] at h ⊢
      by_cases hs : canSkip (.CharData s) = true
      · rw [if_pos hs] at h ⊢
        exact ih rest h ex
      · rw [if_neg hs] at h
        cases h
    | Comment s =>
      simp [expectEnd, canSkip] at h ⊢
      exact ih rest h ex
    | StartElement n attr => simp [expectEnd, canSkip] at h
    | ProcInst a b => simp [expectEnd, canSkip] at h
    | Directive s => simp [expectEnd, canSkip] at h

theorem decodeDataLoop_append (name : XName) :
    ∀ ts acc payload rest, decodeDataLoop name acc ts = .ok (payload, rest) →
      ∀ ex, decodeDataLoop name acc (ts ++ ex) = .ok (payload, rest ++ ex) := by
  intro ts
  induction ts with
  | nil => intro acc payload rest h; cases h
  | cons t ts ih =>
    intro acc payload rest h ex
    rw [List.cons_append]
    cases t with
    | EndElement n =>
      simp only [decodeDataLoop] at h ⊢
      by_cases hn : n = name
      · rw [if_pos hn] at h ⊢
        rw [Except.ok.injEq, Prod.mk.injEq] at h
        obtain ⟨h1, h2⟩ := h
        subst h1; subst h2
        rfl
      · rw [if_neg hn] at h ⊢
        exact ih _ _ _ h ex
    | StartElement n attr =>
      simp only [decodeDataLoop] at h ⊢; exact ih _ _ _ h ex
    | CharData s =>
      simp only [decodeDataLoop] at h ⊢; exact ih _ _ _ h ex
    | Comment s =>
      simp only [decodeDataLoop] at h ⊢; exact ih _ _ _ h ex
    | ProcInst a b =>
      simp only [decodeDataLoop] at h ⊢; exact ih _ _ _ h ex
    | Directive s =>
      simp only [decodeDataLoop] at h ⊢; exact ih _ _ _ h ex

theorem decodeKey_append (st : docDecoder) (attr : List XAttr) (name : XName)
    (ts : List Token) (st2 : docDecoder) (rest : List Token)
    (h : decodeKey st attr name ts = .ok (st2, rest)) (ex : List Token) :
    decodeKey st attr name (ts ++ ex) = .ok (st2, rest ++ ex) := by
  simp only [decodeKey] at h ⊢
  split at h <;> rename_i hFor
  · rw [if_pos hFor]
    split at h <;> rename_i hMem
    · cases h
    · rw [if_neg hMem]
      split at h
      · cases h
      · rename_i r hE
        rw [expectEnd_append name ts r hE ex]
        rw [Except.ok.injEq, Prod.mk.injEq] at h
        obtain ⟨h1, h2⟩ := h
        subst h1; subst h2
        rfl
  · rw [if_neg hFor]
    split at h <;> rename_i hMem
    · cases h
    · rw [if_neg hMem]
      split at h
      · cases h
      · rename_i r hE
        rw [expectEnd_append name ts r hE ex]
        rw [Except.ok.injEq, Prod.mk.injEq] at h
        obtain ⟨h1, h2⟩ := h
        subst h1; subst h2
        rfl

theorem decodeData_append (st : docDecoder) (kind : Kind) (attr : List XAttr) (name : XName)
    (ts : List Token) (d : Data) (rest : List Token)
    (h : decodeData st kind attr name ts = .ok (d, rest)) (ex : List Token) :
    decodeData st kind attr name (ts ++ ex) = .ok (d, rest ++ ex) := by
  simp only [decodeData] at h ⊢
  split at h <;> rename_i hMem
  · split at h
    · cases h
    · rename_i payload r hE
      rw [if_pos hMem, decodeDataLoop_append name ts [] payload r hE ex]
      rw [Except.ok.injEq, Prod.mk.injEq] at h
      obtain ⟨h1, h2⟩ := h
      subst h1; subst h2
      rfl
  · cases h

theorem startGraphML_append :
    ∀ ts doc doc2 rootName rest, startGraphML doc ts = .ok (doc2, rootName, rest) →
      ∀ ex, startGraphML doc (ts ++ ex) = .ok (doc2, rootName, rest ++ ex) := by
  intro ts
  induction ts with
  | nil => intro doc doc2 rootName rest h; cases h
  | cons t ts ih =>
    intro doc doc2 rootName rest h ex
    rw [List.cons_append]
    cases t with
    | StartElement n attr =>
      simp [startGraphML, canSkip] at h ⊢
      split at h <;> rename_i hn
      · rw [if_pos hn]
        simp only [Except.ok.injEq, Prod.mk.injEq] at h
        obtain ⟨h1, h2, h3⟩ := h
        subst h1; subst h2; subst h3
        rfl
      · rw [if_neg hn]
        cases h
    | ProcInst a b =>
      simp [startGraphML, canSkip] at h ⊢
      exact ih _ _ _ _ h ex
    | CharData s =>
      simp only [startGraphML] at h ⊢
      by_cases hs : canSkip (.CharData s) = true
      · rw [if_pos hs] at h ⊢
        exact ih _ _ _ _ h ex
      · rw [if_neg hs] at h
        cases h
    | Comment s =>
      simp [startGraphML, canSkip] at h ⊢
      exact ih _ _ _ _ h ex
    | EndElement n => simp [startGraphML, canSkip] at h
    | Directive s => simp [startGraphML, canSkip] at h

/-- A successful loop run is preserved when the fuel grows and when
tokens are appended after the consumed span: the loops read only the
consumed span of the stream and never look past the end element that
terminates them. -/
theorem decoders_extend :
    ∀ fuel,
    (∀ fuel2, fuel ≤ fuel2 → ∀ st rootName ts st2 rest,
      (decoders fuel).root st rootName ts = .ok (st2, rest) →
      ∀ ex, (decoders fuel2).root st rootName (ts ++ ex) = .ok (st2, rest ++ ex))
    ∧ (∀ fuel2, fuel ≤ fuel2 → ∀ st g name ts g2 st2 rest,
      (decoders fuel).graphNodes st g name ts = .ok (g2, st2, rest) →
      ∀ ex, (decoders fuel2).graphNodes st g name (ts ++ ex) = .ok (g2, st2, rest ++ ex))
    ∧ (∀ fuel2, fuel ≤ fuel2 → ∀ st nd name ts nd2 st2 rest,
      (decoders fuel).nodeLoop st nd name ts = .ok (nd2, st2, rest) →
      ∀ ex, (decoders fuel2).nodeLoop st nd name (ts ++ ex) = .ok (nd2, st2, rest ++ ex))
    ∧ (∀ fuel2, fuel ≤ fuel2 → ∀ st ed name ts ed2 st2 rest,
      (decoders fuel).edgeLoop st ed name ts = .ok (ed2, st2, rest) →
      ∀ ex, (decoders fuel2).edgeLoop st ed name (ts ++ ex) = .ok (ed2, st2, rest ++ ex)) := by
  intro fuel
  induction fuel with
  | zero =>
    refine ⟨?_, ?_, ?_, ?_⟩
    · intro fuel2 hle st rootName ts st2 rest h
      simp [decoders, decodersZero] at h
    · intro fuel2 hle st g name ts g2 st2 rest h
      simp [decoders, decodersZero] at h
    · intro fuel2 hle st nd name ts nd2 st2 rest h
      simp [decoders, decodersZero] at h
    · intro fuel2 hle st ed name ts ed2 st2 rest h
      simp [decoders, decodersZero] at h
  | succ fuel ih =>
    refine ⟨?_, ?_, ?_, ?_⟩
    · intro fuel2 hle st rootName ts st2 rest h ex
      cases fuel2 with
      | zero => omega
      | succ f2 =>
        have hle2 : fuel ≤ f2 := Nat.succ_le_succ_iff.mp hle
        cases ts with
        | nil => rw [decoders_succ] at h; simp [decodersStep] at h
        | cons t ts =>
          rw [List.cons_append]
          rw [decoders_succ] at h ⊢
          by_cases hs : canSkip t = true
          · simp only [decodersStep] at h ⊢
            rw [if_pos hs] at h ⊢
            exact ih.1 f2 hle2 _ _ _ _ _ h ex
          · cases t with
            | StartElement n attr =>
              simp only [decodersStep] at h ⊢
              rw [if_neg hs] at h ⊢
              by_cases hns : n.Space ≠ Namespace
              · rw [if_pos hns] at h; cases h
              · rw [if_neg hns] at h ⊢
                by_cases hk : n.Local = "key"
                · rw [if_pos hk] at h ⊢
                  split at h
                  · cases h
                  · rename_i st3 rest3 hK
                    simp only [decodeKey_append st attr n ts st3 rest3 hK ex]
                    exact ih.1 f2 hle2 _ _ _ _ _ h ex
                · rw [if_neg hk] at h ⊢
                  by_cases hg : n.Local = "graph"
                  · rw [if_pos hg] at h ⊢
                    simp only [decodeGraphF] at h ⊢
                    split at h
                    · cases h
                    · rename_i g2 st4 rest4 hS
                      split at hS
                      · cases hS
                      · rename_i g0 st3 hSS
                        try simp only [hSS]
                        simp only [ih.2.1 f2 hle2 _ _ _ _ _ _ _ hS ex]
                        exact ih.1 f2 hle2 _ _ _ _ _ h ex
                  · rw [if_neg hg] at h ⊢
                    by_cases hd : n.Local = "data"
                    · rw [if_pos hd] at h ⊢
                      split at h
                      · cases h
                      · rename_i d0 rest3 hD
                        simp only [decodeData_append _ _ _ _ _ _ _ hD ex]
                        exact ih.1 f2 hle2 _ _ _ _ _ h ex
                    · rw [if_neg hd] at h; cases h
            | EndElement n =>
              simp only [decodersStep] at h ⊢
              rw [if_neg hs] at h ⊢
              by_cases hn : n = rootName
              · rw [if_pos hn] at h ⊢
                simp only [Except.ok.injEq, Prod.mk.injEq] at h
                obtain ⟨h1, h2⟩ := h
                subst h1; subst h2
                rfl
              · rw [if_neg hn] at h; cases h
            | CharData s => simp only [decodersStep] at h; rw [if_neg hs] at h; cases h
            | Comment s => simp only [decodersStep] at h; rw [if_neg hs] at h; cases h
            | ProcInst a b => simp only [decodersStep] at h; rw [if_neg hs] at h; cases h
            | Directive s => simp only [decodersStep] at h; rw [if_neg hs] at h; cases h
    · intro fuel2 hle st g name ts g2 st2 rest h ex
      cases fuel2 with
      | zero => omega
      | succ f2 =>
        have hle2 : fuel ≤ f2 := Nat.succ_le_succ_iff.mp hle
        cases ts with
        | nil => rw [decoders_succ] at h; simp [decodersStep] at h
        | cons t ts =>
          rw [List.cons_append]
          rw [decoders_succ] at h ⊢
          by_cases hs : canSkip t = true
          · simp only [decodersStep] at h ⊢
            rw [if_pos hs] at h ⊢
            exact ih.2.1 f2 hle2 _ _ _ _ _ _ _ h ex
          · cases t with
            | StartElement n attr =>
              simp only [decodersStep] at h ⊢
              rw [if_neg hs] at h ⊢
              by_cases hns : n.Space ≠ Namespace
              · rw [if_pos hns] at h; cases h
              · rw [if_neg hns] at h ⊢
                by_cases hd : n.Local = "data"
                · rw [if_pos hd] at h ⊢
                  split at h
                  · cases h
                  · rename_i d0 rest3 hD
                    simp only [decodeData_append _ _ _ _ _ _ _ hD ex]
                    exact ih.2.1 f2 hle2 _ _ _ _ _ _ _ h ex
                · rw [if_neg hd] at h ⊢
                  by_cases hn : n.Local = "node"
                  · rw [if_pos hn] at h ⊢
                    simp only [decodeNodeF] at h ⊢
                    split at h
                    · cases h
                    · rename_i n2 st4 rest4 hS
                      split at hS
                      · cases hS
                      · rename_i n0 st3 hSS
                        try simp only [hSS]
                        simp only [ih.2.2.1 f2 hle2 _ _ _ _ _ _ _ hS ex]
                        exact ih.2.1 f2 hle2 _ _ _ _ _ _ _ h ex
                  · rw [if_neg hn] at h ⊢
                    by_cases he : n.Local = "edge"
                    · rw [if_pos he] at h ⊢
                      simp only [decodeEdgeF] at h ⊢
                      split at h
                      · cases h
                      · rename_i e2 st4 rest4 hS
                        split at hS
                        · cases hS
                        · rename_i e0 st3 hSS
                          try simp only [hSS]
                          simp only [ih.2.2.2 f2 hle2 _ _ _ _ _ _ _ hS ex]
                          exact ih.2.1 f2 hle2 _ _ _ _ _ _ _ h ex
                    · rw [if_neg he] at h; cases h
            | EndElement n =>
              simp only [decodersStep] at h ⊢
              rw [if_neg hs] at h ⊢
              by_cases hn : n = name
              · rw [if_pos hn] at h ⊢
                simp only [Except.ok.injEq, Prod.mk.injEq] at h
                obtain ⟨h1, h2, h3⟩ := h
                subst h1; subst h2; subst h3
                rfl
              · rw [if_neg hn] at h; cases h
            | CharData s => simp only [decodersStep] at h; rw [if_neg hs] at h; cases h
            | Comment s => simp only [decodersStep] at h; rw [if_neg hs] at h; cases h
            | ProcInst a b => simp only [decodersStep] at h; rw [if_neg hs] at h; cases h
            | Directive s => simp only [decodersStep] at h; rw [if_neg hs] at h; cases h
    · intro fuel2 hle st nd name ts nd2 st2 rest h ex
      cases fuel2 with
      | zero => omega
      | succ f2 =>
        have hle2 : fuel ≤ f2 := Nat.succ_le_succ_iff.mp hle
        cases ts with
        | nil => rw [decoders_succ] at h; simp [decodersStep] at h
        | cons t ts =>
          rw [List.cons_append]
          rw [decoders_succ] at h ⊢
          by_cases hs : canSkip t = true
          · simp only [decodersStep] at h ⊢
            rw [if_pos hs] at h ⊢
            exact ih.2.2.1 f2 hle2 _ _ _ _ _ _ _ h ex
          · cases t with
            | StartElement n attr =>
              simp only [decodersStep] at h ⊢
              rw [if_neg hs] at h ⊢
              by_cases hns : n.Space ≠ Namespace
              · rw [if_pos hns] at h; cases h
              · rw [if_neg hns] at h ⊢
                by_cases hd : n.Local = "data"
                · rw [if_pos hd] at h ⊢
                  split at h
                  · cases h
                  · rename_i d0 rest3 hD
                    simp only [decodeData_append _ _ _ _ _ _ _ hD ex]
                    exact ih.2.2.1 f2 hle2 _ _ _ _ _ _ _ h ex
                · rw [if_neg hd] at h ⊢
                  by_cases hg : n.Local = "graph"
                  · rw [if_pos hg] at h ⊢
                    simp only [decodeGraphF] at h ⊢
                    split at h
                    · cases h
                    · rename_i g2 st4 rest4 hS
                      split at hS
                      · cases hS
                      · rename_i g0 st3 hSS
                        try simp only [hSS]
                        simp only [ih.2.1 f2 hle2 _ _ _ _ _ _ _ hS ex]
                        exact ih.2.2.1 f2 hle2 _ _ _ _ _ _ _ h ex
                  · rw [if_neg hg] at h; cases h
            | EndElement n =>
              simp only [decodersStep] at h ⊢
              rw [if_neg hs] at h ⊢
              by_cases hn : n = name
              · rw [if_pos hn] at h ⊢
                simp only [Except.ok.injEq, Prod.mk.injEq] at h
                obtain ⟨h1, h2, h3⟩ := h
                subst h1; subst h2; subst h3
                rfl
              · rw [if_neg hn] at h; cases h
            | CharData s => simp only [decodersStep] at h; rw [if_neg hs] at h; cases h
            | Comment s => simp only [decodersStep] at h; rw [if_neg hs] at h; cases h
            | ProcInst a b => simp only [decodersStep] at h; rw [if_neg hs] at h; cases h
            | Directive s => simp only [decodersStep] at h; rw [if_neg hs] at h; cases h
    · intro fuel2 hle st ed name ts ed2 st2 rest h ex
      cases fuel2 with
      | zero => omega
      | succ f2 =>
        have hle2 : fuel ≤ f2 := Nat.succ_le_succ_iff.mp hle
        cases ts with
        | nil => rw [decoders_succ] at h; simp [decodersStep] at h
        | cons t ts =>
          rw [List.cons_append]
          rw [decoders_succ] at h ⊢
          by_cases hs : canSkip t = true
          · simp only [decodersStep] at h ⊢
            rw [if_pos hs] at h ⊢
            exact ih.2.2.2 f2 hle2 _ _ _ _ _ _ _ h ex
          · cases t with
            | StartElement n attr =>
              simp only [decodersStep] at h ⊢
              rw [if_neg hs] at h ⊢
              by_cases hns : n.Space ≠ Namespace
              · rw [if_pos hns] at h; cases h
              · rw [if_neg hns] at h ⊢
                by_cases hd : n.Local = "data"
                · rw [if_pos hd] at h ⊢
                  split at h
                  · cases h
                  · rename_i d0 rest3 hD
                    simp only [decodeData_append _ _ _ _ _ _ _ hD ex]
                    exact ih.2.2.2 f2 hle2 _ _ _ _ _ _ _ h ex
                · rw [if_neg hd] at h; cases h
            | EndElement n =>
              simp only [decodersStep] at h ⊢
              rw [if_neg hs] at h ⊢
              by_cases hn : n = name
              · rw [if_pos hn] at h ⊢
                simp only [Except.ok.injEq, Prod.mk.injEq] at h
                obtain ⟨h1, h2, h3⟩ := h
                subst h1; subst h2; subst h3
                rfl
              · rw [if_neg hn] at h; cases h
            | CharData s => simp only [decodersStep] at h; rw [if_neg hs] at h; cases h
            | Comment s => simp only [decodersStep] at h; rw [if_neg hs] at h; cases h
            | ProcInst a b => simp only [decodersStep] at h; rw [if_neg hs] at h; cases h
            | Directive s => simp only [decodersStep] at h; rw [if_neg hs] at h; cases h

/-! ### Single-step unfolding of the decoder loops -/

theorem root_step_key (fuel : Nat) (st : docDecoder) (rootName n : XName) (attr : List XAttr)
    (ts : List Token) (hns : n.Space = Namespace) (hl : n.Local = "key") :
    (decoders (fuel + 1)).root st rootName (.StartElement n attr :: ts)
      = match decodeKey st attr n ts with
        | .error e => .error e
        | .ok (st2, rest) => (decoders fuel).root st2 rootName rest := by
  simp [decoders_succ, decodersStep, canSkip, hns, hl]

theorem root_step_graph (fuel : Nat) (st : docDecoder) (rootName n : XName) (attr : List XAttr)
    (ts : List Token) (hns : n.Space = Namespace) (hl : n.Local = "graph") :
    (decoders (fuel + 1)).root st rootName (.StartElement n attr :: ts)
      = match decodeGraphF (decoders fuel).graphNodes st attr n ts with
        | .error e => .error e
        | .ok (g, st2, rest) =>
          (decoders fuel).root { st2 with doc := { st2.doc with Graphs := st2.doc.Graphs ++ [g] } } rootName rest := by
  simp [decoders_succ, decodersStep, canSkip, hns, hl]

theorem root_step_data (fuel : Nat) (st : docDecoder) (rootName n : XName) (attr : List XAttr)
    (ts : List Token) (hns : n.Space = Namespace) (hl : n.Local = "data") :
    (decoders (fuel + 1)).root st rootName (.StartElement n attr :: ts)
      = match decodeData st KindGraphML attr n ts with
        | .error e => .error e
        | .ok (d, rest) =>
          (decoders fuel).root { st with doc := { st.doc with Data := st.doc.Data ++ [d] } } rootName rest := by
  simp [decoders_succ, decodersStep, canSkip, hns, hl]

theorem root_step_end (fuel : Nat) (st : docDecoder) (rootName : XName) (ts : List Token) :
    (decoders (fuel + 1)).root st rootName (.EndElement rootName :: ts) = .ok (st, ts) := by
  simp [decoders_succ, decodersStep, canSkip]

theorem graphNodes_step_data (fuel : Nat) (st : docDecoder) (g : Graph) (name n : XName)
    (attr : List XAttr) (ts : List Token) (hns : n.Space = Namespace) (hl : n.Local = "data") :
    (decoders (fuel + 1)).graphNodes st g name (.StartElement n attr :: ts)
      = match decodeData st KindGraph attr n ts with
        | .error e => .error e
        | .ok (d, rest) => (decoders fuel).graphNodes st (g.pushData d) name rest := by
  simp [decoders_succ, decodersStep, canSkip, hns, hl]

theorem graphNodes_step_node (fuel : Nat) (st : docDecoder) (g : Graph) (name n : XName)
    (attr : List XAttr) (ts : List Token) (hns : n.Space = Namespace) (hl : n.Local = "node") :
    (decoders (fuel + 1)).graphNodes st g name (.StartElement n attr :: ts)
      = match decodeNodeF (decoders fuel).nodeLoop st attr n ts with
        | .error e => .error e
        | .ok (nd, st2, rest) => (decoders fuel).graphNodes st2 (g.pushNode nd) name rest := by
  simp [decoders_succ, decodersStep, canSkip, hns, hl]

theorem graphNodes_step_edge (fuel : Nat) (st : docDecoder) (g : Graph) (name n : XName)
    (attr : List XAttr) (ts : List Token) (hns : n.Space = Namespace) (hl : n.Local = "edge") :
    (decoders (fuel + 1)).graphNodes st g name (.StartElement n attr :: ts)
      = match decodeEdgeF (decoders fuel).edgeLoop st attr n ts with
        | .error e => .error e
        | .ok (ed, st2, rest) => (decoders fuel).graphNodes st2 (g.pushEdge ed) name rest := by
  simp [decoders_succ, decodersStep, canSkip, hns, hl]

theorem graphNodes_step_end (fuel : Nat) (st : docDecoder) (g : Graph) (name : XName)
    (ts : List Token) :
    (decoders (fuel + 1)).graphNodes st g name (.EndElement name :: ts) = .ok (g, st, ts) := by
  simp [decoders_succ, decodersStep, canSkip]

theorem nodeLoop_step_data (fuel : Nat) (st : docDecoder) (nd : Node) (name n : XName)
    (attr : List XAttr) (ts : List Token) (hns : n.Space = Namespace) (hl : n.Local = "data") :
    (decoders (fuel + 1)).nodeLoop st nd name (.StartElement n attr :: ts)
      = match decodeData st KindNode attr n ts with
        | .error e => .error e
        | .ok (d, rest) => (decoders fuel).nodeLoop st (nd.pushData d) name rest := by
  simp [decoders_succ, decodersStep, canSkip, hns, hl]

theorem nodeLoop_step_graph (fuel : Nat) (st : docDecoder) (nd : Node) (name n : XName)
    (attr : List XAttr) (ts : List Token) (hns : n.Space = Namespace) (hl : n.Local = "graph") :
    (decoders (fuel + 1)).nodeLoop st nd name (.StartElement n attr :: ts)
      = match decodeGraphF (decoders fuel).graphNodes st attr n ts with
        | .error e => .error e
        | .ok (g, st2, rest) => (decoders fuel).nodeLoop st2 (nd.pushGraph g) name rest := by
  simp [decoders_succ, decodersStep, canSkip, hns, hl]

theorem nodeLoop_step_end (fuel : Nat) (st : docDecoder) (nd : Node) (name : XName)
    (ts : List Token) :
    (decoders (fuel + 1)).nodeLoop st nd name (.EndElement name :: ts) = .ok (nd, st, ts) := by
  simp [decoders_succ, decodersStep, canSkip]

theorem edgeLoop_step_data (fuel : Nat) (st : docDecoder) (ed : Edge) (name n : XName)
    (attr : List XAttr) (ts : List Token) (hns : n.Space = Namespace) (hl : n.Local = "data") :
    (decoders (fuel + 1)).edgeLoop st ed name (.StartElement n attr :: ts)
      = match decodeData st KindEdge attr n ts with
        | .error e => .error e
        | .ok (d, rest) => (decoders fuel).edgeLoop st (ed.pushData d) name rest := by
  simp [decoders_succ, decodersStep, canSkip, hns, hl]

theorem edgeLoop_step_end (fuel : Nat) (st : docDecoder) (ed : Edge) (name : XName)
    (ts : List Token) :
    (decoders (fuel + 1)).edgeLoop st ed name (.EndElement name :: ts) = .ok (ed, st, ts) := by
  simp [decoders_succ, decodersStep, canSkip]

/-! ### Key table lemmas -/

theorem keysPairsAll_append (a b : List Key) :
    keysPairsAll (a ++ b) = keysPairsAll a ++ keysPairsAll b := by
  simp [keysPairsAll, List.filter_append]

theorem keysPairsFor_append (a b : List Key) :
    keysPairsFor (a ++ b) = keysPairsFor a ++ keysPairsFor b := by
  simp [keysPairsFor, List.filter_append]

theorem keysPairsAll_cons_all (k : Key) (keys : List Key) (h : k.For = KindAll) :
    keysPairsAll (k :: keys) = (k.ID, k) :: keysPairsAll keys := by
  simp [keysPairsAll, List.filter_cons, h]

theorem keysPairsAll_cons_not (k : Key) (keys : List Key) (h : k.For ≠ KindAll) :
    keysPairsAll (k :: keys) = keysPairsAll keys := by
  simp [keysPairsAll, List.filter_cons, h]

theorem keysPairsFor_cons_all (k : Key) (keys : List Key) (h : k.For = KindAll) :
    keysPairsFor (k :: keys) = keysPairsFor keys := by
  simp [keysPairsFor, List.filter_cons, h]

theorem keysPairsFor_cons_not (k : Key) (keys : List Key) (h : k.For ≠ KindAll) :
    keysPairsFor (k :: keys) = (⟨k.ID, k.For⟩, k) :: keysPairsFor keys := by
  simp [keysPairsFor, List.filter_cons, h]

theorem fresh_all (done : List Key) (k : Key)
    (hd : ∀ a ∈ done, ¬(a.ID = k.ID ∧ a.For = k.For)) (hAll : k.For = KindAll) :
    hasKeyAll (keysPairsAll done) k.ID = false := by
  rw [hasKeyAll_eq_mem]
  simp only [decide_eq_false_iff_not]
  intro hmem
  simp only [keysPairsAll, List.map_map, List.mem_map, List.mem_filter,
    decide_eq_true_eq] at hmem
  obtain ⟨a, ⟨ha, haAll⟩, haID⟩ := hmem
  exact hd a ha ⟨by simpa using haID, by rw [haAll, hAll]⟩

theorem fresh_for (done : List Key) (k : Key)
    (hd : ∀ a ∈ done, ¬(a.ID = k.ID ∧ a.For = k.For)) (hNot : k.For ≠ KindAll) :
    hasKeyFor (keysPairsFor done) ⟨k.ID, k.For⟩ = false := by
  rw [hasKeyFor_eq_mem]
  simp only [decide_eq_false_iff_not]
  intro hmem
  simp only [keysPairsFor, List.map_map, List.mem_map, List.mem_filter,
    decide_eq_true_eq] at hmem
  obtain ⟨a, ⟨ha, _⟩, heq⟩ := hmem
  have h2 : a.ID = k.ID ∧ a.For = k.For := by
    have := congrArg docKey.name heq
    have h3 := congrArg docKey.kind heq
    exact ⟨by simpa using this, by simpa using h3⟩
  exact hd a ha h2

/-! ### Replay lemmas: decoding the re-encoded stream -/

theorem replay_data (st : docDecoder) (kind : Kind) (d : Data) (rest : List Token)
    (hWF : dataWFB d = true)
    (hRes : dataResB (st.keysAll.map Prod.fst) (st.keys.map Prod.fst) kind d = true) :
    decodeData st kind (Data.attrs d) ⟨Namespace, "data"⟩
      (d.Tokens ++ .EndElement ⟨Namespace, "data"⟩ :: rest) = .ok (d, rest) := by
  obtain ⟨dKey, dUn, dToks⟩ := d
  simp only [dataWFB, Bool.and_eq_true] at hWF
  obtain ⟨hClean, hNoEnd⟩ := hWF
  have hNoEnd2 : ∀ t ∈ dToks, t ≠ .EndElement ⟨Namespace, "data"⟩ := by
    intro t ht
    have := List.all_eq_true.mp hNoEnd t ht
    exact of_decide_eq_true this
  have hc : (hasKeyFor st.keys ⟨dKey, kind⟩ || hasKeyAll st.keysAll dKey) = true := by
    simp only [dataResB, Bool.or_eq_true, decide_eq_true_eq] at hRes
    rw [hasKeyFor_eq_mem, hasKeyAll_eq_mem]
    simp only [Bool.or_eq_true, decide_eq_true_eq]
    exact hRes.imp id id
  simp only [decodeData]
  rw [Data_attrs_fold ⟨dKey, dUn, dToks⟩ hClean]
  simp only [hc, if_true]
  rw [decodeDataLoop_complete ⟨Namespace, "data"⟩ dToks [] rest hNoEnd2]
  simp

theorem replay_keys :
    ∀ (keys done : List Key) (f : Nat) (st : docDecoder) (rootName : XName) (rest : List Token),
      st.keysAll = keysPairsAll done →
      st.keys = keysPairsFor done →
      (∀ k ∈ done ++ keys, keyWFB k = true) →
      (done ++ keys).Pairwise (fun a b => ¬(a.ID = b.ID ∧ a.For = b.For)) →
      (decoders (keys.length + f)).root st rootName (encodeKeyList nsName keys ++ rest)
        = (decoders f).root
            { st with keysAll := st.keysAll ++ keysPairsAll keys,
                      keys := st.keys ++ keysPairsFor keys,
                      doc := { st.doc with Keys := st.doc.Keys ++ keys } }
            rootName rest := by
  intro keys
  induction keys with
  | nil =>
    intro done f st rootName rest hka hkf hWF hP
    simp [encodeKeyList, keysPairsAll, keysPairsFor]
  | cons k keys ih =>
    intro done f st rootName rest hka hkf hWF hP
    have hkWF : keyWFB k = true := hWF k (by simp)
    have hFor : k.For ≠ "" := by
      simp only [keyWFB, Bool.and_eq_true, decide_eq_true_eq] at hkWF
      exact hkWF.1
    have hfresh : ∀ a ∈ done, ¬(a.ID = k.ID ∧ a.For = k.For) := by
      intro a ha
      exact (List.pairwise_append.mp hP).2.2 a ha k (by simp)
    have hstep : encodeKeyList nsName (k :: keys) ++ rest
        = .StartElement ⟨Namespace, "key"⟩ (Key.attrs k)
          :: .EndElement ⟨Namespace, "key"⟩ :: (encodeKeyList nsName keys ++ rest) := by
      simp [encodeKeyList, encodeKey1, nsName]
    rw [hstep]
    have hlen : (k :: keys).length + f = (keys.length + f) + 1 := by
      simp [List.length_cons]; omega
    rw [hlen, root_step_key _ _ _ _ _ _ rfl rfl]
    have hdk : decodeKey st (Key.attrs k) ⟨Namespace, "key"⟩
        (.EndElement ⟨Namespace, "key"⟩ :: (encodeKeyList nsName keys ++ rest))
        = .ok (if k.For = KindAll
            then { st with keysAll := st.keysAll ++ [(k.ID, k)],
                           doc := { st.doc with Keys := st.doc.Keys ++ [k] } }
            else { st with keys := st.keys ++ [(⟨k.ID, k.For⟩, k)],
                           doc := { st.doc with Keys := st.doc.Keys ++ [k] } },
          encodeKeyList nsName keys ++ rest) := by
      simp only [decodeKey, Key_attrs_normKey k hkWF]
      by_cases hAll : k.For = KindAll
      · rw [if_pos hAll, if_pos hAll]
        rw [hka, fresh_all done k hfresh hAll]
        simp [expectEnd, canSkip]
      · rw [if_neg hAll, if_neg hAll]
        rw [hkf, fresh_for done k hfresh hAll]
        simp [expectEnd, canSkip]
    simp only [hdk]
    have hWF2 : ∀ a ∈ (done ++ [k]) ++ keys, keyWFB a = true := by
      intro a ha
      exact hWF a (by simpa [List.append_assoc] using ha)
    have hP2 : ((done ++ [k]) ++ keys).Pairwise (fun a b => ¬(a.ID = b.ID ∧ a.For = b.For)) := by
      have he : (done ++ [k]) ++ keys = done ++ k :: keys := by simp
      rw [he]; exact hP
    by_cases hAll : k.For = KindAll
    · rw [if_pos hAll]
      have hone : keysPairsAll [k] = [(k.ID, k)] := by
        simp [keysPairsAll, List.filter_cons, hAll]
      have honef : keysPairsFor [k] = [] := by
        simp [keysPairsFor, List.filter_cons, hAll]
      rw [ih (done ++ [k]) f _ rootName rest
        (by show st.keysAll ++ [(k.ID, k)] = keysPairsAll (done ++ [k])
            rw [hka, keysPairsAll_append, hone])
        (by show st.keys = keysPairsFor (done ++ [k])
            rw [hkf, keysPairsFor_append, honef, List.append_nil])
        hWF2 hP2]
      congr 1
      rw [keysPairsAll_cons_all k keys hAll, keysPairsFor_cons_all k keys hAll]
      simp
    · rw [if_neg hAll]
      have hone : keysPairsAll [k] = [] := by
        simp [keysPairsAll, List.filter_cons, hAll]
      have honef : keysPairsFor [k] = [(⟨k.ID, k.For⟩, k)] := by
        simp [keysPairsFor, List.filter_cons, hAll]
      rw [ih (done ++ [k]) f _ rootName rest
        (by show st.keysAll = keysPairsAll (done ++ [k])
            rw [hka, keysPairsAll_append, hone, List.append_nil])
        (by show st.keys ++ [(⟨k.ID, k.For⟩, k)] = keysPairsFor (done ++ [k])
            rw [hkf, keysPairsFor_append, honef])
        hWF2 hP2]
      congr 1
      rw [keysPairsAll_cons_not k keys hAll, keysPairsFor_cons_not k keys hAll]
      simp

theorem replay_graphData :
    ∀ (ds : List Data) (f : Nat) (st : docDecoder) (g : Graph) (name : XName) (rest : List Token),
      (∀ d ∈ ds, dataWFB d = true ∧
        dataResB (st.keysAll.map Prod.fst) (st.keys.map Prod.fst) KindGraph d = true) →
      (decoders (ds.length + f)).graphNodes st g name (encodeDataList nsName ds ++ rest)
        = (decoders f).graphNodes st (g.pushDataList ds) name rest := by
  intro ds
  induction ds with
  | nil => intro f st g name rest _; simp [encodeDataList, Graph.pushDataList]
  | cons d ds ih =>
    intro f st g name rest h
    have hd := h d (by simp)
    have hstream : encodeDataList nsName (d :: ds) ++ rest
        = .StartElement ⟨Namespace, "data"⟩ (Data.attrs d)
          :: (d.Tokens ++ .EndElement ⟨Namespace, "data"⟩ :: (encodeDataList nsName ds ++ rest)) := by
      simp [encodeDataList, encodeData1, nsName]
    rw [hstream]
    have hlen : (d :: ds).length + f = (ds.length + f) + 1 := by simp [List.length_cons]; omega
    rw [hlen, graphNodes_step_data _ _ _ _ _ _ _ rfl rfl]
    simp only [replay_data st KindGraph d _ hd.1 hd.2]
    exact ih f st (g.pushData d) name rest (fun d2 hd2 => h d2 (by simp [hd2]))

theorem replay_nodeData :
    ∀ (ds : List Data) (f : Nat) (st : docDecoder) (nd : Node) (name : XName) (rest : List Token),
      (∀ d ∈ ds, dataWFB d = true ∧
        dataResB (st.keysAll.map Prod.fst) (st.keys.map Prod.fst) KindNode d = true) →
      (decoders (ds.length + f)).nodeLoop st nd name (encodeDataList nsName ds ++ rest)
        = (decoders f).nodeLoop st (nd.pushDataList ds) name rest := by
  intro ds
  induction ds with
  | nil => intro f st nd name rest _; simp [encodeDataList, Node.pushDataList]
  | cons d ds ih =>
    intro f st nd name rest h
    have hd := h d (by simp)
    have hstream : encodeDataList nsName (d :: ds) ++ rest
        = .StartElement ⟨Namespace, "data"⟩ (Data.attrs d)
          :: (d.Tokens ++ .EndElement ⟨Namespace, "data"⟩ :: (encodeDataList nsName ds ++ rest)) := by
      simp [encodeDataList, encodeData1, nsName]
    rw [hstream]
    have hlen : (d :: ds).length + f = (ds.length + f) + 1 := by simp [List.length_cons]; omega
    rw [hlen, nodeLoop_step_data _ _ _ _ _ _ _ rfl rfl]
    simp only [replay_data st KindNode d _ hd.1 hd.2]
    exact ih f st (nd.pushData d) name rest (fun d2 hd2 => h d2 (by simp [hd2]))

theorem replay_edgeData :
    ∀ (ds : List Data) (f : Nat) (st : docDecoder) (ed : Edge) (name : XName) (rest : List Token),
      (∀ d ∈ ds, dataWFB d = true ∧
        dataResB (st.keysAll.map Prod.fst) (st.keys.map Prod.fst) KindEdge d = true) →
      (decoders (ds.length + f)).edgeLoop st ed name (encodeDataList nsName ds ++ rest)
        = (decoders f).edgeLoop st (ed.pushDataList ds) name rest := by
  intro ds
  induction ds with
  | nil => intro f st ed name rest _; simp [encodeDataList, Edge.pushDataList]
  | cons d ds ih =>
    intro f st ed name rest h
    have hd := h d (by simp)
    have hstream : encodeDataList nsName (d :: ds) ++ rest
        = .StartElement ⟨Namespace, "data"⟩ (Data.attrs d)
          :: (d.Tokens ++ .EndElement ⟨Namespace, "data"⟩ :: (encodeDataList nsName ds ++ rest)) := by
      simp [encodeDataList, encodeData1, nsName]
    rw [hstream]
    have hlen : (d :: ds).length + f = (ds.length + f) + 1 := by simp [List.length_cons]; omega
    rw [hlen, edgeLoop_step_data _ _ _ _ _ _ _ rfl rfl]
    simp only [replay_data st KindEdge d _ hd.1 hd.2]
    exact ih f st (ed.pushData d) name rest (fun d2 hd2 => h d2 (by simp [hd2]))

theorem replay_rootData :
    ∀ (ds : List Data) (f : Nat) (st : docDecoder) (rootName : XName) (rest : List Token),
      (∀ d ∈ ds, dataWFB d = true ∧
        dataResB (st.keysAll.map Prod.fst) (st.keys.map Prod.fst) KindGraphML d = true) →
      (decoders (ds.length + f)).root st rootName (encodeDataList nsName ds ++ rest)
        = (decoders f).root { st with doc := { st.doc with Data := st.doc.Data ++ ds } } rootName rest := by
  intro ds
  induction ds with
  | nil => intro f st rootName rest _; simp [encodeDataList]
  | cons d ds ih =>
    intro f st rootName rest h
    have hd := h d (by simp)
    have hstream : encodeDataList nsName (d :: ds) ++ rest
        = .StartElement ⟨Namespace, "data"⟩ (Data.attrs d)
          :: (d.Tokens ++ .EndElement ⟨Namespace, "data"⟩ :: (encodeDataList nsName ds ++ rest)) := by
      simp [encodeDataList, encodeData1, nsName]
    rw [hstream]
    have hlen : (d :: ds).length + f = (ds.length + f) + 1 := by simp [List.length_cons]; omega
    rw [hlen, root_step_data _ _ _ _ _ _ rfl rfl]
    simp only [replay_data st KindGraphML d _ hd.1 hd.2]
    rw [ih f { st with doc := { st.doc with Data := st.doc.Data ++ [d] } } rootName rest
      (fun d2 hd2 => h d2 (by simp [hd2]))]
    congr 1
    simp

theorem replay_edge (e : Edge) (f : Nat) (st : docDecoder) (rest : List Token)
    (hWF : edgeWFB (st.keysAll.map Prod.fst) (st.keys.map Prod.fst) e = true)
    (hFresh : (st.ids ++ edgeIDs e).Nodup) :
    decodeEdgeF (decoders (edgeBurn e + f)).edgeLoop st (Edge.attrs e) ⟨Namespace, "edge"⟩
      (encodeDataList nsName e.ext.Data ++ .EndElement ⟨Namespace, "edge"⟩ :: rest)
      = .ok (e, { st with ids := st.ids ++ edgeIDs e }, rest) := by
  simp only [edgeWFB, Bool.and_eq_true] at hWF
  obtain ⟨hClean, hData⟩ := hWF
  have hData2 : ∀ d ∈ e.ext.Data, dataWFB d = true ∧
      dataResB (st.keysAll.map Prod.fst) (st.keys.map Prod.fst) KindEdge d = true := by
    intro d hd
    have := List.all_eq_true.mp hData d hd
    simp only [dataOKB, Bool.and_eq_true] at this
    exact this
  obtain ⟨⟨⟨eID, eUn⟩, eData⟩, eSrc, eTgt⟩ := e
  simp only [decodeEdgeF, startEdgeEl]
  rw [Edge_attrs_fold ⟨⟨⟨eID, eUn⟩, eData⟩, eSrc, eTgt⟩ hClean]
  by_cases hID : eID = ""
  · subst hID
    have hIDproj : (⟨⟨⟨"", eUn⟩, []⟩, eSrc, eTgt⟩ : Edge).ID = "" := rfl
    have haddid : addID st "" = .ok ("", st) := rfl
    have hsetid : Edge.setID ⟨⟨⟨"", eUn⟩, []⟩, eSrc, eTgt⟩ "" = ⟨⟨⟨"", eUn⟩, []⟩, eSrc, eTgt⟩ := rfl
    simp only [hIDproj, haddid, hsetid]
    have hburn : edgeBurn ⟨⟨⟨"", eUn⟩, eData⟩, eSrc, eTgt⟩ + f = eData.length + (f + 1) := by
      simp [edgeBurn]; omega
    rw [hburn, replay_edgeData eData (f + 1) st _ _ _ hData2]
    rw [edgeLoop_step_end, Edge_pushDataList_eq]
    simp [edgeIDs, Edge.ID]
  · have hfr : hasID st.ids eID = false := by
      rw [hasID_eq_mem]
      simp only [decide_eq_false_iff_not]
      intro hmem
      have hmem3 : eID ∈ edgeIDs ⟨⟨⟨eID, eUn⟩, eData⟩, eSrc, eTgt⟩ := by
        simp [edgeIDs, Edge.ID, hID]
      rw [List.nodup_append] at hFresh
      exact hFresh.2.2 hmem hmem3
    have hIDproj : (⟨⟨⟨eID, eUn⟩, []⟩, eSrc, eTgt⟩ : Edge).ID = eID := rfl
    have haddid : addID st eID = .ok (eID, { st with ids := st.ids ++ [eID] }) := by
      simp [addID, hID, hfr]
    have hsetid : Edge.setID ⟨⟨⟨eID, eUn⟩, []⟩, eSrc, eTgt⟩ eID = ⟨⟨⟨eID, eUn⟩, []⟩, eSrc, eTgt⟩ := rfl
    simp only [hIDproj, haddid, hsetid]
    have hburn : edgeBurn ⟨⟨⟨eID, eUn⟩, eData⟩, eSrc, eTgt⟩ + f = eData.length + (f + 1) := by
      simp [edgeBurn]; omega
    rw [hburn, replay_edgeData eData (f + 1) { st with ids := st.ids ++ [eID] } _ _ _
      (by intro d hd; exact hData2 d hd)]
    rw [edgeLoop_step_end, Edge_pushDataList_eq]
    have hids : st.ids ++ edgeIDs ⟨⟨⟨eID, eUn⟩, eData⟩, eSrc, eTgt⟩ = st.ids ++ [eID] := by
      simp [edgeIDs, Edge.ID, hID]
    rw [hids]
    simp

theorem replay_edgeList :
    ∀ (es : List Edge) (F : Nat) (st : docDecoder) (g : Graph) (name : XName) (rest : List Token),
      edgeListBurn es ≤ F →
      edgeListWFB (st.keysAll.map Prod.fst) (st.keys.map Prod.fst) es = true →
      (st.ids ++ edgeListIDs es).Nodup →
      (decoders F).graphNodes st g name (encodeEdgeList nsName es ++ rest)
        = (decoders (F - es.length)).graphNodes { st with ids := st.ids ++ edgeListIDs es }
            (g.pushEdgeList es) name rest := by
  intro es
  induction es with
  | nil =>
    intro F st g name rest _ _ _
    simp [encodeEdgeList, Graph.pushEdgeList, edgeListIDs]
  | cons e es ih =>
    intro F st g name rest hF hWF hN
    simp only [edgeListWFB, Bool.and_eq_true] at hWF
    obtain ⟨hWFe, hWFes⟩ := hWF
    cases F with
    | zero => simp [edgeListBurn] at hF
    | succ F =>
      have hstream : encodeEdgeList nsName (e :: es) ++ rest
          = .StartElement ⟨Namespace, "edge"⟩ (Edge.attrs e)
            :: (encodeDataList nsName e.ext.Data
                ++ .EndElement ⟨Namespace, "edge"⟩ :: (encodeEdgeList nsName es ++ rest)) := by
        simp [encodeEdgeList, encodeEdge1, nsName]
      rw [hstream, graphNodes_step_edge _ _ _ _ _ _ _ rfl rfl]
      have hNe : (st.ids ++ edgeIDs e).Nodup := by
        have hsub : List.Sublist (st.ids ++ edgeIDs e) (st.ids ++ (edgeIDs e ++ edgeListIDs es)) :=
          List.Sublist.append_left (List.sublist_append_left _ _) st.ids
        have hN3 : (st.ids ++ (edgeIDs e ++ edgeListIDs es)).Nodup := by
          simpa [edgeListIDs, List.append_assoc] using hN
        exact List.Nodup.sublist hsub hN3
      have hFe : F = edgeBurn e + (F - edgeBurn e) := by
        simp [edgeListBurn] at hF
        omega
      rw [hFe]
      simp only [replay_edge e (F - edgeBurn e) st _ hWFe hNe]
      rw [← hFe]
      have hN2 : (({ st with ids := st.ids ++ edgeIDs e } : docDecoder).ids ++ edgeListIDs es).Nodup := by
        simpa [edgeListIDs, List.append_assoc] using hN
      rw [ih F { st with ids := st.ids ++ edgeIDs e } (g.pushEdge e) name rest
        (by simp [edgeListBurn] at hF; omega) (by simpa using hWFes) hN2]
      have harith : F + 1 - (es.length + 1) = F - es.length := by omega
      simp only [List.length_cons, harith]
      congr 1
      simp [edgeListIDs, List.append_assoc]

theorem edgeListBurn_ge (es : List Edge) : es.length ≤ edgeListBurn es := by
  induction es with
  | nil => simp [edgeListBurn]
  | cons e es ih => simp [edgeListBurn, List.length_cons]; omega

theorem nodeListBurn_ge (ns : List Node) : ns.length ≤ nodeListBurn ns := by
  induction ns with
  | nil => simp [nodeListBurn]
  | cons n ns ih => simp [nodeListBurn, List.length_cons]; omega

theorem graphListBurn_ge (gs : List Graph) : gs.length ≤ graphListBurn gs := by
  induction gs with
  | nil => simp [graphListBurn]
  | cons g gs ih => simp [graphListBurn, List.length_cons]; omega

theorem nodup_append_left_of (l m k : List String) (h : (l ++ (m ++ k)).Nodup) :
    (l ++ m).Nodup :=
  List.Nodup.sublist (List.Sublist.append_left (List.sublist_append_left _ _) l) h

theorem dataAll_extract (ka : List String) (ks : List docKey) (kind : Kind) (ds : List Data)
    (h : ds.all (dataOKB ka ks kind) = true) :
    ∀ d ∈ ds, dataWFB d = true ∧ dataResB ka ks kind d = true := by
  intro d hd
  have := List.all_eq_true.mp h d hd
  simpa [dataOKB, Bool.and_eq_true] using this

theorem startGraphEl_replay (st : docDecoder) (gID : String) (gUn : List XAttr)
    (gData : List Data) (x : EdgeDir) (nds : List Node) (eds : List Edge)
    (hClean : noReserved ["id", "edgedefault"] gUn = true)
    (hfr : gID ≠ "" → hasID st.ids gID = false) :
    startGraphEl st (Graph.attrs (.mk ⟨⟨gID, gUn⟩, gData⟩ x nds eds))
      = .ok (.mk ⟨⟨gID, gUn⟩, []⟩ x [] [],
          { st with ids := st.ids ++ (if gID ≠ "" then [gID] else []) }) := by
  simp only [startGraphEl]
  rw [Graph_attrs_fold ⟨⟨gID, gUn⟩, gData⟩ x nds eds hClean]
  by_cases hID : gID = ""
  · subst hID
    have hproj : (Graph.mk ⟨⟨"", gUn⟩, []⟩ x [] []).ID = "" := rfl
    have haddid : addID st "" = .ok ("", st) := rfl
    have hsetid : (Graph.mk ⟨⟨"", gUn⟩, []⟩ x [] []).setID "" = .mk ⟨⟨"", gUn⟩, []⟩ x [] [] := rfl
    simp only [hproj, haddid, hsetid]
    simp
  · have hproj : (Graph.mk ⟨⟨gID, gUn⟩, []⟩ x [] []).ID = gID := rfl
    have haddid : addID st gID = .ok (gID, { st with ids := st.ids ++ [gID] }) := by
      simp [addID, hID, hfr hID]
    have hsetid : (Graph.mk ⟨⟨gID, gUn⟩, []⟩ x [] []).setID gID = .mk ⟨⟨gID, gUn⟩, []⟩ x [] [] := rfl
    simp only [hproj, haddid, hsetid]
    simp [hID]

theorem startNodeEl_replay (st : docDecoder) (nID : String) (nUn : List XAttr)
    (nData : List Data) (gs : List Graph)
    (hClean : noReserved ["id"] nUn = true)
    (hfr : nID ≠ "" → hasID st.ids nID = false) :
    startNodeEl st (Node.attrs (.mk ⟨⟨nID, nUn⟩, nData⟩ gs))
      = .ok (.mk ⟨⟨nID, nUn⟩, []⟩ [],
          { st with ids := st.ids ++ (if nID ≠ "" then [nID] else []) }) := by
  simp only [startNodeEl]
  rw [Node_attrs_fold ⟨⟨nID, nUn⟩, nData⟩ gs hClean]
  by_cases hID : nID = ""
  · subst hID
    have hproj : (Node.mk ⟨⟨"", nUn⟩, []⟩ []).ID = "" := rfl
    have haddid : addID st "" = .ok ("", st) := rfl
    have hsetid : (Node.mk ⟨⟨"", nUn⟩, []⟩ []).setID "" = .mk ⟨⟨"", nUn⟩, []⟩ [] := rfl
    simp only [hproj, haddid, hsetid]
    simp
  · have hproj : (Node.mk ⟨⟨nID, nUn⟩, []⟩ []).ID = nID := rfl
    have haddid : addID st nID = .ok (nID, { st with ids := st.ids ++ [nID] }) := by
      simp [addID, hID, hfr hID]
    have hsetid : (Node.mk ⟨⟨nID, nUn⟩, []⟩ []).setID nID = .mk ⟨⟨nID, nUn⟩, []⟩ [] := rfl
    simp only [hproj, haddid, hsetid]
    simp [hID]

mutual

theorem replay_graphChild (g : Graph) :
    ∀ (F : Nat) (st : docDecoder) (rest : List Token),
      graphBurn g ≤ F →
      graphWFB (st.keysAll.map Prod.fst) (st.keys.map Prod.fst) g = true →
      (st.ids ++ graphIDs g).Nodup →
      decodeGraphF (decoders F).graphNodes st (Graph.attrs g) ⟨Namespace, "graph"⟩
        (encodeDataList nsName g.ext.Data ++ (encodeNodeList nsName g.Nodes
          ++ (encodeEdgeList nsName g.Edges ++ .EndElement ⟨Namespace, "graph"⟩ :: rest)))
        = .ok (g, { st with ids := st.ids ++ graphIDs g }, rest) := by
  obtain ⟨⟨⟨gID, gUn⟩, gData⟩, x, nds, eds⟩ := g
  intro F st rest hF hWF hN
  simp only [Graph.ext, Graph.Nodes, Graph.Edges] at hF hWF hN ⊢
  simp only [graphWFB, Bool.and_eq_true] at hWF
  obtain ⟨⟨⟨hClean, hData⟩, hNodes⟩, hEdges⟩ := hWF
  simp only [graphIDs] at hN ⊢
  have hfr : gID ≠ "" → hasID st.ids gID = false := by
    intro hne
    rw [hasID_eq_mem]
    simp only [decide_eq_false_iff_not]
    intro hmem
    rw [List.nodup_append] at hN
    exact hN.2.2 hmem (by simp [hne])
  simp only [decodeGraphF, startGraphEl_replay st gID gUn gData x nds eds hClean hfr]
  have hburn : graphBurn (.mk ⟨⟨gID, gUn⟩, gData⟩ x nds eds)
      = gData.length + nodeListBurn nds + edgeListBurn eds + 1 := rfl
  rw [hburn] at hF
  have hF1 : F = gData.length + (F - gData.length) := by omega
  rw [hF1, replay_graphData gData (F - gData.length)
    { st with ids := st.ids ++ (if gID ≠ "" then [gID] else []) } _ _ _
    (dataAll_extract _ _ _ _ hData)]
  have hN1 : (({ st with ids := st.ids ++ (if gID ≠ "" then [gID] else []) } : docDecoder).ids
      ++ nodeListIDs nds).Nodup := by
    apply nodup_append_left_of _ _ (edgeListIDs eds)
    simpa [List.append_assoc] using hN
  rw [replay_nodeList nds (F - gData.length)
    { st with ids := st.ids ++ (if gID ≠ "" then [gID] else []) } _ _ _
    (by omega) (by simpa using hNodes) hN1]
  have hN2 : (({ st with ids := (st.ids ++ (if gID ≠ "" then [gID] else [])) ++ nodeListIDs nds } : docDecoder).ids
      ++ edgeListIDs eds).Nodup := by
    simpa [List.append_assoc] using hN
  rw [replay_edgeList eds (F - gData.length - nds.length)
    { st with ids := (st.ids ++ (if gID ≠ "" then [gID] else [])) ++ nodeListIDs nds } _ _ _
    (by have := nodeListBurn_ge nds; omega) (by simpa using hEdges) hN2]
  have hend : F - gData.length - nds.length - eds.length
      = (F - gData.length - nds.length - eds.length - 1) + 1 := by
    have := nodeListBurn_ge nds
    have := edgeListBurn_ge eds
    omega
  rw [hend, graphNodes_step_end]
  rw [Graph_pushDataList_eq, Graph.pushNodeList_eq, Graph.pushEdgeList_eq]
  simp [List.append_assoc]

theorem replay_nodeChild (n : Node) :
    ∀ (F : Nat) (st : docDecoder) (rest : List Token),
      nodeBurn n ≤ F →
      nodeWFB (st.keysAll.map Prod.fst) (st.keys.map Prod.fst) n = true →
      (st.ids ++ nodeIDs n).Nodup →
      decodeNodeF (decoders F).nodeLoop st (Node.attrs n) ⟨Namespace, "node"⟩
        (encodeDataList nsName n.ext.Data ++ (encodeGraphList nsName n.Graphs
          ++ .EndElement ⟨Namespace, "node"⟩ :: rest))
        = .ok (n, { st with ids := st.ids ++ nodeIDs n }, rest) := by
  obtain ⟨⟨⟨nID, nUn⟩, nData⟩, gs⟩ := n
  intro F st rest hF hWF hN
  simp only [Node.ext, Node.Graphs] at hF hWF hN ⊢
  simp only [nodeWFB, Bool.and_eq_true] at hWF
  obtain ⟨⟨hClean, hData⟩, hGraphs⟩ := hWF
  simp only [nodeIDs] at hN ⊢
  have hfr : nID ≠ "" → hasID st.ids nID = false := by
    intro hne
    rw [hasID_eq_mem]
    simp only [decide_eq_false_iff_not]
    intro hmem
    rw [List.nodup_append] at hN
    exact hN.2.2 hmem (by simp [hne])
  simp only [decodeNodeF, startNodeEl_replay st nID nUn nData gs hClean hfr]
  have hburn : nodeBurn (.mk ⟨⟨nID, nUn⟩, nData⟩ gs)
      = nData.length + graphListBurn gs + 1 := rfl
  rw [hburn] at hF
  have hF1 : F = nData.length + (F - nData.length) := by omega
  rw [hF1, replay_nodeData nData (F - nData.length)
    { st with ids := st.ids ++ (if nID ≠ "" then [nID] else []) } _ _ _
    (dataAll_extract _ _ _ _ hData)]
  have hN1 : (({ st with ids := st.ids ++ (if nID ≠ "" then [nID] else []) } : docDecoder).ids
      ++ graphListIDs gs).Nodup := by
    simpa [List.append_assoc] using hN
  rw [replay_graphListNode gs (F - nData.length)
    { st with ids := st.ids ++ (if nID ≠ "" then [nID] else []) } _ _ _
    (by omega) (by simpa using hGraphs) hN1]
  have hend : F - nData.length - gs.length
      = (F - nData.length - gs.length - 1) + 1 := by
    have := graphListBurn_ge gs
    omega
  rw [hend, nodeLoop_step_end]
  rw [Node_pushDataList_eq, Node.pushGraphList_eq]
  simp [List.append_assoc]

theorem replay_nodeList (ns : List Node) :
    ∀ (F : Nat) (st : docDecoder) (g : Graph) (name : XName) (rest : List Token),
      nodeListBurn ns ≤ F →
      nodeListWFB (st.keysAll.map Prod.fst) (st.keys.map Prod.fst) ns = true →
      (st.ids ++ nodeListIDs ns).Nodup →
      (decoders F).graphNodes st g name (encodeNodeList nsName ns ++ rest)
        = (decoders (F - ns.length)).graphNodes { st with ids := st.ids ++ nodeListIDs ns }
            (g.pushNodeList ns) name rest := by
  match ns with
  | [] =>
    intro F st g name rest _ _ _
    simp [encodeNodeList, Graph.pushNodeList, nodeListIDs]
  | n :: ns =>
    intro F st g name rest hF hWF hN
    simp only [nodeListWFB, Bool.and_eq_true] at hWF
    obtain ⟨hWFn, hWFns⟩ := hWF
    cases F with
    | zero =>
      exfalso
      have h1 := nodeListBurn_ge (n :: ns)
      simp only [List.length_cons] at h1
      omega
    | succ F =>
      have hstream : encodeNodeList nsName (n :: ns) ++ rest
          = .StartElement ⟨Namespace, "node"⟩ (Node.attrs n)
            :: (encodeDataList nsName n.ext.Data ++ (encodeGraphList nsName n.Graphs
                ++ .EndElement ⟨Namespace, "node"⟩ :: (encodeNodeList nsName ns ++ rest))) := by
        cases n
        simp [encodeNodeList, encodeNode1, nsName, Node.ext, Node.Graphs, List.append_assoc]
      rw [hstream, graphNodes_step_node _ _ _ _ _ _ _ rfl rfl]
      have hNn : (st.ids ++ nodeIDs n).Nodup := by
        apply nodup_append_left_of _ _ (nodeListIDs ns)
        simpa [nodeListIDs, List.append_assoc] using hN
      have hFn : nodeBurn n ≤ F := by
        simp [nodeListBurn] at hF
        omega
      simp only [replay_nodeChild n F st _ hFn hWFn hNn]
      have hN2 : (({ st with ids := st.ids ++ nodeIDs n } : docDecoder).ids
          ++ nodeListIDs ns).Nodup := by
        simpa [nodeListIDs, List.append_assoc] using hN
      rw [replay_nodeList ns F { st with ids := st.ids ++ nodeIDs n } (g.pushNode n) name rest
        (by simp [nodeListBurn] at hF; omega) (by simpa using hWFns) hN2]
      have harith : F + 1 - (ns.length + 1) = F - ns.length := by omega
      simp only [List.length_cons, harith]
      congr 1
      simp [nodeListIDs, List.append_assoc]

theorem replay_graphListNode (gs : List Graph) :
    ∀ (F : Nat) (st : docDecoder) (nd : Node) (name : XName) (rest : List Token),
      graphListBurn gs ≤ F →
      graphListWFB (st.keysAll.map Prod.fst) (st.keys.map Prod.fst) gs = true →
      (st.ids ++ graphListIDs gs).Nodup →
      (decoders F).nodeLoop st nd name (encodeGraphList nsName gs ++ rest)
        = (decoders (F - gs.length)).nodeLoop { st with ids := st.ids ++ graphListIDs gs }
            (nd.pushGraphList gs) name rest := by
  match gs with
  | [] =>
    intro F st nd name rest _ _ _
    simp [encodeGraphList, Node.pushGraphList, graphListIDs]
  | g :: gs =>
    intro F st nd name rest hF hWF hN
    simp only [graphListWFB, Bool.and_eq_true] at hWF
    obtain ⟨hWFg, hWFgs⟩ := hWF
    cases F with
    | zero =>
      exfalso
      have h1 := graphListBurn_ge (g :: gs)
      simp only [List.length_cons] at h1
      omega
    | succ F =>
      have hstream : encodeGraphList nsName (g :: gs) ++ rest
          = .StartElement ⟨Namespace, "graph"⟩ (Graph.attrs g)
            :: (encodeDataList nsName g.ext.Data ++ (encodeNodeList nsName g.Nodes
                ++ (encodeEdgeList nsName g.Edges
                  ++ .EndElement ⟨Namespace, "graph"⟩ :: (encodeGraphList nsName gs ++ rest)))) := by
        cases g
        simp [encodeGraphList, encodeGraph1, nsName, Graph.ext, Graph.Nodes, Graph.Edges,
          List.append_assoc]
      rw [hstream, nodeLoop_step_graph _ _ _ _ _ _ _ rfl rfl]
      have hNg : (st.ids ++ graphIDs g).Nodup := by
        apply nodup_append_left_of _ _ (graphListIDs gs)
        simpa [graphListIDs, List.append_assoc] using hN
      have hFg : graphBurn g ≤ F := by
        simp [graphListBurn] at hF
        omega
      simp only [replay_graphChild g F st _ hFg hWFg hNg]
      have hN2 : (({ st with ids := st.ids ++ graphIDs g } : docDecoder).ids
          ++ graphListIDs gs).Nodup := by
        simpa [graphListIDs, List.append_assoc] using hN
      rw [replay_graphListNode gs F { st with ids := st.ids ++ graphIDs g } (nd.pushGraph g) name rest
        (by simp [graphListBurn] at hF; omega) (by simpa using hWFgs) hN2]
      have harith : F + 1 - (gs.length + 1) = F - gs.length := by omega
      simp only [List.length_cons, harith]
      congr 1
      simp [graphListIDs, List.append_assoc]

end

/-! ### Soundness of the decoder: a successful decode establishes docWFB -/

/-- The identifiers known to the scope-all key table of a state. -/
def kaOf (st : docDecoder) : List String :=
  st.keysAll.map Prod.fst

/-- The lookup keys known to the scoped key table of a state. -/
def ksOf (st : docDecoder) : List docKey :=
  st.keys.map Prod.fst

/-- The key-table invariant of the decoder state: both tables mirror the
registered document keys, every registered key is well-formed, and no two
registered keys collide in identifier and scope. -/
def stKeyInv (st : docDecoder) : Prop :=
  st.keysAll = keysPairsAll st.doc.Keys ∧
  st.keys = keysPairsFor st.doc.Keys ∧
  (∀ k ∈ st.doc.Keys, keyWFB k = true) ∧
  st.doc.Keys.Pairwise (fun a b => ¬(a.ID = b.ID ∧ a.For = b.For))

theorem Graph_pushData_ext_toObject (g : Graph) (d : Data) :
    (g.pushData d).ext.toObject = g.ext.toObject := by
  cases g; rfl

theorem Graph_pushData_ext_Data (g : Graph) (d : Data) :
    (g.pushData d).ext.Data = g.ext.Data ++ [d] := by
  cases g; rfl

theorem Graph.pushData_Nodes (g : Graph) (d : Data) :
    (g.pushData d).Nodes = g.Nodes := by
  cases g; rfl

theorem Graph.pushData_Edges (g : Graph) (d : Data) :
    (g.pushData d).Edges = g.Edges := by
  cases g; rfl

theorem Graph.pushNode_ext (g : Graph) (n : Node) :
    (g.pushNode n).ext = g.ext := by
  cases g; rfl

theorem Graph.pushNode_Nodes (g : Graph) (n : Node) :
    (g.pushNode n).Nodes = g.Nodes ++ [n] := by
  cases g; rfl

theorem Graph.pushNode_Edges (g : Graph) (n : Node) :
    (g.pushNode n).Edges = g.Edges := by
  cases g; rfl

theorem Graph.pushEdge_ext (g : Graph) (e : Edge) :
    (g.pushEdge e).ext = g.ext := by
  cases g; rfl

theorem Graph.pushEdge_Nodes (g : Graph) (e : Edge) :
    (g.pushEdge e).Nodes = g.Nodes := by
  cases g; rfl

theorem Graph.pushEdge_Edges (g : Graph) (e : Edge) :
    (g.pushEdge e).Edges = g.Edges ++ [e] := by
  cases g; rfl

theorem Node_pushData_ext_toObject (n : Node) (d : Data) :
    (n.pushData d).ext.toObject = n.ext.toObject := by
  cases n; rfl

theorem Node_pushData_ext_Data (n : Node) (d : Data) :
    (n.pushData d).ext.Data = n.ext.Data ++ [d] := by
  cases n; rfl

theorem Node.pushData_Graphs (n : Node) (d : Data) :
    (n.pushData d).Graphs = n.Graphs := by
  cases n; rfl

theorem Node.pushGraph_ext (n : Node) (g : Graph) :
    (n.pushGraph g).ext = n.ext := by
  cases n; rfl

theorem Node.pushGraph_Graphs (n : Node) (g : Graph) :
    (n.pushGraph g).Graphs = n.Graphs ++ [g] := by
  cases n; rfl

theorem Edge_pushData_ext_toObject (e : Edge) (d : Data) :
    (e.pushData d).ext.toObject = e.ext.toObject := rfl

theorem Edge_pushData_ext_Data (e : Edge) (d : Data) :
    (e.pushData d).ext.Data = e.ext.Data ++ [d] := rfl

theorem nodeListIDs_append (a b : List Node) :
    nodeListIDs (a ++ b) = nodeListIDs a ++ nodeListIDs b := by
  induction a with
  | nil => simp [nodeListIDs]
  | cons n a ih => simp [nodeListIDs, ih]

theorem edgeListIDs_append (a b : List Edge) :
    edgeListIDs (a ++ b) = edgeListIDs a ++ edgeListIDs b := by
  induction a with
  | nil => simp [edgeListIDs]
  | cons e a ih => simp [edgeListIDs, ih]

theorem graphListIDs_append (a b : List Graph) :
    graphListIDs (a ++ b) = graphListIDs a ++ graphListIDs b := by
  induction a with
  | nil => simp [graphListIDs]
  | cons g a ih => simp [graphListIDs, ih]

theorem nodeListWFB_append (ka : List String) (ks : List docKey) (a b : List Node) :
    nodeListWFB ka ks (a ++ b) = (nodeListWFB ka ks a && nodeListWFB ka ks b) := by
  induction a with
  | nil => simp [nodeListWFB]
  | cons n a ih => simp [nodeListWFB, ih, Bool.and_assoc]

theorem edgeListWFB_append (ka : List String) (ks : List docKey) (a b : List Edge) :
    edgeListWFB ka ks (a ++ b) = (edgeListWFB ka ks a && edgeListWFB ka ks b) := by
  induction a with
  | nil => simp [edgeListWFB]
  | cons e a ih => simp [edgeListWFB, ih, Bool.and_assoc]

theorem graphListWFB_append (ka : List String) (ks : List docKey) (a b : List Graph) :
    graphListWFB ka ks (a ++ b) = (graphListWFB ka ks a && graphListWFB ka ks b) := by
  induction a with
  | nil => simp [graphListWFB]
  | cons g a ih => simp [graphListWFB, ih, Bool.and_assoc]

theorem perm_rotate (base A B C : List String) :
    ((base ++ (A ++ B)) ++ C).Perm (base ++ ((A ++ C) ++ B)) := by
  have h1 : ((base ++ (A ++ B)) ++ C) = base ++ (A ++ (B ++ C)) := by
    simp [List.append_assoc]
  have h2 : (base ++ ((A ++ C) ++ B)) = base ++ (A ++ (C ++ B)) := by
    simp [List.append_assoc]
  rw [h1, h2]
  exact List.Perm.append_left base (List.Perm.append_left A List.perm_append_comm)

theorem nodup_append_one (l : List String) (x : String)
    (hN : l.Nodup) (hx : x ∉ l) : (l ++ [x]).Nodup := by
  simp [List.nodup_append, hN, hx]

theorem noReserved_append (R : List String) (a b : List XAttr) :
    noReserved R (a ++ b) = (noReserved R a && noReserved R b) := by
  simp [noReserved, List.all_append]

theorem Object.addAttr_clean (R : List String) (o : Object) (a : XAttr)
    (hid : a.Name.Local = "id" ∨ a.Name.Local ∉ R)
    (h : noReserved R o.Unrecognized = true) :
    noReserved R (o.addAttr a).Unrecognized = true := by
  unfold Object.addAttr
  by_cases hA : a.Name.Local = "id"
  · simpa [hA] using h
  · rcases hid with hid | hid
    · exact absurd hid hA
    · simp only [if_neg hA]
      show noReserved R (o.Unrecognized ++ [a]) = true
      rw [noReserved_append, h]
      simp [noReserved, hid]

theorem foldl_Key_clean :
    ∀ (attrs : List XAttr) (k : Key),
      noReserved ["id", "for", "attr.name", "attr.type"] k.toObject.Unrecognized = true →
      noReserved ["id", "for", "attr.name", "attr.type"]
        ((attrs.foldl Key.addAttr k)).toObject.Unrecognized = true := by
  intro attrs
  induction attrs with
  | nil => intro k h; simpa using h
  | cons a attrs ih =>
    intro k h
    rw [List.foldl_cons]
    apply ih
    unfold Key.addAttr
    by_cases h1 : a.Name.Local = "for"
    · simpa [h1] using h
    · by_cases h2 : a.Name.Local = "attr.name"
      · simpa [h1, h2] using h
      · by_cases h3 : a.Name.Local = "attr.type"
        · simpa [h1, h2, h3] using h
        · simp only [if_neg h1, if_neg h2, if_neg h3]
          apply Object.addAttr_clean
          · by_cases h4 : a.Name.Local = "id"
            · exact Or.inl h4
            · right; simp [h1, h2, h3, h4]
          · exact h

theorem foldl_Data_clean :
    ∀ (attrs : List XAttr) (d : Data),
      noReserved ["key"] d.Unrecognized = true →
      noReserved ["key"] ((attrs.foldl Data.addAttr d)).Unrecognized = true := by
  intro attrs
  induction attrs with
  | nil => intro d h; simpa using h
  | cons a attrs ih =>
    intro d h
    rw [List.foldl_cons]
    apply ih
    unfold Data.addAttr
    by_cases h1 : a.Name.Local = "key"
    · simpa [h1] using h
    · simp only [if_neg h1]
      show noReserved ["key"] (d.Unrecognized ++ [a]) = true
      rw [noReserved_append, h]
      simp [noReserved, h1]

theorem foldl_Graph_clean :
    ∀ (attrs : List XAttr) (g : Graph),
      noReserved ["id", "edgedefault"] g.ext.toObject.Unrecognized = true →
      noReserved ["id", "edgedefault"]
        ((attrs.foldl Graph.addAttr g)).ext.toObject.Unrecognized = true := by
  intro attrs
  induction attrs with
  | nil => intro g h; simpa using h
  | cons a attrs ih =>
    intro g h
    rw [List.foldl_cons]
    apply ih
    obtain ⟨e, d, ns, es⟩ := g
    simp only [Graph.addAttr, Graph.ext] at h ⊢
    by_cases h1 : a.Name.Local = "edgedefault"
    · simpa [h1] using h
    · simp only [if_neg h1, Graph.ext]
      apply Object.addAttr_clean
      · by_cases h4 : a.Name.Local = "id"
        · exact Or.inl h4
        · right; simp [h1, h4]
      · exact h

theorem foldl_Node_clean :
    ∀ (attrs : List XAttr) (n : Node),
      noReserved ["id"] n.ext.toObject.Unrecognized = true →
      noReserved ["id"] ((attrs.foldl Node.addAttr n)).ext.toObject.Unrecognized = true := by
  intro attrs
  induction attrs with
  | nil => intro n h; simpa using h
  | cons a attrs ih =>
    intro n h
    rw [List.foldl_cons]
    apply ih
    obtain ⟨e, gs⟩ := n
    simp only [Node.addAttr, Node.ext] at h ⊢
    apply Object.addAttr_clean
    · by_cases h4 : a.Name.Local = "id"
      · exact Or.inl h4
      · right; simp [h4]
    · exact h

theorem foldl_Edge_clean :
    ∀ (attrs : List XAttr) (e : Edge),
      noReserved ["id", "source", "target"] e.ext.toObject.Unrecognized = true →
      noReserved ["id", "source", "target"]
        ((attrs.foldl Edge.addAttr e)).ext.toObject.Unrecognized = true := by
  intro attrs
  induction attrs with
  | nil => intro e h; simpa using h
  | cons a attrs ih =>
    intro e h
    rw [List.foldl_cons]
    apply ih
    unfold Edge.addAttr
    by_cases h1 : a.Name.Local = "source"
    · simpa [h1] using h
    · by_cases h2 : a.Name.Local = "target"
      · simpa [h1, h2] using h
      · simp only [if_neg h1, if_neg h2]
        apply Object.addAttr_clean
        · by_cases h4 : a.Name.Local = "id"
          · exact Or.inl h4
          · right; simp [h1, h2, h4]
        · exact h

theorem normKey_toObject (attr : List XAttr) :
    (normKey attr).toObject = (attr.foldl Key.addAttr Key.empty).toObject := by
  unfold normKey
  by_cases h : (attr.foldl Key.addAttr Key.empty).For = ""
  · simp [h]
  · simp [h]

theorem normKey_wf (attr : List XAttr) : keyWFB (normKey attr) = true := by
  have h1 : noReserved ["id", "for", "attr.name", "attr.type"]
      (normKey attr).toObject.Unrecognized = true := by
    rw [normKey_toObject]
    exact foldl_Key_clean attr Key.empty rfl
  have h2 : (normKey attr).For ≠ "" := by
    unfold normKey
    by_cases h : (attr.foldl Key.addAttr Key.empty).For = ""
    · simp [h, KindAll]
    · simp [h]
  simp [keyWFB, h1, h2]

theorem mem_keysPairsAll_map (keys : List Key) (a : Key) (ha : a ∈ keys)
    (hf : a.For = KindAll) : a.ID ∈ (keysPairsAll keys).map Prod.fst := by
  simp only [keysPairsAll, List.map_map, List.mem_map, List.mem_filter, Function.comp,
    decide_eq_true_eq]
  exact ⟨a, ⟨ha, hf⟩, rfl⟩

theorem mem_keysPairsFor_map (keys : List Key) (a : Key) (ha : a ∈ keys)
    (hf : a.For ≠ KindAll) :
    (⟨a.ID, a.For⟩ : docKey) ∈ (keysPairsFor keys).map Prod.fst := by
  simp only [keysPairsFor, List.map_map, List.mem_map, List.mem_filter, Function.comp,
    decide_eq_true_eq]
  exact ⟨a, ⟨ha, hf⟩, rfl⟩

theorem dataResB_mono (ka ka' : List String) (ks ks' : List docKey) (kind : Kind) (d : Data)
    (h : dataResB ka ks kind d = true) : dataResB (ka ++ ka') (ks ++ ks') kind d = true := by
  simp only [dataResB, Bool.or_eq_true, decide_eq_true_eq] at h ⊢
  rcases h with h | h
  · exact Or.inl (List.mem_append_left _ h)
  · exact Or.inr (List.mem_append_left _ h)

theorem dataOKB_mono (ka ka' : List String) (ks ks' : List docKey) (kind : Kind) (d : Data)
    (h : dataOKB ka ks kind d = true) : dataOKB (ka ++ ka') (ks ++ ks') kind d = true := by
  simp only [dataOKB, Bool.and_eq_true] at h ⊢
  exact ⟨h.1, dataResB_mono ka ka' ks ks' kind d h.2⟩

theorem edgeWFB_mono (ka ka' : List String) (ks ks' : List docKey) (e : Edge)
    (h : edgeWFB ka ks e = true) : edgeWFB (ka ++ ka') (ks ++ ks') e = true := by
  simp only [edgeWFB, Bool.and_eq_true, List.all_eq_true] at h ⊢
  exact ⟨h.1, fun d hd => dataOKB_mono ka ka' ks ks' KindEdge d (h.2 d hd)⟩

theorem edgeListWFB_mono (ka ka' : List String) (ks ks' : List docKey) :
    ∀ (es : List Edge), edgeListWFB ka ks es = true →
      edgeListWFB (ka ++ ka') (ks ++ ks') es = true := by
  intro es
  induction es with
  | nil => intro h; rfl
  | cons e es ih =>
    intro h
    simp only [edgeListWFB, Bool.and_eq_true] at h ⊢
    exact ⟨edgeWFB_mono ka ka' ks ks' e h.1, ih h.2⟩

mutual

theorem graphWFB_mono (ka ka' : List String) (ks ks' : List docKey) :
    ∀ (g : Graph), graphWFB ka ks g = true → graphWFB (ka ++ ka') (ks ++ ks') g = true := by
  intro g h
  obtain ⟨e, d, ns, es⟩ := g
  simp only [graphWFB, Bool.and_eq_true, List.all_eq_true] at h ⊢
  obtain ⟨⟨⟨h1, h2⟩, h3⟩, h4⟩ := h
  exact ⟨⟨⟨h1, fun d2 hd => dataOKB_mono ka ka' ks ks' KindGraph d2 (h2 d2 hd)⟩,
    nodeListWFB_mono ka ka' ks ks' ns h3⟩, edgeListWFB_mono ka ka' ks ks' es h4⟩

theorem nodeListWFB_mono (ka ka' : List String) (ks ks' : List docKey) :
    ∀ (ns : List Node), nodeListWFB ka ks ns = true →
      nodeListWFB (ka ++ ka') (ks ++ ks') ns = true := by
  intro ns h
  match ns with
  | [] => rfl
  | n :: ns =>
    simp only [nodeListWFB, Bool.and_eq_true] at h ⊢
    exact ⟨nodeWFB_mono ka ka' ks ks' n h.1, nodeListWFB_mono ka ka' ks ks' ns h.2⟩

theorem nodeWFB_mono (ka ka' : List String) (ks ks' : List docKey) :
    ∀ (n : Node), nodeWFB ka ks n = true → nodeWFB (ka ++ ka') (ks ++ ks') n = true := by
  intro n h
  obtain ⟨e, gs⟩ := n
  simp only [nodeWFB, Bool.and_eq_true, List.all_eq_true] at h ⊢
  obtain ⟨⟨h1, h2⟩, h3⟩ := h
  exact ⟨⟨h1, fun d2 hd => dataOKB_mono ka ka' ks ks' KindNode d2 (h2 d2 hd)⟩,
    graphListWFB_mono ka ka' ks ks' gs h3⟩

theorem graphListWFB_mono (ka ka' : List String) (ks ks' : List docKey) :
    ∀ (gs : List Graph), graphListWFB ka ks gs = true →
      graphListWFB (ka ++ ka') (ks ++ ks') gs = true := by
  intro gs h
  match gs with
  | [] => rfl
  | g :: gs =>
    simp only [graphListWFB, Bool.and_eq_true] at h ⊢
    exact ⟨graphWFB_mono ka ka' ks ks' g h.1, graphListWFB_mono ka ka' ks ks' gs h.2⟩

end

theorem Graph_setID_self (g : Graph) : g.setID g.ID = g := by
  cases g; rfl

theorem Node_setID_self (n : Node) : n.setID n.ID = n := by
  cases n; rfl

theorem Edge_setID_self (e : Edge) : e.setID e.ID = e := rfl

theorem foldl_Graph_fields (attrs : List XAttr) :
    ∀ (g : Graph), (attrs.foldl Graph.addAttr g).ext.Data = g.ext.Data ∧
      (attrs.foldl Graph.addAttr g).Nodes = g.Nodes ∧
      (attrs.foldl Graph.addAttr g).Edges = g.Edges := by
  induction attrs with
  | nil => intro g; exact ⟨rfl, rfl, rfl⟩
  | cons a attrs ih =>
    intro g
    rw [List.foldl_cons]
    obtain ⟨e, d, ns, es⟩ := g
    have hstep : (Graph.addAttr (.mk e d ns es) a).ext.Data = e.Data ∧
        (Graph.addAttr (.mk e d ns es) a).Nodes = ns ∧
        (Graph.addAttr (.mk e d ns es) a).Edges = es := by
      unfold Graph.addAttr
      by_cases h1 : a.Name.Local = "edgedefault" <;>
        simp [h1, Graph.ext, Graph.Nodes, Graph.Edges]
    have hrec := ih (Graph.addAttr (.mk e d ns es) a)
    exact ⟨hrec.1.trans hstep.1, hrec.2.1.trans hstep.2.1, hrec.2.2.trans hstep.2.2⟩

theorem foldl_Node_fields (attrs : List XAttr) :
    ∀ (n : Node), (attrs.foldl Node.addAttr n).ext.Data = n.ext.Data ∧
      (attrs.foldl Node.addAttr n).Graphs = n.Graphs := by
  induction attrs with
  | nil => intro n; exact ⟨rfl, rfl⟩
  | cons a attrs ih =>
    intro n
    rw [List.foldl_cons]
    obtain ⟨e, gs⟩ := n
    have hrec := ih (Node.addAttr (.mk e gs) a)
    exact ⟨hrec.1, hrec.2⟩

theorem foldl_Edge_fields (attrs : List XAttr) :
    ∀ (e : Edge), (attrs.foldl Edge.addAttr e).ext.Data = e.ext.Data := by
  induction attrs with
  | nil => intro e; rfl
  | cons a attrs ih =>
    intro e
    rw [List.foldl_cons]
    have hstep : (Edge.addAttr e a).ext.Data = e.ext.Data := by
      unfold Edge.addAttr
      by_cases h1 : a.Name.Local = "source"
      · simp [h1]
      · by_cases h2 : a.Name.Local = "target" <;> simp [h1, h2]
    exact (ih (Edge.addAttr e a)).trans hstep

theorem addID_sound (st : docDecoder) (id id2 : String) (st2 : docDecoder)
    (h : addID st id = .ok (id2, st2)) :
    id2 = id ∧ st2.keysAll = st.keysAll ∧ st2.keys = st.keys ∧ st2.doc = st.doc ∧
    st2.ids = st.ids ++ (if id ≠ "" then [id] else []) ∧
    (st.ids.Nodup → st2.ids.Nodup) := by
  unfold addID at h
  by_cases h0 : id = ""
  · rw [if_pos h0] at h
    simp only [Except.ok.injEq, Prod.mk.injEq] at h
    obtain ⟨h1, h2⟩ := h
    subst h2
    refine ⟨by rw [← h1, h0], rfl, rfl, rfl, by simp [h0], fun hN => hN⟩
  · rw [if_neg h0] at h
    by_cases hH : hasID st.ids id = true
    · rw [if_pos hH] at h; cases h
    · rw [if_neg hH] at h
      simp only [Except.ok.injEq, Prod.mk.injEq] at h
      obtain ⟨h1, h2⟩ := h
      subst h2
      have hmem : id ∉ st.ids := by
        rw [hasID_eq_mem] at hH
        simpa using hH
      exact ⟨h1.symm, rfl, rfl, rfl, by simp [h0], fun hN => nodup_append_one _ _ hN hmem⟩

theorem startGraphEl_sound (st : docDecoder) (attr : List XAttr) (g : Graph) (st2 : docDecoder)
    (h : startGraphEl st attr = .ok (g, st2)) :
    g.ext.Data = [] ∧ g.Nodes = [] ∧ g.Edges = [] ∧
    noReserved ["id", "edgedefault"] g.ext.toObject.Unrecognized = true ∧
    st2.keysAll = st.keysAll ∧ st2.keys = st.keys ∧ st2.doc = st.doc ∧
    st2.ids = st.ids ++ (if g.ID ≠ "" then [g.ID] else []) ∧
    (st.ids.Nodup → st2.ids.Nodup) := by
  simp only [startGraphEl] at h
  split at h
  · cases h
  · rename_i id st3 hA
    simp only [Except.ok.injEq, Prod.mk.injEq] at h
    obtain ⟨h1, h2⟩ := h
    subst h2
    obtain ⟨hid, hka, hkf, hdoc, hids, hN⟩ :=
      addID_sound st (attr.foldl Graph.addAttr Graph.empty).ID id st3 hA
    rw [hid, Graph_setID_self] at h1
    subst h1
    have hf := foldl_Graph_fields attr Graph.empty
    exact ⟨hf.1, hf.2.1, hf.2.2, foldl_Graph_clean attr Graph.empty rfl,
      hka, hkf, hdoc, hids, hN⟩

theorem startNodeEl_sound (st : docDecoder) (attr : List XAttr) (nd : Node) (st2 : docDecoder)
    (h : startNodeEl st attr = .ok (nd, st2)) :
    nd.ext.Data = [] ∧ nd.Graphs = [] ∧
    noReserved ["id"] nd.ext.toObject.Unrecognized = true ∧
    st2.keysAll = st.keysAll ∧ st2.keys = st.keys ∧ st2.doc = st.doc ∧
    st2.ids = st.ids ++ (if nd.ID ≠ "" then [nd.ID] else []) ∧
    (st.ids.Nodup → st2.ids.Nodup) := by
  simp only [startNodeEl] at h
  split at h
  · cases h
  · rename_i id st3 hA
    simp only [Except.ok.injEq, Prod.mk.injEq] at h
    obtain ⟨h1, h2⟩ := h
    subst h2
    obtain ⟨hid, hka, hkf, hdoc, hids, hN⟩ :=
      addID_sound st (attr.foldl Node.addAttr Node.empty).ID id st3 hA
    rw [hid, Node_setID_self] at h1
    subst h1
    have hf := foldl_Node_fields attr Node.empty
    exact ⟨hf.1, hf.2, foldl_Node_clean attr Node.empty rfl, hka, hkf, hdoc, hids, hN⟩

theorem startEdgeEl_sound (st : docDecoder) (attr : List XAttr) (ed : Edge) (st2 : docDecoder)
    (h : startEdgeEl st attr = .ok (ed, st2)) :
    ed.ext.Data = [] ∧
    noReserved ["id", "source", "target"] ed.ext.toObject.Unrecognized = true ∧
    st2.keysAll = st.keysAll ∧ st2.keys = st.keys ∧ st2.doc = st.doc ∧
    st2.ids = st.ids ++ (if ed.ID ≠ "" then [ed.ID] else []) ∧
    (st.ids.Nodup → st2.ids.Nodup) := by
  simp only [startEdgeEl] at h
  split at h
  · cases h
  · rename_i id st3 hA
    simp only [Except.ok.injEq, Prod.mk.injEq] at h
    obtain ⟨h1, h2⟩ := h
    subst h2
    obtain ⟨hid, hka, hkf, hdoc, hids, hN⟩ :=
      addID_sound st (attr.foldl Edge.addAttr Edge.empty).ID id st3 hA
    rw [hid, Edge_setID_self] at h1
    subst h1
    exact ⟨foldl_Edge_fields attr Edge.empty, foldl_Edge_clean attr Edge.empty rfl,
      hka, hkf, hdoc, hids, hN⟩

theorem decodeData_sound (st : docDecoder) (kind : Kind) (attr : List XAttr)
    (ts : List Token) (d : Data) (rest : List Token)
    (h : decodeData st kind attr ⟨Namespace, "data"⟩ ts = .ok (d, rest)) :
    dataWFB d = true ∧ dataResB (kaOf st) (ksOf st) kind d = true := by
  simp only [decodeData] at h
  by_cases hres : (hasKeyFor st.keys ⟨(attr.foldl Data.addAttr Data.empty).Key, kind⟩
      || hasKeyAll st.keysAll (attr.foldl Data.addAttr Data.empty).Key) = true
  · rw [if_pos hres] at h
    split at h
    · cases h
    · rename_i payload rest3 hL
      simp only [Except.ok.injEq, Prod.mk.injEq] at h
      obtain ⟨h1, h2⟩ := h
      subst h1; subst h2
      constructor
      · obtain ⟨mid, hm1, _, hm3⟩ :=
          decodeDataLoop_sound ⟨Namespace, "data"⟩ ts [] payload rest3 hL
        simp only [List.nil_append] at hm1
        subst hm1
        simp only [dataWFB, Bool.and_eq_true]
        constructor
        · show noReserved ["key"] (attr.foldl Data.addAttr Data.empty).Unrecognized = true
          exact foldl_Data_clean attr Data.empty rfl
        · simp only [List.all_eq_true, decide_eq_true_eq]
          intro t ht
          exact hm3 t ht
      · simp only [Bool.or_eq_true] at hres
        simp only [dataResB, Bool.or_eq_true, decide_eq_true_eq, kaOf, ksOf]
        rcases hres with hres | hres
        · rw [hasKeyFor_eq_mem] at hres
          left
          simpa using hres
        · rw [hasKeyAll_eq_mem] at hres
          right
          simpa using hres
  · rw [if_neg hres] at h
    cases h

theorem decodeKey_sound (st : docDecoder) (attr : List XAttr) (name : XName) (ts : List Token)
    (st2 : docDecoder) (rest : List Token)
    (h : decodeKey st attr name ts = .ok (st2, rest)) (hInv : stKeyInv st) :
    stKeyInv st2 ∧ st2.ids = st.ids ∧ st2.doc.Graphs = st.doc.Graphs ∧
    st2.doc.Data = st.doc.Data ∧
    ∃ ks2, st2.keysAll = st.keysAll ++ keysPairsAll ks2 ∧
      st2.keys = st.keys ++ keysPairsFor ks2 := by
  obtain ⟨hka, hkf, hWF, hP⟩ := hInv
  simp only [decodeKey] at h
  by_cases hAll : (normKey attr).For = KindAll
  · rw [if_pos hAll] at h
    by_cases hHas : hasKeyAll st.keysAll (normKey attr).ID = true
    · rw [if_pos hHas] at h; cases h
    · rw [if_neg hHas] at h
      split at h
      · cases h
      · rename_i rest3 hE
        simp only [Except.ok.injEq, Prod.mk.injEq] at h
        obtain ⟨h1, h2⟩ := h
        subst h1; subst h2
        have hIDnot : (normKey attr).ID ∉ st.keysAll.map Prod.fst := by
          rw [hasKeyAll_eq_mem] at hHas
          simpa using hHas
        refine ⟨⟨?_, ?_, ?_, ?_⟩, rfl, rfl, rfl, [normKey attr], ?_, ?_⟩
        · show st.keysAll ++ [((normKey attr).ID, normKey attr)]
            = keysPairsAll (st.doc.Keys ++ [normKey attr])
          rw [keysPairsAll_append, hka, keysPairsAll_cons_all _ _ hAll]
          rfl
        · show st.keys = keysPairsFor (st.doc.Keys ++ [normKey attr])
          rw [keysPairsFor_append, hkf, keysPairsFor_cons_all _ _ hAll]
          simp [keysPairsFor]
        · intro k2 hk2
          rcases List.mem_append.mp hk2 with hk2 | hk2
          · exact hWF k2 hk2
          · rw [List.mem_singleton] at hk2
            subst hk2
            exact normKey_wf attr
        · rw [List.pairwise_append]
          refine ⟨hP, List.pairwise_singleton _ _, ?_⟩
          intro a ha b hb
          rw [List.mem_singleton] at hb
          subst hb
          rintro ⟨e1, e2⟩
          have haAll : a.For = KindAll := by rw [e2, hAll]
          have := mem_keysPairsAll_map st.doc.Keys a ha haAll
          rw [← hka] at this
          rw [e1] at this
          exact hIDnot this
        · rw [keysPairsAll_cons_all _ _ hAll]
          rfl
        · rw [keysPairsFor_cons_all _ _ hAll]
          simp [keysPairsFor]
  · rw [if_neg hAll] at h
    by_cases hHas : hasKeyFor st.keys ⟨(normKey attr).ID, (normKey attr).For⟩ = true
    · rw [if_pos hHas] at h; cases h
    · rw [if_neg hHas] at h
      split at h
      · cases h
      · rename_i rest3 hE
        simp only [Except.ok.injEq, Prod.mk.injEq] at h
        obtain ⟨h1, h2⟩ := h
        subst h1; subst h2
        have hIDnot : (⟨(normKey attr).ID, (normKey attr).For⟩ : docKey)
            ∉ st.keys.map Prod.fst := by
          rw [hasKeyFor_eq_mem] at hHas
          simpa using hHas
        refine ⟨⟨?_, ?_, ?_, ?_⟩, rfl, rfl, rfl, [normKey attr], ?_, ?_⟩
        · show st.keysAll = keysPairsAll (st.doc.Keys ++ [normKey attr])
          rw [keysPairsAll_append, hka, keysPairsAll_cons_not _ _ hAll]
          simp [keysPairsAll]
        · show st.keys ++ [(⟨(normKey attr).ID, (normKey attr).For⟩, normKey attr)]
            = keysPairsFor (st.doc.Keys ++ [normKey attr])
          rw [keysPairsFor_append, hkf, keysPairsFor_cons_not _ _ hAll]
          rfl
        · intro k2 hk2
          rcases List.mem_append.mp hk2 with hk2 | hk2
          · exact hWF k2 hk2
          · rw [List.mem_singleton] at hk2
            subst hk2
            exact normKey_wf attr
        · rw [List.pairwise_append]
          refine ⟨hP, List.pairwise_singleton _ _, ?_⟩
          intro a ha b hb
          rw [List.mem_singleton] at hb
          subst hb
          rintro ⟨e1, e2⟩
          have haNot : a.For ≠ KindAll := by rw [e2]; exact hAll
          have := mem_keysPairsFor_map st.doc.Keys a ha haNot
          rw [← hkf] at this
          rw [e1, e2] at this
          exact hIDnot this
        · rw [keysPairsAll_cons_not _ _ hAll]
          simp [keysPairsAll]
        · rw [keysPairsFor_cons_not _ _ hAll]
          rfl

theorem startGraphML_fields :
    ∀ (ts : List Token) (doc0 doc1 : Document) (rootName : XName) (rest : List Token),
      startGraphML doc0 ts = .ok (doc1, rootName, rest) →
      doc1.Keys = doc0.Keys ∧ doc1.Graphs = doc0.Graphs ∧ doc1.Data = doc0.Data := by
  intro ts
  induction ts with
  | nil => intro doc0 doc1 rootName rest h; cases h
  | cons t ts ih =>
    intro doc0 doc1 rootName rest h
    simp only [startGraphML] at h
    by_cases hs : canSkip t = true
    · rw [if_pos hs] at h
      exact ih doc0 doc1 rootName rest h
    · rw [if_neg hs] at h
      cases t with
      | ProcInst a b =>
        replace h : startGraphML { doc0 with Instr := ⟨a, b⟩ } ts
            = .ok (doc1, rootName, rest) := h
        exact ih { doc0 with Instr := ⟨a, b⟩ } doc1 rootName rest h
      | StartElement n a2 =>
        replace h : (if n.Local = "graphml" ∧ n.Space = Namespace then
              (.ok ({ doc0 with Attrs := a2 }, n, ts) :
                Except DecodeError (Document × XName × List Token))
            else .error (.unexpectedToken (.StartElement n a2)))
            = .ok (doc1, rootName, rest) := h
        by_cases hc : n.Local = "graphml" ∧ n.Space = Namespace
        · rw [if_pos hc] at h
          simp only [Except.ok.injEq, Prod.mk.injEq] at h
          obtain ⟨h1, _, _⟩ := h
          subst h1
          exact ⟨rfl, rfl, rfl⟩
        · rw [if_neg hc] at h
          cases h
      | EndElement n => cases h
      | CharData s => cases h
      | Comment s => cases h
      | Directive s => cases h

theorem graphWFB_eq (ka : List String) (ks : List docKey) (g : Graph) :
    graphWFB ka ks g = (noReserved ["id", "edgedefault"] g.ext.toObject.Unrecognized
      && g.ext.Data.all (dataOKB ka ks KindGraph)
      && nodeListWFB ka ks g.Nodes && edgeListWFB ka ks g.Edges) := by
  cases g; rfl

theorem nodeWFB_eq (ka : List String) (ks : List docKey) (n : Node) :
    nodeWFB ka ks n = (noReserved ["id"] n.ext.toObject.Unrecognized
      && n.ext.Data.all (dataOKB ka ks KindNode) && graphListWFB ka ks n.Graphs) := by
  cases n; rfl

theorem graphIDs_eq (g : Graph) :
    graphIDs g = (if g.ID ≠ "" then [g.ID] else [])
      ++ nodeListIDs g.Nodes ++ edgeListIDs g.Edges := by
  cases g; rfl

theorem nodeIDs_eq (n : Node) :
    nodeIDs n = (if n.ID ≠ "" then [n.ID] else []) ++ graphListIDs n.Graphs := by
  cases n; rfl

/-- Soundness statement of the root loop at a given fuel: a successful run
preserves the whole-document invariant of the decoder state. -/
def SoundRoot (fuel : Nat) : Prop :=
  ∀ (st : docDecoder) (rootName : XName) (ts : List Token) (st2 : docDecoder)
    (rest : List Token),
    (decoders fuel).root st rootName ts = .ok (st2, rest) →
    stKeyInv st →
    (∀ d ∈ st.doc.Data, dataWFB d = true ∧ dataResB (kaOf st) (ksOf st) KindGraphML d = true) →
    graphListWFB (kaOf st) (ksOf st) st.doc.Graphs = true →
    st.ids.Nodup →
    st.ids.Perm (graphListIDs st.doc.Graphs) →
    stKeyInv st2 ∧
    (∀ d ∈ st2.doc.Data, dataWFB d = true ∧ dataResB (kaOf st2) (ksOf st2) KindGraphML d = true) ∧
    graphListWFB (kaOf st2) (ksOf st2) st2.doc.Graphs = true ∧
    st2.ids.Nodup ∧
    st2.ids.Perm (graphListIDs st2.doc.Graphs)

/-- Soundness statement of the graph child loop at a given fuel: tables
and document are untouched, the identifier set stays duplicate-free and
tracks the accumulated subtree, and the accumulated children are
well-formed against the current tables. -/
def SoundGN (fuel : Nat) : Prop :=
  ∀ (st : docDecoder) (g : Graph) (name : XName) (ts : List Token) (g2 : Graph)
    (st2 : docDecoder) (rest : List Token),
    (decoders fuel).graphNodes st g name ts = .ok (g2, st2, rest) →
    st.ids.Nodup →
    st2.keysAll = st.keysAll ∧ st2.keys = st.keys ∧ st2.doc = st.doc ∧ st2.ids.Nodup ∧
    g2.ext.toObject = g.ext.toObject ∧
    (∀ base, st.ids.Perm (base ++ (nodeListIDs g.Nodes ++ edgeListIDs g.Edges)) →
      st2.ids.Perm (base ++ (nodeListIDs g2.Nodes ++ edgeListIDs g2.Edges))) ∧
    ((∀ d ∈ g.ext.Data, dataOKB (kaOf st) (ksOf st) KindGraph d = true) →
      ∀ d ∈ g2.ext.Data, dataOKB (kaOf st) (ksOf st) KindGraph d = true) ∧
    (nodeListWFB (kaOf st) (ksOf st) g.Nodes = true →
      nodeListWFB (kaOf st) (ksOf st) g2.Nodes = true) ∧
    (edgeListWFB (kaOf st) (ksOf st) g.Edges = true →
      edgeListWFB (kaOf st) (ksOf st) g2.Edges = true)

/-- Soundness statement of the node child loop at a given fuel. -/
def SoundNL (fuel : Nat) : Prop :=
  ∀ (st : docDecoder) (nd : Node) (name : XName) (ts : List Token) (nd2 : Node)
    (st2 : docDecoder) (rest : List Token),
    (decoders fuel).nodeLoop st nd name ts = .ok (nd2, st2, rest) →
    st.ids.Nodup →
    st2.keysAll = st.keysAll ∧ st2.keys = st.keys ∧ st2.doc = st.doc ∧ st2.ids.Nodup ∧
    nd2.ext.toObject = nd.ext.toObject ∧
    (∀ base, st.ids.Perm (base ++ graphListIDs nd.Graphs) →
      st2.ids.Perm (base ++ graphListIDs nd2.Graphs)) ∧
    ((∀ d ∈ nd.ext.Data, dataOKB (kaOf st) (ksOf st) KindNode d = true) →
      ∀ d ∈ nd2.ext.Data, dataOKB (kaOf st) (ksOf st) KindNode d = true) ∧
    (graphListWFB (kaOf st) (ksOf st) nd.Graphs = true →
      graphListWFB (kaOf st) (ksOf st) nd2.Graphs = true)

/-- Soundness statement of the edge child loop at a given fuel: the state
is returned unchanged and only data children are accumulated. -/
def SoundEL (fuel : Nat) : Prop :=
  ∀ (st : docDecoder) (ed : Edge) (name : XName) (ts : List Token) (ed2 : Edge)
    (st2 : docDecoder) (rest : List Token),
    (decoders fuel).edgeLoop st ed name ts = .ok (ed2, st2, rest) →
    st2 = st ∧ ed2.ext.toObject = ed.ext.toObject ∧
    ((∀ d ∈ ed.ext.Data, dataOKB (kaOf st) (ksOf st) KindEdge d = true) →
      ∀ d ∈ ed2.ext.Data, dataOKB (kaOf st) (ksOf st) KindEdge d = true)

theorem soundEdgeF (f : Nat) (hEL : SoundEL f) (st : docDecoder) (attr : List XAttr)
    (n : XName) (ts : List Token) (e2 : Edge) (st2 : docDecoder) (rest : List Token)
    (h : decodeEdgeF (decoders f).edgeLoop st attr n ts = .ok (e2, st2, rest))
    (hN : st.ids.Nodup) :
    st2.keysAll = st.keysAll ∧ st2.keys = st.keys ∧ st2.doc = st.doc ∧ st2.ids.Nodup ∧
    edgeWFB (kaOf st) (ksOf st) e2 = true ∧
    st2.ids.Perm (st.ids ++ edgeIDs e2) := by
  simp only [decodeEdgeF] at h
  split at h
  · cases h
  · rename_i e0 st3 hS
    obtain ⟨hD0, hClean, hka3, hkf3, hdoc3, hids3, hNd3⟩ := startEdgeEl_sound st attr e0 st3 hS
    obtain ⟨hst, hObj, hDataI⟩ := hEL st3 e0 n ts e2 st2 rest h
    subst hst
    have hkaE : kaOf st2 = kaOf st := by simp [kaOf, hka3]
    have hksE : ksOf st2 = ksOf st := by simp [ksOf, hkf3]
    refine ⟨hka3, hkf3, hdoc3, hNd3 hN, ?_, ?_⟩
    · simp only [edgeWFB, Bool.and_eq_true]
      constructor
      · rw [hObj]
        exact hClean
      · rw [List.all_eq_true]
        intro d hd
        rw [← hkaE, ← hksE]
        refine hDataI ?_ d hd
        rw [hD0]
        intro d3 hd3
        exact absurd hd3 (List.not_mem_nil d3)
    · have heid : e2.ID = e0.ID := by simp [Edge.ID, hObj]
      rw [hids3]
      simp only [edgeIDs, heid]
      exact List.Perm.refl _

theorem soundGraphF (f : Nat) (hGN : SoundGN f) (st : docDecoder) (attr : List XAttr)
    (n : XName) (ts : List Token) (g2 : Graph) (st2 : docDecoder) (rest : List Token)
    (h : decodeGraphF (decoders f).graphNodes st attr n ts = .ok (g2, st2, rest))
    (hN : st.ids.Nodup) :
    st2.keysAll = st.keysAll ∧ st2.keys = st.keys ∧ st2.doc = st.doc ∧ st2.ids.Nodup ∧
    graphWFB (kaOf st) (ksOf st) g2 = true ∧
    st2.ids.Perm (st.ids ++ graphIDs g2) := by
  simp only [decodeGraphF] at h
  split at h
  · cases h
  · rename_i g0 st3 hS
    obtain ⟨hD0, hN0, hE0, hClean, hka3, hkf3, hdoc3, hids3, hNd3⟩ :=
      startGraphEl_sound st attr g0 st3 hS
    obtain ⟨hka, hkf, hdoc, hN2, hObj, hPermI, hDataI, hNodesI, hEdgesI⟩ :=
      hGN st3 g0 n ts g2 st2 rest h (hNd3 hN)
    have hkaE : kaOf st3 = kaOf st := by simp [kaOf, hka3]
    have hksE : ksOf st3 = ksOf st := by simp [ksOf, hkf3]
    refine ⟨hka.trans hka3, hkf.trans hkf3, hdoc.trans hdoc3, hN2, ?_, ?_⟩
    · rw [graphWFB_eq]
      have hDat : ∀ d ∈ g2.ext.Data, dataOKB (kaOf st) (ksOf st) KindGraph d = true := by
        rw [← hkaE, ← hksE]
        refine hDataI ?_
        rw [hD0]
        intro d3 hd3
        exact absurd hd3 (List.not_mem_nil d3)
      have hNod : nodeListWFB (kaOf st) (ksOf st) g2.Nodes = true := by
        rw [← hkaE, ← hksE]
        apply hNodesI
        rw [hN0]
        rfl
      have hEdg : edgeListWFB (kaOf st) (ksOf st) g2.Edges = true := by
        rw [← hkaE, ← hksE]
        apply hEdgesI
        rw [hE0]
        rfl
      rw [Bool.and_eq_true, Bool.and_eq_true, Bool.and_eq_true]
      refine ⟨⟨⟨?_, ?_⟩, hNod⟩, hEdg⟩
      · rw [hObj]
        exact hClean
      · rw [List.all_eq_true]
        exact hDat
    · have hgid : g2.ID = g0.ID := by simp [Graph.ID, hObj]
      have hpre : st3.ids.Perm ((st.ids ++ (if g0.ID ≠ "" then [g0.ID] else []))
          ++ (nodeListIDs g0.Nodes ++ edgeListIDs g0.Edges)) := by
        rw [hN0, hE0, hids3]
        simp only [nodeListIDs, edgeListIDs, List.append_nil]
        exact List.Perm.refl _
      have hcon := hPermI (st.ids ++ (if g0.ID ≠ "" then [g0.ID] else [])) hpre
      rw [graphIDs_eq, hgid]
      simpa [List.append_assoc] using hcon

theorem soundNodeF (f : Nat) (hNL : SoundNL f) (st : docDecoder) (attr : List XAttr)
    (n : XName) (ts : List Token) (nd2 : Node) (st2 : docDecoder) (rest : List Token)
    (h : decodeNodeF (decoders f).nodeLoop st attr n ts = .ok (nd2, st2, rest))
    (hN : st.ids.Nodup) :
    st2.keysAll = st.keysAll ∧ st2.keys = st.keys ∧ st2.doc = st.doc ∧ st2.ids.Nodup ∧
    nodeWFB (kaOf st) (ksOf st) nd2 = true ∧
    st2.ids.Perm (st.ids ++ nodeIDs nd2) := by
  simp only [decodeNodeF] at h
  split at h
  · cases h
  · rename_i n0 st3 hS
    obtain ⟨hD0, hG0, hClean, hka3, hkf3, hdoc3, hids3, hNd3⟩ :=
      startNodeEl_sound st attr n0 st3 hS
    obtain ⟨hka, hkf, hdoc, hN2, hObj, hPermI, hDataI, hGraphsI⟩ :=
      hNL st3 n0 n ts nd2 st2 rest h (hNd3 hN)
    have hkaE : kaOf st3 = kaOf st := by simp [kaOf, hka3]
    have hksE : ksOf st3 = ksOf st := by simp [ksOf, hkf3]
    refine ⟨hka.trans hka3, hkf.trans hkf3, hdoc.trans hdoc3, hN2, ?_, ?_⟩
    · rw [nodeWFB_eq]
      have hDat : ∀ d ∈ nd2.ext.Data, dataOKB (kaOf st) (ksOf st) KindNode d = true := by
        rw [← hkaE, ← hksE]
        refine hDataI ?_
        rw [hD0]
        intro d3 hd3
        exact absurd hd3 (List.not_mem_nil d3)
      have hGra : graphListWFB (kaOf st) (ksOf st) nd2.Graphs = true := by
        rw [← hkaE, ← hksE]
        apply hGraphsI
        rw [hG0]
        rfl
      rw [Bool.and_eq_true, Bool.and_eq_true]
      refine ⟨⟨?_, ?_⟩, hGra⟩
      · rw [hObj]
        exact hClean
      · rw [List.all_eq_true]
        exact hDat
    · have hnid : nd2.ID = n0.ID := by simp [Node.ID, hObj]
      have hpre : st3.ids.Perm ((st.ids ++ (if n0.ID ≠ "" then [n0.ID] else []))
          ++ graphListIDs n0.Graphs) := by
        rw [hG0, hids3]
        simp only [graphListIDs, List.append_nil]
        exact List.Perm.refl _
      have hcon := hPermI (st.ids ++ (if n0.ID ≠ "" then [n0.ID] else [])) hpre
      rw [nodeIDs_eq, hnid]
      simpa [List.append_assoc] using hcon

theorem soundEL_step (f : Nat) (ih : SoundEL f) : SoundEL (f + 1) := by
  intro st ed name ts ed2 st2 rest h
  cases ts with
  | nil => rw [decoders_succ] at h; simp [decodersStep] at h
  | cons t ts =>
    rw [decoders_succ] at h
    by_cases hs : canSkip t = true
    · simp only [decodersStep] at h
      rw [if_pos hs] at h
      exact ih st ed name ts ed2 st2 rest h
    · cases t with
      | StartElement n attr =>
        simp only [decodersStep] at h
        rw [if_neg hs] at h
        by_cases hns : n.Space ≠ Namespace
        · rw [if_pos hns] at h; cases h
        · rw [if_neg hns] at h
          by_cases hd : n.Local = "data"
          · rw [if_pos hd] at h
            have hn : n = ⟨Namespace, "data"⟩ := by
              rw [show n = (⟨n.Space, n.Local⟩ : XName) from rfl, not_not.mp hns, hd]
            subst hn
            split at h
            · cases h
            · rename_i d0 rest3 hD
              obtain ⟨hWFd, hResd⟩ := decodeData_sound st KindEdge attr ts d0 rest3 hD
              obtain ⟨h1, h2, h3⟩ := ih st (ed.pushData d0) name rest3 ed2 st2 rest h
              refine ⟨h1, ?_, ?_⟩
              · rw [h2, Edge_pushData_ext_toObject]
              · intro hall d hd2
                refine h3 ?_ d hd2
                intro d3 hd3
                rw [Edge_pushData_ext_Data] at hd3
                rcases List.mem_append.mp hd3 with hd3 | hd3
                · exact hall d3 hd3
                · rw [List.mem_singleton] at hd3
                  subst hd3
                  simp [dataOKB, hWFd, hResd]
          · rw [if_neg hd] at h; cases h
      | EndElement n =>
        simp only [decodersStep] at h
        rw [if_neg hs] at h
        by_cases hn : n = name
        · rw [if_pos hn] at h
          simp only [Except.ok.injEq, Prod.mk.injEq] at h
          obtain ⟨h1, h2, _⟩ := h
          subst h1; subst h2
          exact ⟨rfl, rfl, fun hall => hall⟩
        · rw [if_neg hn] at h; cases h
      | CharData s => simp only [decodersStep] at h; rw [if_neg hs] at h; cases h
      | Comment s => simp only [decodersStep] at h; rw [if_neg hs] at h; cases h
      | ProcInst a b => simp only [decodersStep] at h; rw [if_neg hs] at h; cases h
      | Directive s => simp only [decodersStep] at h; rw [if_neg hs] at h; cases h

theorem soundGN_step (f : Nat) (ihGN : SoundGN f) (ihNL : SoundNL f) (ihEL : SoundEL f) :
    SoundGN (f + 1) := by
  intro st g name ts g2 st2 rest h hN
  cases ts with
  | nil => rw [decoders_succ] at h; simp [decodersStep] at h
  | cons t ts =>
    rw [decoders_succ] at h
    by_cases hs : canSkip t = true
    · simp only [decodersStep] at h
      rw [if_pos hs] at h
      exact ihGN st g name ts g2 st2 rest h hN
    · cases t with
      | StartElement n attr =>
        simp only [decodersStep] at h
        rw [if_neg hs] at h
        by_cases hns : n.Space ≠ Namespace
        · rw [if_pos hns] at h; cases h
        · rw [if_neg hns] at h
          by_cases hd : n.Local = "data"
          · rw [if_pos hd] at h
            have hn : n = ⟨Namespace, "data"⟩ := by
              rw [show n = (⟨n.Space, n.Local⟩ : XName) from rfl, not_not.mp hns, hd]
            subst hn
            split at h
            · cases h
            · rename_i d0 rest3 hDd
              obtain ⟨hWFd, hResd⟩ := decodeData_sound st KindGraph attr ts d0 rest3 hDd
              obtain ⟨h1, h2, h3, h4, h5, h6, h7, h8, h9⟩ :=
                ihGN st (g.pushData d0) name rest3 g2 st2 rest h hN
              refine ⟨h1, h2, h3, h4, ?_, ?_, ?_, ?_, ?_⟩
              · rw [h5, Graph_pushData_ext_toObject]
              · intro base hb
                refine h6 base ?_
                rw [Graph.pushData_Nodes, Graph.pushData_Edges]
                exact hb
              · intro hall d hd2
                refine h7 ?_ d hd2
                intro d3 hd3
                rw [Graph_pushData_ext_Data] at hd3
                rcases List.mem_append.mp hd3 with hd3 | hd3
                · exact hall d3 hd3
                · rw [List.mem_singleton] at hd3
                  subst hd3
                  simp [dataOKB, hWFd, hResd]
              · intro hall
                refine h8 ?_
                rw [Graph.pushData_Nodes]
                exact hall
              · intro hall
                refine h9 ?_
                rw [Graph.pushData_Edges]
                exact hall
          · rw [if_neg hd] at h
            by_cases hnd : n.Local = "node"
            · rw [if_pos hnd] at h
              split at h
              · cases h
              · rename_i nd0 st3 rest3 hS
                obtain ⟨hka3, hkf3, hdoc3, hN3, hWFn, hPerm3⟩ :=
                  soundNodeF f ihNL st attr n ts nd0 st3 rest3 hS hN
                obtain ⟨h1, h2, h3, h4, h5, h6, h7, h8, h9⟩ :=
                  ihGN st3 (g.pushNode nd0) name rest3 g2 st2 rest h hN3
                have hkaE : kaOf st3 = kaOf st := by simp [kaOf, hka3]
                have hksE : ksOf st3 = ksOf st := by simp [ksOf, hkf3]
                refine ⟨h1.trans hka3, h2.trans hkf3, h3.trans hdoc3, h4, ?_, ?_, ?_, ?_, ?_⟩
                · rw [h5, Graph.pushNode_ext]
                · intro base hb
                  refine h6 base ?_
                  rw [Graph.pushNode_Nodes, Graph.pushNode_Edges, nodeListIDs_append]
                  have hb3 := (hPerm3.trans (hb.append_right (nodeIDs nd0))).trans
                    (perm_rotate base (nodeListIDs g.Nodes) (edgeListIDs g.Edges) (nodeIDs nd0))
                  simpa [nodeListIDs, List.append_assoc] using hb3
                · intro hall d hd2
                  rw [hkaE, hksE, Graph.pushNode_ext] at h7
                  exact h7 hall d hd2
                · intro hall
                  rw [hkaE, hksE, Graph.pushNode_Nodes] at h8
                  refine h8 ?_
                  rw [nodeListWFB_append]
                  simp [nodeListWFB, hall, hWFn]
                · intro hall
                  rw [hkaE, hksE, Graph.pushNode_Edges] at h9
                  exact h9 hall
            · rw [if_neg hnd] at h
              by_cases hed : n.Local = "edge"
              · rw [if_pos hed] at h
                split at h
                · cases h
                · rename_i e0 st3 rest3 hS
                  obtain ⟨hka3, hkf3, hdoc3, hN3, hWFe, hPerm3⟩ :=
                    soundEdgeF f ihEL st attr n ts e0 st3 rest3 hS hN
                  obtain ⟨h1, h2, h3, h4, h5, h6, h7, h8, h9⟩ :=
                    ihGN st3 (g.pushEdge e0) name rest3 g2 st2 rest h hN3
                  have hkaE : kaOf st3 = kaOf st := by simp [kaOf, hka3]
                  have hksE : ksOf st3 = ksOf st := by simp [ksOf, hkf3]
                  refine ⟨h1.trans hka3, h2.trans hkf3, h3.trans hdoc3, h4, ?_, ?_, ?_, ?_, ?_⟩
                  · rw [h5, Graph.pushEdge_ext]
                  · intro base hb
                    refine h6 base ?_
                    rw [Graph.pushEdge_Nodes, Graph.pushEdge_Edges, edgeListIDs_append]
                    have hb3 := hPerm3.trans (hb.append_right (edgeIDs e0))
                    simpa [edgeListIDs, List.append_assoc] using hb3
                  · intro hall d hd2
                    rw [hkaE, hksE, Graph.pushEdge_ext] at h7
                    exact h7 hall d hd2
                  · intro hall
                    rw [hkaE, hksE, Graph.pushEdge_Nodes] at h8
                    exact h8 hall
                  · intro hall
                    rw [hkaE, hksE, Graph.pushEdge_Edges] at h9
                    refine h9 ?_
                    rw [edgeListWFB_append]
                    simp [edgeListWFB, hall, hWFe]
              · rw [if_neg hed] at h; cases h
      | EndElement n =>
        simp only [decodersStep] at h
        rw [if_neg hs] at h
        by_cases hn : n = name
        · rw [if_pos hn] at h
          simp only [Except.ok.injEq, Prod.mk.injEq] at h
          obtain ⟨h1, h2, _⟩ := h
          subst h1; subst h2
          exact ⟨rfl, rfl, rfl, hN, rfl, fun base hb => hb, fun hall => hall,
            fun hall => hall, fun hall => hall⟩
        · rw [if_neg hn] at h; cases h
      | CharData s => simp only [decodersStep] at h; rw [if_neg hs] at h; cases h
      | Comment s => simp only [decodersStep] at h; rw [if_neg hs] at h; cases h
      | ProcInst a b => simp only [decodersStep] at h; rw [if_neg hs] at h; cases h
      | Directive s => simp only [decodersStep] at h; rw [if_neg hs] at h; cases h

theorem soundNL_step (f : Nat) (ihNL : SoundNL f) (ihGN : SoundGN f) :
    SoundNL (f + 1) := by
  intro st nd name ts nd2 st2 rest h hN
  cases ts with
  | nil => rw [decoders_succ] at h; simp [decodersStep] at h
  | cons t ts =>
    rw [decoders_succ] at h
    by_cases hs : canSkip t = true
    · simp only [decodersStep] at h
      rw [if_pos hs] at h
      exact ihNL st nd name ts nd2 st2 rest h hN
    · cases t with
      | StartElement n attr =>
        simp only [decodersStep] at h
        rw [if_neg hs] at h
        by_cases hns : n.Space ≠ Namespace
        · rw [if_pos hns] at h; cases h
        · rw [if_neg hns] at h
          by_cases hd : n.Local = "data"
          · rw [if_pos hd] at h
            have hn : n = ⟨Namespace, "data"⟩ := by
              rw [show n = (⟨n.Space, n.Local⟩ : XName) from rfl, not_not.mp hns, hd]
            subst hn
            split at h
            · cases h
            · rename_i d0 rest3 hDd
              obtain ⟨hWFd, hResd⟩ := decodeData_sound st KindNode attr ts d0 rest3 hDd
              obtain ⟨h1, h2, h3, h4, h5, h6, h7, h8⟩ :=
                ihNL st (nd.pushData d0) name rest3 nd2 st2 rest h hN
              refine ⟨h1, h2, h3, h4, ?_, ?_, ?_, ?_⟩
              · rw [h5, Node_pushData_ext_toObject]
              · intro base hb
                refine h6 base ?_
                rw [Node.pushData_Graphs]
                exact hb
              · intro hall d hd2
                refine h7 ?_ d hd2
                intro d3 hd3
                rw [Node_pushData_ext_Data] at hd3
                rcases List.mem_append.mp hd3 with hd3 | hd3
                · exact hall d3 hd3
                · rw [List.mem_singleton] at hd3
                  subst hd3
                  simp [dataOKB, hWFd, hResd]
              · intro hall
                refine h8 ?_
                rw [Node.pushData_Graphs]
                exact hall
          · rw [if_neg hd] at h
            by_cases hg : n.Local = "graph"
            · rw [if_pos hg] at h
              split at h
              · cases h
              · rename_i g0 st3 rest3 hS
                obtain ⟨hka3, hkf3, hdoc3, hN3, hWFg, hPerm3⟩ :=
                  soundGraphF f ihGN st attr n ts g0 st3 rest3 hS hN
                obtain ⟨h1, h2, h3, h4, h5, h6, h7, h8⟩ :=
                  ihNL st3 (nd.pushGraph g0) name rest3 nd2 st2 rest h hN3
                have hkaE : kaOf st3 = kaOf st := by simp [kaOf, hka3]
                have hksE : ksOf st3 = ksOf st := by simp [ksOf, hkf3]
                refine ⟨h1.trans hka3, h2.trans hkf3, h3.trans hdoc3, h4, ?_, ?_, ?_, ?_⟩
                · rw [h5, Node.pushGraph_ext]
                · intro base hb
                  refine h6 base ?_
                  rw [Node.pushGraph_Graphs, graphListIDs_append]
                  have hb3 := hPerm3.trans (hb.append_right (graphIDs g0))
                  simpa [graphListIDs, List.append_assoc] using hb3
                · intro hall d hd2
                  rw [hkaE, hksE, Node.pushGraph_ext] at h7
                  exact h7 hall d hd2
                · intro hall
                  rw [hkaE, hksE, Node.pushGraph_Graphs] at h8
                  refine h8 ?_
                  rw [graphListWFB_append]
                  simp [graphListWFB, hall, hWFg]
            · rw [if_neg hg] at h; cases h
      | EndElement n =>
        simp only [decodersStep] at h
        rw [if_neg hs] at h
        by_cases hn : n = name
        · rw [if_pos hn] at h
          simp only [Except.ok.injEq, Prod.mk.injEq] at h
          obtain ⟨h1, h2, _⟩ := h
          subst h1; subst h2
          exact ⟨rfl, rfl, rfl, hN, rfl, fun base hb => hb, fun hall => hall, fun hall => hall⟩
        · rw [if_neg hn] at h; cases h
      | CharData s => simp only [decodersStep] at h; rw [if_neg hs] at h; cases h
      | Comment s => simp only [decodersStep] at h; rw [if_neg hs] at h; cases h
      | ProcInst a b => simp only [decodersStep] at h; rw [if_neg hs] at h; cases h
      | Directive s => simp only [decodersStep] at h; rw [if_neg hs] at h; cases h

theorem soundRoot_step (f : Nat) (ihRoot : SoundRoot f) (ihGN : SoundGN f) :
    SoundRoot (f + 1) := by
  intro st rootName ts st2 rest h hInv hD hGr hN hPerm
  cases ts with
  | nil => rw [decoders_succ] at h; simp [decodersStep] at h
  | cons t ts =>
    rw [decoders_succ] at h
    by_cases hs : canSkip t = true
    · simp only [decodersStep] at h
      rw [if_pos hs] at h
      exact ihRoot st rootName ts st2 rest h hInv hD hGr hN hPerm
    · cases t with
      | StartElement n attr =>
        simp only [decodersStep] at h
        rw [if_neg hs] at h
        by_cases hns : n.Space ≠ Namespace
        · rw [if_pos hns] at h; cases h
        · rw [if_neg hns] at h
          by_cases hk : n.Local = "key"
          · rw [if_pos hk] at h
            split at h
            · cases h
            · rename_i st3 rest3 hK
              obtain ⟨hInv3, hids3, hG3, hD3, ks2, hka2, hkf2⟩ :=
                decodeKey_sound st attr n ts st3 rest3 hK hInv
              have hkaE : kaOf st3 = kaOf st ++ (keysPairsAll ks2).map Prod.fst := by
                simp [kaOf, hka2]
              have hksE : ksOf st3 = ksOf st ++ (keysPairsFor ks2).map Prod.fst := by
                simp [ksOf, hkf2]
              refine ihRoot st3 rootName rest3 st2 rest h hInv3 ?_ ?_ ?_ ?_
              · rw [hD3, hkaE, hksE]
                intro d hd
                exact ⟨(hD d hd).1, dataResB_mono _ _ _ _ _ _ (hD d hd).2⟩
              · rw [hG3, hkaE, hksE]
                exact graphListWFB_mono _ _ _ _ _ hGr
              · rw [hids3]
                exact hN
              · rw [hids3, hG3]
                exact hPerm
          · rw [if_neg hk] at h
            by_cases hg : n.Local = "graph"
            · rw [if_pos hg] at h
              split at h
              · cases h
              · rename_i g0 st3 rest3 hS
                obtain ⟨hka3, hkf3, hdoc3, hN3, hWFg, hPerm3⟩ :=
                  soundGraphF f ihGN st attr n ts g0 st3 rest3 hS hN
                have hkaE : kaOf st3 = kaOf st := by simp [kaOf, hka3]
                have hksE : ksOf st3 = ksOf st := by simp [ksOf, hkf3]
                have hdocK : st3.doc.Keys = st.doc.Keys := by rw [hdoc3]
                have hdocG : st3.doc.Graphs = st.doc.Graphs := by rw [hdoc3]
                have hdocD : st3.doc.Data = st.doc.Data := by rw [hdoc3]
                refine ihRoot
                  { st3 with doc := { st3.doc with Graphs := st3.doc.Graphs ++ [g0] } }
                  rootName rest3 st2 rest h ?_ ?_ ?_ ?_ ?_
                · obtain ⟨i1, i2, i3, i4⟩ := hInv
                  refine ⟨?_, ?_, ?_, ?_⟩
                  · show st3.keysAll = keysPairsAll st3.doc.Keys
                    rw [hka3, hdocK, i1]
                  · show st3.keys = keysPairsFor st3.doc.Keys
                    rw [hkf3, hdocK, i2]
                  · show ∀ k ∈ st3.doc.Keys, keyWFB k = true
                    rw [hdocK]
                    exact i3
                  · show st3.doc.Keys.Pairwise (fun a b => ¬(a.ID = b.ID ∧ a.For = b.For))
                    rw [hdocK]
                    exact i4
                · show ∀ d ∈ st3.doc.Data, dataWFB d = true ∧
                    dataResB (kaOf st3) (ksOf st3) KindGraphML d = true
                  rw [hdocD, hkaE, hksE]
                  exact hD
                · show graphListWFB (kaOf st3) (ksOf st3) (st3.doc.Graphs ++ [g0]) = true
                  rw [graphListWFB_append, hdocG, hkaE, hksE]
                  simp [graphListWFB, hGr, hWFg]
                · exact hN3
                · show st3.ids.Perm (graphListIDs (st3.doc.Graphs ++ [g0]))
                  rw [graphListIDs_append, hdocG]
                  refine hPerm3.trans ?_
                  have hx := hPerm.append_right (graphIDs g0)
                  simpa [graphListIDs] using hx
            · rw [if_neg hg] at h
              by_cases hd2 : n.Local = "data"
              · rw [if_pos hd2] at h
                have hn : n = ⟨Namespace, "data"⟩ := by
                  rw [show n = (⟨n.Space, n.Local⟩ : XName) from rfl, not_not.mp hns, hd2]
                subst hn
                split at h
                · cases h
                · rename_i d0 rest3 hDd
                  obtain ⟨hWFd, hResd⟩ := decodeData_sound st KindGraphML attr ts d0 rest3 hDd
                  refine ihRoot
                    { st with doc := { st.doc with Data := st.doc.Data ++ [d0] } }
                    rootName rest3 st2 rest h ?_ ?_ ?_ ?_ ?_
                  · obtain ⟨i1, i2, i3, i4⟩ := hInv
                    exact ⟨i1, i2, i3, i4⟩
                  · intro d hd
                    rcases List.mem_append.mp hd with hd | hd
                    · exact hD d hd
                    · rw [List.mem_singleton] at hd
                      subst hd
                      exact ⟨hWFd, hResd⟩
                  · exact hGr
                  · exact hN
                  · exact hPerm
              · rw [if_neg hd2] at h; cases h
      | EndElement n =>
        simp only [decodersStep] at h
        rw [if_neg hs] at h
        by_cases hn : n = rootName
        · rw [if_pos hn] at h
          simp only [Except.ok.injEq, Prod.mk.injEq] at h
          obtain ⟨h1, _⟩ := h
          subst h1
          exact ⟨hInv, hD, hGr, hN, hPerm⟩
        · rw [if_neg hn] at h; cases h
      | CharData s => simp only [decodersStep] at h; rw [if_neg hs] at h; cases h
      | Comment s => simp only [decodersStep] at h; rw [if_neg hs] at h; cases h
      | ProcInst a b => simp only [decodersStep] at h; rw [if_neg hs] at h; cases h
      | Directive s => simp only [decodersStep] at h; rw [if_neg hs] at h; cases h

theorem decoders_sound :
    ∀ fuel, SoundRoot fuel ∧ SoundGN fuel ∧ SoundNL fuel ∧ SoundEL fuel := by
  intro fuel
  induction fuel with
  | zero =>
    refine ⟨?_, ?_, ?_, ?_⟩
    · intro st rootName ts st2 rest h
      simp [decoders, decodersZero] at h
    · intro st g name ts g2 st2 rest h
      simp [decoders, decodersZero] at h
    · intro st nd name ts nd2 st2 rest h
      simp [decoders, decodersZero] at h
    · intro st ed name ts ed2 st2 rest h
      simp [decoders, decodersZero] at h
  | succ f ih =>
    exact ⟨soundRoot_step f ih.1 ih.2.1, soundGN_step f ih.2.1 ih.2.2.1 ih.2.2.2,
      soundNL_step f ih.2.2.1 ih.2.1, soundEL_step f ih.2.2.2⟩

theorem DecodeFromTokens_wf (ts : List Token) (doc : Document)
    (h : DecodeFromTokens ts = .ok doc) : docWFB doc = true := by
  simp only [DecodeFromTokens] at h
  split at h
  · cases h
  · rename_i st2 rest2 hRun
    simp only [Except.ok.injEq] at h
    subst h
    simp only [decodeRun] at hRun
    split at hRun
    · cases hRun
    · rename_i doc1 rootName rest1 hStart
      obtain ⟨hK1, hG1, hD1⟩ := startGraphML_fields ts Document.empty doc1 rootName rest1 hStart
      have hInv0 : stKeyInv { docDecoder.init with doc := doc1 } := by
        refine ⟨?_, ?_, ?_, ?_⟩
        · show docDecoder.init.keysAll = keysPairsAll doc1.Keys
          rw [hK1]
          rfl
        · show docDecoder.init.keys = keysPairsFor doc1.Keys
          rw [hK1]
          rfl
        · show ∀ k ∈ doc1.Keys, keyWFB k = true
          rw [hK1]
          intro k hk
          exact absurd hk (List.not_mem_nil k)
        · show doc1.Keys.Pairwise (fun a b => ¬(a.ID = b.ID ∧ a.For = b.For))
          rw [hK1]
          exact List.Pairwise.nil
      have hD0 : ∀ d ∈ doc1.Data, dataWFB d = true ∧
          dataResB (kaOf { docDecoder.init with doc := doc1 })
            (ksOf { docDecoder.init with doc := doc1 }) KindGraphML d = true := by
        rw [hD1]
        intro d hd
        exact absurd hd (List.not_mem_nil d)
      have hG0 : graphListWFB (kaOf { docDecoder.init with doc := doc1 })
          (ksOf { docDecoder.init with doc := doc1 }) doc1.Graphs = true := by
        rw [hG1]
        rfl
      have hN0 : ({ docDecoder.init with doc := doc1 } : docDecoder).ids.Nodup :=
        List.nodup_nil
      have hP0 : ({ docDecoder.init with doc := doc1 } : docDecoder).ids.Perm
          (graphListIDs doc1.Graphs) := by
        rw [hG1]
        exact List.Perm.refl _
      obtain ⟨hInvF, hDF, hGF, hNF, hPF⟩ :=
        (decoders_sound (rest1.length + 1)).1
          { docDecoder.init with doc := doc1 } rootName rest1 st2 rest2 hRun
          hInv0 hD0 hG0 hN0 hP0
      obtain ⟨i1, i2, i3, i4⟩ := hInvF
      have hkaF : (keysPairsAll st2.doc.Keys).map Prod.fst = kaOf st2 := by
        simp [kaOf, i1]
      have hksF : (keysPairsFor st2.doc.Keys).map Prod.fst = ksOf st2 := by
        simp [ksOf, i2]
      simp only [docWFB, Bool.and_eq_true]
      refine ⟨⟨⟨⟨?_, ?_⟩, ?_⟩, ?_⟩, ?_⟩
      · rw [List.all_eq_true]
        exact i3
      · simp only [keysDistinctB, decide_eq_true_eq]
        exact i4
      · rw [hkaF, hksF, List.all_eq_true]
        intro d hd
        have hdd := hDF d hd
        simp [dataOKB, hdd.1, hdd.2]
      · rw [hkaF, hksF]
        exact hGF
      · simp only [docIDs, decide_eq_true_eq]
        exact (hPF.nodup_iff).mp hNF

theorem replay_rootGraphs :
    ∀ (gs : List Graph) (F : Nat) (st : docDecoder) (rootName : XName) (rest : List Token),
      graphListBurn gs ≤ F →
      graphListWFB (st.keysAll.map Prod.fst) (st.keys.map Prod.fst) gs = true →
      (st.ids ++ graphListIDs gs).Nodup →
      (decoders F).root st rootName (encodeGraphList nsName gs ++ rest)
        = (decoders (F - gs.length)).root
            { st with ids := st.ids ++ graphListIDs gs,
                      doc := { st.doc with Graphs := st.doc.Graphs ++ gs } }
            rootName rest := by
  intro gs
  induction gs with
  | nil =>
    intro F st rootName rest _ _ _
    simp [encodeGraphList, graphListIDs]
  | cons g gs ih =>
    intro F st rootName rest hF hWF hN
    simp only [graphListWFB, Bool.and_eq_true] at hWF
    obtain ⟨hWFg, hWFgs⟩ := hWF
    cases F with
    | zero =>
      exfalso
      have h1 := graphListBurn_ge (g :: gs)
      simp only [List.length_cons] at h1
      omega
    | succ F =>
      have hstream : encodeGraphList nsName (g :: gs) ++ rest
          = .StartElement ⟨Namespace, "graph"⟩ (Graph.attrs g)
            :: (encodeDataList nsName g.ext.Data ++ (encodeNodeList nsName g.Nodes
                ++ (encodeEdgeList nsName g.Edges
                  ++ .EndElement ⟨Namespace, "graph"⟩ :: (encodeGraphList nsName gs ++ rest)))) := by
        cases g
        simp [encodeGraphList, encodeGraph1, nsName, Graph.ext, Graph.Nodes, Graph.Edges,
          List.append_assoc]
      rw [hstream, root_step_graph _ _ _ _ _ _ rfl rfl]
      have hNg : (st.ids ++ graphIDs g).Nodup := by
        apply nodup_append_left_of _ _ (graphListIDs gs)
        simpa [graphListIDs, List.append_assoc] using hN
      have hFg : graphBurn g ≤ F := by
        simp [graphListBurn] at hF
        omega
      simp only [replay_graphChild g F st _ hFg hWFg hNg]
      rw [ih F { st with ids := st.ids ++ graphIDs g,
                         doc := { st.doc with Graphs := st.doc.Graphs ++ [g] } }
        rootName rest (by simp [graphListBurn] at hF; omega)
        (by simpa using hWFgs)
        (by simpa [graphListIDs, List.append_assoc] using hN)]
      have harith : F + 1 - (gs.length + 1) = F - gs.length := by omega
      simp only [List.length_cons, harith]
      congr 1
      simp [graphListIDs, List.append_assoc]

theorem encodeDataList_len (mk : String → XName) (ds : List Data) :
    ds.length ≤ (encodeDataList mk ds).length := by
  induction ds with
  | nil => simp [encodeDataList]
  | cons d ds ih =>
    simp only [encodeDataList, encodeData1, List.length_append, List.length_cons]
    simp only [List.length_append, List.length_cons] at ih ⊢
    omega

theorem encodeKeyList_len (mk : String → XName) (ks : List Key) :
    ks.length ≤ (encodeKeyList mk ks).length := by
  induction ks with
  | nil => simp [encodeKeyList]
  | cons k ks ih =>
    simp only [encodeKeyList, encodeKey1, List.length_append, List.length_cons]
    omega

theorem encodeEdgeList_len (mk : String → XName) (es : List Edge) :
    edgeListBurn es ≤ (encodeEdgeList mk es).length := by
  induction es with
  | nil => simp [edgeListBurn, encodeEdgeList]
  | cons e es ih =>
    have h1 := encodeDataList_len mk e.ext.Data
    simp only [edgeListBurn, edgeBurn, encodeEdgeList, encodeEdge1, List.length_append,
      List.length_cons]
    omega

mutual

theorem encodeGraph1_len (mk : String → XName) (g : Graph) :
    graphBurn g + 1 ≤ (encodeGraph1 mk g).length := by
  match g with
  | .mk e d ns es =>
    have h1 := encodeDataList_len mk e.Data
    have h2 := encodeNodeList_len mk ns
    have h3 := encodeEdgeList_len mk es
    simp only [graphBurn, encodeGraph1, List.length_append, List.length_cons]
    omega

theorem encodeNodeList_len (mk : String → XName) (ns : List Node) :
    nodeListBurn ns ≤ (encodeNodeList mk ns).length := by
  match ns with
  | [] => simp [nodeListBurn, encodeNodeList]
  | n :: ns =>
    have h1 := encodeNode1_len mk n
    have h2 := encodeNodeList_len mk ns
    simp only [nodeListBurn, encodeNodeList, List.length_append]
    omega

theorem encodeNode1_len (mk : String → XName) (n : Node) :
    nodeBurn n + 1 ≤ (encodeNode1 mk n).length := by
  match n with
  | .mk e gs =>
    have h1 := encodeDataList_len mk e.Data
    have h2 := encodeGraphList_len mk gs
    simp only [nodeBurn, encodeNode1, List.length_append, List.length_cons]
    omega

theorem encodeGraphList_len (mk : String → XName) (gs : List Graph) :
    graphListBurn gs ≤ (encodeGraphList mk gs).length := by
  match gs with
  | [] => simp [graphListBurn, encodeGraphList]
  | g :: gs =>
    have h1 := encodeGraph1_len mk g
    have h2 := encodeGraphList_len mk gs
    simp only [graphListBurn, encodeGraphList, List.length_append]
    omega

end

theorem fillToken_id_of_ns :
    ∀ (ts : List Token), ts.all tokenNSB = true → ts.map (fillToken Namespace) = ts := by
  intro ts
  induction ts with
  | nil => intro _; rfl
  | cons t ts ih =>
    intro h
    simp only [List.all_cons, Bool.and_eq_true] at h
    rw [List.map_cons, ih h.2]
    have ht : fillToken Namespace t = t := by
      cases t with
      | StartElement n a =>
        have h1 := h.1
        simp only [tokenNSB, decide_eq_true_eq] at h1
        simp [fillToken, fillName, h1]
      | EndElement n =>
        have h1 := h.1
        simp only [tokenNSB, decide_eq_true_eq] at h1
        simp [fillToken, fillName, h1]
      | CharData s => rfl
      | Comment s => rfl
      | ProcInst a b => rfl
      | Directive s => rfl
    rw [ht]

theorem retok_data (ds : List Data) (h : ds.all dataNSB = true) :
    (encodeDataList mlName ds).map (fillToken Namespace) = encodeDataList nsName ds := by
  induction ds with
  | nil => rfl
  | cons d ds ih =>
    simp only [List.all_cons, Bool.and_eq_true] at h
    have hd : d.Tokens.map (fillToken Namespace) = d.Tokens :=
      fillToken_id_of_ns d.Tokens h.1
    simp [encodeDataList, encodeData1, hd, ih h.2, fillToken, fillName, mlName, nsName]

theorem retok_keys (ks : List Key) :
    (encodeKeyList mlName ks).map (fillToken Namespace) = encodeKeyList nsName ks := by
  induction ks with
  | nil => rfl
  | cons k ks ih =>
    simp [encodeKeyList, encodeKey1, ih, fillToken, fillName, mlName, nsName]

theorem retok_edges (es : List Edge) (h : edgeListNSB es = true) :
    (encodeEdgeList mlName es).map (fillToken Namespace) = encodeEdgeList nsName es := by
  induction es with
  | nil => rfl
  | cons e es ih =>
    simp only [edgeListNSB, Bool.and_eq_true] at h
    simp [encodeEdgeList, encodeEdge1, retok_data e.ext.Data h.1, ih h.2,
      fillToken, fillName, mlName, nsName]

mutual

theorem retok_graph1 (g : Graph) (h : graphNSB g = true) :
    (encodeGraph1 mlName g).map (fillToken Namespace) = encodeGraph1 nsName g := by
  match g with
  | .mk e d ns es =>
    simp only [graphNSB, Bool.and_eq_true] at h
    obtain ⟨⟨h1, h2⟩, h3⟩ := h
    simp [encodeGraph1, retok_data e.Data h1, retok_nodeList ns h2, retok_edges es h3,
      fillToken, fillName, mlName, nsName]

theorem retok_nodeList (ns : List Node) (h : nodeListNSB ns = true) :
    (encodeNodeList mlName ns).map (fillToken Namespace) = encodeNodeList nsName ns := by
  match ns with
  | [] => rfl
  | n :: ns =>
    simp only [nodeListNSB, Bool.and_eq_true] at h
    simp [encodeNodeList, retok_node1 n h.1, retok_nodeList ns h.2]

theorem retok_node1 (n : Node) (h : nodeNSB n = true) :
    (encodeNode1 mlName n).map (fillToken Namespace) = encodeNode1 nsName n := by
  match n with
  | .mk e gs =>
    simp only [nodeNSB, Bool.and_eq_true] at h
    simp [encodeNode1, retok_data e.Data h.1, retok_graphList gs h.2,
      fillToken, fillName, mlName, nsName]

theorem retok_graphList (gs : List Graph) (h : graphListNSB gs = true) :
    (encodeGraphList mlName gs).map (fillToken Namespace) = encodeGraphList nsName gs := by
  match gs with
  | [] => rfl
  | g :: gs =>
    simp only [graphListNSB, Bool.and_eq_true] at h
    simp [encodeGraphList, retok_graph1 g h.1, retok_graphList gs h.2]

end

theorem retokenize_encode (doc : Document) (h : docNSB doc = true) :
    retokenize (EncodeTokens doc) = EncodeTokensW nsName doc := by
  simp only [docNSB, Bool.and_eq_true] at h
  obtain ⟨⟨hx, hd⟩, hg⟩ := h
  rw [decide_eq_true_eq] at hx
  have hdef : defaultNSOf (EncodeTokens doc) = Namespace := by
    simp [EncodeTokens, EncodeTokensW, defaultNSOf, hx]
  rw [retokenize, hdef]
  simp only [EncodeTokens, EncodeTokensW, List.map_cons, List.map_append]
  rw [retok_keys doc.Keys, retok_graphList doc.Graphs hg, retok_data doc.Data hd]
  simp [fillToken, fillName, mlName, nsName]

theorem replay_root_assemble (doc : Document) (ins : XProcInst) (attrs : List XAttr)
    (rootName : XName) (F : Nat) (rest : List Token)
    (hKeys : ∀ k ∈ doc.Keys, keyWFB k = true)
    (hDist : doc.Keys.Pairwise (fun a b => ¬(a.ID = b.ID ∧ a.For = b.For)))
    (hGraphs : graphListWFB ((keysPairsAll doc.Keys).map Prod.fst)
      ((keysPairsFor doc.Keys).map Prod.fst) doc.Graphs = true)
    (hData : doc.Data.all (dataOKB ((keysPairsAll doc.Keys).map Prod.fst)
      ((keysPairsFor doc.Keys).map Prod.fst) KindGraphML) = true)
    (hIDs : (docIDs doc).Nodup)
    (hF : doc.Keys.length + graphListBurn doc.Graphs + doc.Data.length + 1 ≤ F) :
    (decoders F).root ⟨[], [], [], ⟨ins, attrs, [], [], []⟩⟩ rootName
      (encodeKeyList nsName doc.Keys ++ (encodeGraphList nsName doc.Graphs
        ++ (encodeDataList nsName doc.Data ++ .EndElement rootName :: rest)))
      = .ok (⟨keysPairsAll doc.Keys, keysPairsFor doc.Keys, docIDs doc,
          ⟨ins, attrs, doc.Keys, doc.Graphs, doc.Data⟩⟩, rest) := by
  have hK1 : F = doc.Keys.length + (F - doc.Keys.length) := by omega
  rw [hK1, replay_keys doc.Keys [] (F - doc.Keys.length)
    ⟨[], [], [], ⟨ins, attrs, [], [], []⟩⟩ rootName _ rfl rfl
    (by simpa using hKeys) (by simpa using hDist)]
  rw [replay_rootGraphs doc.Graphs (F - doc.Keys.length)]
  rw [show F - doc.Keys.length - doc.Graphs.length
      = doc.Data.length + (F - doc.Keys.length - doc.Graphs.length - doc.Data.length) from by
    have := graphListBurn_ge doc.Graphs
    omega]
  rw [replay_rootData doc.Data (F - doc.Keys.length - doc.Graphs.length - doc.Data.length)]
  rw [show F - doc.Keys.length - doc.Graphs.length - doc.Data.length
      = (F - doc.Keys.length - doc.Graphs.length - doc.Data.length - 1) + 1 from by
    have := graphListBurn_ge doc.Graphs
    omega]
  rw [root_step_end]
  all_goals first
    | rfl
    | exact hGraphs
    | exact hIDs
    | exact dataAll_extract _ _ _ _ hData
    | (have hge := graphListBurn_ge doc.Graphs; omega)

theorem decode_encodeW (doc : Document) (hWF : docWFB doc = true) :
    DecodeFromTokens (EncodeTokensW nsName doc) = .ok doc := by
  simp only [docWFB, Bool.and_eq_true] at hWF
  obtain ⟨⟨⟨⟨hKeys, hDist⟩, hData⟩, hGraphs⟩, hIDs⟩ := hWF
  rw [decide_eq_true_eq] at hIDs
  have hKeys2 : ∀ k ∈ doc.Keys, keyWFB k = true := List.all_eq_true.mp hKeys
  have hDist2 : doc.Keys.Pairwise (fun a b => ¬(a.ID = b.ID ∧ a.For = b.For)) := by
    simpa [keysDistinctB] using hDist
  have hrun2 : decodeRun (EncodeTokensW nsName doc)
      = (decoders ((encodeKeyList nsName doc.Keys ++ encodeGraphList nsName doc.Graphs
          ++ encodeDataList nsName doc.Data
          ++ [Token.EndElement (nsName "graphml")]).length + 1)).root
        ⟨[], [], [], ⟨doc.Instr, doc.Attrs, [], [], []⟩⟩ (nsName "graphml")
        (encodeKeyList nsName doc.Keys ++ encodeGraphList nsName doc.Graphs
          ++ encodeDataList nsName doc.Data ++ [Token.EndElement (nsName "graphml")]) := rfl
  have hassoc : encodeKeyList nsName doc.Keys ++ encodeGraphList nsName doc.Graphs
      ++ encodeDataList nsName doc.Data ++ [Token.EndElement (nsName "graphml")]
      = encodeKeyList nsName doc.Keys ++ (encodeGraphList nsName doc.Graphs
        ++ (encodeDataList nsName doc.Data
          ++ Token.EndElement (nsName "graphml") :: [])) := by
    simp [List.append_assoc]
  rw [hassoc] at hrun2
  have hF : doc.Keys.length + graphListBurn doc.Graphs + doc.Data.length + 1
      ≤ (encodeKeyList nsName doc.Keys ++ (encodeGraphList nsName doc.Graphs
        ++ (encodeDataList nsName doc.Data
          ++ Token.EndElement (nsName "graphml") :: []))).length + 1 := by
    have h1 := encodeKeyList_len nsName doc.Keys
    have h2 := encodeGraphList_len nsName doc.Graphs
    have h3 := encodeDataList_len nsName doc.Data
    simp only [List.length_append, List.length_cons, List.length_nil]
    omega
  have hbody := replay_root_assemble doc doc.Instr doc.Attrs (nsName "graphml")
    ((encodeKeyList nsName doc.Keys ++ (encodeGraphList nsName doc.Graphs
      ++ (encodeDataList nsName doc.Data
        ++ Token.EndElement (nsName "graphml") :: []))).length + 1)
    [] hKeys2 hDist2 hGraphs hData hIDs hF
  simp only [DecodeFromTokens]
  rw [hrun2, hbody]

/-! ## Claim C2 -/

/-- C2, counterexample: the encoder does not emit a Key with the
unrecognized attributes last.  For a Key with identifier k, scope node and
one unrecognized attribute u, Key.attrs emits id, u, for — the
unrecognized attribute sits between id and for, while the claimed order
puts it after for. -/
theorem C2_claim_cex :
    Key.attrs ⟨⟨"k", [newAttr "" "u" "1"]⟩, "node", "", ""⟩ ≠
      specKeyAttrs ⟨⟨"k", [newAttr "" "u" "1"]⟩, "node", "", ""⟩ := by
  decide

/-- C2, amended: for every Key, the encoder emits it as an empty element
whose attribute list is, in order: id (if non-empty), then the
unrecognized attributes, then for, then attr.name if non-empty, then
attr.type if non-empty. -/
theorem C2_key_attr_order (k : Key) :
    Key.attrs k =
      (if k.ID ≠ "" then [newAttr "" "id" k.ID] else [])
        ++ k.toObject.Unrecognized
        ++ [newAttr "" "for" k.For]
        ++ (if k.Name ≠ "" then [newAttr "" "attr.name" k.Name] else [])
        ++ (if k.Typ ≠ "" then [newAttr "" "attr.type" k.Typ] else []) := by
  simp [Key.attrs, Object.attrs, Key.ID, List.append_assoc]

/-! ## Claim C3 -/

/-- The stream of the spec example: two key declarations with identifier
d0, both for scope node. -/
def C3dupStream : List Token :=
  [.StartElement ⟨Namespace, "graphml"⟩ [newAttr "" "xmlns" Namespace],
   .StartElement ⟨Namespace, "key"⟩ [newAttr "" "id" "d0", newAttr "" "for" "node"],
   .EndElement ⟨Namespace, "key"⟩,
   .StartElement ⟨Namespace, "key"⟩ [newAttr "" "id" "d0", newAttr "" "for" "node"],
   .EndElement ⟨Namespace, "key"⟩,
   .EndElement ⟨Namespace, "graphml"⟩]

/-- The stream of the spec example: two key declarations with identifier
d0, one for scope node and one for scope edge. -/
def C3okStream : List Token :=
  [.StartElement ⟨Namespace, "graphml"⟩ [newAttr "" "xmlns" Namespace],
   .StartElement ⟨Namespace, "key"⟩ [newAttr "" "id" "d0", newAttr "" "for" "node"],
   .EndElement ⟨Namespace, "key"⟩,
   .StartElement ⟨Namespace, "key"⟩ [newAttr "" "id" "d0", newAttr "" "for" "edge"],
   .EndElement ⟨Namespace, "key"⟩,
   .EndElement ⟨Namespace, "graphml"⟩]

/-- C3: decodeKey fails with a key-redefinition error exactly when the
declared identifier is already registered for the same applicability scope
(the scope-all table for scope all, the scoped table otherwise); and on
the spec examples, two keys d0 both for node make decode fail with
DuplicateKey while d0 for node next to d0 for edge decodes, keeping both
declarations. -/
theorem C3_duplicate_key :
    (∀ st attr name ts,
      (∃ i ki, decodeKey st attr name ts = .error (.redefinitionOfKey i ki)) ↔
        (if (normKey attr).For = KindAll then hasKeyAll st.keysAll (normKey attr).ID = true
         else hasKeyFor st.keys ⟨(normKey attr).ID, (normKey attr).For⟩ = true))
    ∧ DecodeFromTokens C3dupStream = .error (.redefinitionOfKey "d0" "node")
    ∧ (∃ d, DecodeFromTokens C3okStream = .ok d ∧ d.Keys.length = 2) := by
  refine ⟨?_, by rfl, ⟨_, by rfl, by rfl⟩⟩
  intro st attr name ts
  simp only [decodeKey]
  by_cases hAll : (normKey attr).For = KindAll
  · rw [if_pos hAll, if_pos hAll]
    by_cases hmem : hasKeyAll st.keysAll (normKey attr).ID = true
    · rw [if_pos hmem]
      exact ⟨fun _ => hmem, fun _ => ⟨_, _, rfl⟩⟩
    · rw [if_neg hmem]
      constructor
      · rintro ⟨i, ki, h⟩
        exfalso
        split at h
        · rename_i e hE
          injection h with h2
          rcases expectEnd_error_shape name ts e hE with h3 | ⟨t, h3⟩ <;> subst h3 <;> cases h2
        · cases h
      · intro h
        exact absurd h hmem
  · rw [if_neg hAll, if_neg hAll]
    by_cases hmem : hasKeyFor st.keys ⟨(normKey attr).ID, (normKey attr).For⟩ = true
    · rw [if_pos hmem]
      exact ⟨fun _ => hmem, fun _ => ⟨_, _, rfl⟩⟩
    · rw [if_neg hmem]
      constructor
      · rintro ⟨i, ki, h⟩
        exfalso
        split at h
        · rename_i e hE
          injection h with h2
          rcases expectEnd_error_shape name ts e hE with h3 | ⟨t, h3⟩ <;> subst h3 <;> cases h2
        · cases h
      · intro h
        exact absurd h hmem

/-! ## Claim C4 -/

/-- A stream with a scope-less key declaration referenced by data elements
under the root, a graph, a node, and an edge, and exercising the scoped
table with a node-scoped key. -/
def C4okStream : List Token :=
  [.StartElement ⟨Namespace, "graphml"⟩ [newAttr "" "xmlns" Namespace],
   .StartElement ⟨Namespace, "key"⟩ [newAttr "" "id" "label"],
   .EndElement ⟨Namespace, "key"⟩,
   .StartElement ⟨Namespace, "key"⟩ [newAttr "" "id" "w", newAttr "" "for" "node"],
   .EndElement ⟨Namespace, "key"⟩,
   .StartElement ⟨Namespace, "data"⟩ [newAttr "" "key" "label"],
   .EndElement ⟨Namespace, "data"⟩,
   .StartElement ⟨Namespace, "graph"⟩ [],
   .StartElement ⟨Namespace, "data"⟩ [newAttr "" "key" "label"],
   .EndElement ⟨Namespace, "data"⟩,
   .StartElement ⟨Namespace, "node"⟩ [newAttr "" "id" "n0"],
   .StartElement ⟨Namespace, "data"⟩ [newAttr "" "key" "label"],
   .EndElement ⟨Namespace, "data"⟩,
   .StartElement ⟨Namespace, "data"⟩ [newAttr "" "key" "w"],
   .EndElement ⟨Namespace, "data"⟩,
   .EndElement ⟨Namespace, "node"⟩,
   .StartElement ⟨Namespace, "node"⟩ [newAttr "" "id" "n1"],
   .EndElement ⟨Namespace, "node"⟩,
   .StartElement ⟨Namespace, "edge"⟩ [newAttr "" "source" "n0", newAttr "" "target" "n1"],
   .StartElement ⟨Namespace, "data"⟩ [newAttr "" "key" "label"],
   .EndElement ⟨Namespace, "data"⟩,
   .EndElement ⟨Namespace, "edge"⟩,
   .EndElement ⟨Namespace, "graph"⟩,
   .EndElement ⟨Namespace, "graphml"⟩]

/-- The spec example: a data element under a node referencing an
undeclared key. -/
def C4missingStream : List Token :=
  [.StartElement ⟨Namespace, "graphml"⟩ [newAttr "" "xmlns" Namespace],
   .StartElement ⟨Namespace, "graph"⟩ [],
   .StartElement ⟨Namespace, "node"⟩ [newAttr "" "id" "n0"],
   .StartElement ⟨Namespace, "data"⟩ [newAttr "" "key" "missing"],
   .EndElement ⟨Namespace, "data"⟩,
   .EndElement ⟨Namespace, "node"⟩,
   .EndElement ⟨Namespace, "graph"⟩,
   .EndElement ⟨Namespace, "graphml"⟩]

/-- C4: decodeData fails with the unknown-attribute error exactly when the
data key reference is registered neither in the scoped table under the
enclosing kind nor in the scope-all table; a key declared without a for
attribute is registered in the scope-all table; and concretely, a
scope-less key is a valid reference target from data under the root, a
graph, a node and an edge alike, while an undeclared reference under a
node fails with UnknownAttribute. -/
theorem C4_data_key_resolution :
    (∀ st kind attr name ts,
      (∃ ki kk, decodeData st kind attr name ts = .error (.unexpectedAttr ki kk)) ↔
        (hasKeyFor st.keys ⟨(attr.foldl Data.addAttr Data.empty).Key, kind⟩ = false ∧
         hasKeyAll st.keysAll (attr.foldl Data.addAttr Data.empty).Key = false))
    ∧ (∀ st attr name ts st2 rest, (∀ a ∈ attr, a.Name.Local ≠ "for") →
        decodeKey st attr name ts = .ok (st2, rest) →
        ∃ k, k.For = KindAll ∧ st2.keysAll = st.keysAll ++ [(k.ID, k)])
    ∧ (∃ d, DecodeFromTokens C4okStream = .ok d)
    ∧ DecodeFromTokens C4missingStream = .error (.unexpectedAttr "node" "missing") := by
  refine ⟨?_, ?_, ⟨_, by rfl⟩, by rfl⟩
  · intro st kind attr name ts
    simp only [decodeData]
    by_cases hc : (hasKeyFor st.keys ⟨(attr.foldl Data.addAttr Data.empty).Key, kind⟩ ||
        hasKeyAll st.keysAll (attr.foldl Data.addAttr Data.empty).Key) = true
    · rw [if_pos hc]
      simp only [Bool.or_eq_true] at hc
      constructor
      · rintro ⟨ki, kk, h⟩
        exfalso
        split at h
        · rename_i hE
          cases decodeDataLoop_error_shape name ts [] _ hE
          simp at h
        · cases h
      · intro ⟨h1, h2⟩
        rcases hc with hc | hc
        · rw [h1] at hc; cases hc
        · rw [h2] at hc; cases hc
    · rw [if_neg hc]
      simp only [Bool.or_eq_true, not_or, Bool.not_eq_true] at hc
      simp only [hc, and_self, iff_true]
      exact ⟨_, _, rfl⟩
  · intro st attr name ts st2 rest hfor h
    have hF : (attr.foldl Key.addAttr Key.empty).For = "" :=
      foldl_Key_addAttr_For Key.empty attr hfor
    have hAll : (normKey attr).For = KindAll := by
      simp [normKey, hF]
    simp only [decodeKey] at h
    rw [if_pos hAll] at h
    split at h
    · cases h
    · split at h
      · cases h
      · rw [Except.ok.injEq, Prod.mk.injEq] at h
        obtain ⟨h1, _⟩ := h
        subst h1
        exact ⟨normKey attr, hAll, rfl⟩

/-- C4, witness: decoding a key element with identifier label and no for
attribute registers it in the scope-all table. -/
theorem C4_data_key_resolution_witness :
    ∃ k, k.For = KindAll ∧
      (⟨[("label", ⟨⟨"label", []⟩, "all", "", ""⟩)], [], [],
        ⟨⟨"", ""⟩, [], [⟨⟨"label", []⟩, "all", "", ""⟩], [], []⟩⟩ : docDecoder).keysAll
        = docDecoder.init.keysAll ++ [(k.ID, k)] :=
  C4_data_key_resolution.2.1 docDecoder.init [newAttr "" "id" "label"] ⟨Namespace, "key"⟩
    [.EndElement ⟨Namespace, "key"⟩]
    ⟨[("label", ⟨⟨"label", []⟩, "all", "", ""⟩)], [], [],
      ⟨⟨"", ""⟩, [], [⟨⟨"label", []⟩, "all", "", ""⟩], [], []⟩⟩ []
    (by decide) rfl

/-! ## Claim C6 -/

/-- C6: the nesting table.  Under the root only key, graph and data start
elements are admitted; under a graph only data, node and edge; under a
node only data and graph; under an edge only data.  Any other child in the
GraphML namespace fails with the unknown-element error, and a child in a
foreign namespace fails with the unexpected-element error. -/
theorem C6_nesting_table :
    (∀ fuel st rootName n attr rest, n.Space = Namespace →
      n.Local ≠ "key" → n.Local ≠ "graph" → n.Local ≠ "data" →
      decodeRootLoop (fuel + 1) st rootName (.StartElement n attr :: rest) =
        .error (.unknownElement n))
    ∧ (∀ fuel st g name n attr rest, n.Space = Namespace →
      n.Local ≠ "data" → n.Local ≠ "node" → n.Local ≠ "edge" →
      decodeGraphNodes (fuel + 1) st g name (.StartElement n attr :: rest) =
        .error (.unknownElement n))
    ∧ (∀ fuel st nd name n attr rest, n.Space = Namespace →
      n.Local ≠ "data" → n.Local ≠ "graph" →
      decodeNodeLoop (fuel + 1) st nd name (.StartElement n attr :: rest) =
        .error (.unknownElement n))
    ∧ (∀ fuel st ed name n attr rest, n.Space = Namespace →
      n.Local ≠ "data" →
      decodeEdgeLoop (fuel + 1) st ed name (.StartElement n attr :: rest) =
        .error (.unknownElement n))
    ∧ (∀ fuel st rootName n attr rest, n.Space ≠ Namespace →
      decodeRootLoop (fuel + 1) st rootName (.StartElement n attr :: rest) =
        .error (.unexpectedElement n))
    ∧ (∀ fuel st g name n attr rest, n.Space ≠ Namespace →
      decodeGraphNodes (fuel + 1) st g name (.StartElement n attr :: rest) =
        .error (.unexpectedElement n))
    ∧ (∀ fuel st nd name n attr rest, n.Space ≠ Namespace →
      decodeNodeLoop (fuel + 1) st nd name (.StartElement n attr :: rest) =
        .error (.unexpectedElement n))
    ∧ (∀ fuel st ed name n attr rest, n.Space ≠ Namespace →
      decodeEdgeLoop (fuel + 1) st ed name (.StartElement n attr :: rest) =
        .error (.unexpectedElement n)) := by
  refine ⟨?_, ?_, ?_, ?_, ?_, ?_, ?_, ?_⟩
  · intro fuel st rootName n attr rest hns h1 h2 h3
    simp [decodeRootLoop, decoders, decodersStep, canSkip, hns, h1, h2, h3]
  · intro fuel st g name n attr rest hns h1 h2 h3
    simp [decodeGraphNodes, decoders, decodersStep, canSkip, hns, h1, h2, h3]
  · intro fuel st nd name n attr rest hns h1 h2
    simp [decodeNodeLoop, decoders, decodersStep, canSkip, hns, h1, h2]
  · intro fuel st ed name n attr rest hns h1
    simp [decodeEdgeLoop, decoders, decodersStep, canSkip, hns, h1]
  · intro fuel st rootName n attr rest hns
    simp [decodeRootLoop, decoders, decodersStep, canSkip, hns]
  · intro fuel st g name n attr rest hns
    simp [decodeGraphNodes, decoders, decodersStep, canSkip, hns]
  · intro fuel st nd name n attr rest hns
    simp [decodeNodeLoop, decoders, decodersStep, canSkip, hns]
  · intro fuel st ed name n attr rest hns
    simp [decodeEdgeLoop, decoders, decodersStep, canSkip, hns]

/-- C6, witness: concrete rejected children under each parent — node under
the root, key under a graph, edge under a node, graph under an edge, and a
foreign-namespace child under each parent. -/
theorem C6_nesting_table_witness :
    decodeRootLoop 1 docDecoder.init ⟨Namespace, "graphml"⟩
        [.StartElement ⟨Namespace, "node"⟩ []] = .error (.unknownElement ⟨Namespace, "node"⟩)
    ∧ decodeGraphNodes 1 docDecoder.init Graph.empty ⟨Namespace, "graph"⟩
        [.StartElement ⟨Namespace, "key"⟩ []] = .error (.unknownElement ⟨Namespace, "key"⟩)
    ∧ decodeNodeLoop 1 docDecoder.init Node.empty ⟨Namespace, "node"⟩
        [.StartElement ⟨Namespace, "edge"⟩ []] = .error (.unknownElement ⟨Namespace, "edge"⟩)
    ∧ decodeEdgeLoop 1 docDecoder.init Edge.empty ⟨Namespace, "edge"⟩
        [.StartElement ⟨Namespace, "graph"⟩ []] = .error (.unknownElement ⟨Namespace, "graph"⟩)
    ∧ decodeRootLoop 1 docDecoder.init ⟨Namespace, "graphml"⟩
        [.StartElement ⟨"", "svg"⟩ []] = .error (.unexpectedElement ⟨"", "svg"⟩)
    ∧ decodeGraphNodes 1 docDecoder.init Graph.empty ⟨Namespace, "graph"⟩
        [.StartElement ⟨"", "svg"⟩ []] = .error (.unexpectedElement ⟨"", "svg"⟩)
    ∧ decodeNodeLoop 1 docDecoder.init Node.empty ⟨Namespace, "node"⟩
        [.StartElement ⟨"", "svg"⟩ []] = .error (.unexpectedElement ⟨"", "svg"⟩)
    ∧ decodeEdgeLoop 1 docDecoder.init Edge.empty ⟨Namespace, "edge"⟩
        [.StartElement ⟨"", "svg"⟩ []] = .error (.unexpectedElement ⟨"", "svg"⟩) :=
  ⟨C6_nesting_table.1 0 _ _ _ _ _ rfl (by decide) (by decide) (by decide),
   C6_nesting_table.2.1 0 _ _ _ _ _ _ rfl (by decide) (by decide) (by decide),
   C6_nesting_table.2.2.1 0 _ _ _ _ _ _ rfl (by decide) (by decide),
   C6_nesting_table.2.2.2.1 0 _ _ _ _ _ _ rfl (by decide),
   C6_nesting_table.2.2.2.2.1 0 _ _ _ _ _ (by decide),
   C6_nesting_table.2.2.2.2.2.1 0 _ _ _ _ _ _ (by decide),
   C6_nesting_table.2.2.2.2.2.2.1 0 _ _ _ _ _ _ (by decide),
   C6_nesting_table.2.2.2.2.2.2.2 0 _ _ _ _ _ _ (by decide)⟩

/-! ## Claim C7 -/

/-- C7: raw payload capture and replay.  A successful capture splits the
stream into the payload — which contains no end element named like the
data element, and is taken verbatim, comments and whitespace included —
followed by the matching end element and the rest; conversely any
payload free of the terminating end element is captured exactly;
decodeData stores exactly the captured payload; and the encoder emits a
data element as its start tag, the stored payload unchanged, and the end
tag. -/
theorem C7_payload_fidelity :
    (∀ name ts payload rest, decodeDataLoop name [] ts = .ok (payload, rest) →
      ts = payload ++ .EndElement name :: rest ∧ ∀ t ∈ payload, t ≠ .EndElement name)
    ∧ (∀ name payload rest, (∀ t ∈ payload, t ≠ .EndElement name) →
      decodeDataLoop name [] (payload ++ .EndElement name :: rest) = .ok (payload, rest))
    ∧ (∀ st kind attr name ts d rest, decodeData st kind attr name ts = .ok (d, rest) →
      ts = d.Tokens ++ .EndElement name :: rest ∧ ∀ t ∈ d.Tokens, t ≠ .EndElement name)
    ∧ (∀ mk d, encodeData1 mk d =
      .StartElement (mk "data") (Data.attrs d) :: (d.Tokens ++ [.EndElement (mk "data")])) := by
  refine ⟨?_, ?_, ?_, fun mk d => rfl⟩
  · intro name ts payload rest h
    obtain ⟨mid, h1, h2, h3⟩ := decodeDataLoop_sound name ts [] payload rest h
    simp only [List.nil_append] at h1
    subst h1
    exact ⟨h2, h3⟩
  · intro name payload rest h
    have := decodeDataLoop_complete name payload [] rest h
    simpa using this
  · intro st kind attr name ts d rest h
    simp only [decodeData] at h
    split at h
    · split at h
      · cases h
      · rename_i payload rest2 hE
        rw [Except.ok.injEq, Prod.mk.injEq] at h
        obtain ⟨h1, h2⟩ := h
        subst h2
        obtain ⟨mid, h3, h4, h5⟩ := decodeDataLoop_sound name ts [] _ _ hE
        simp only [List.nil_append] at h3
        subst h3
        subst h1
        exact ⟨h4, h5⟩
    · cases h

/-- C7, witness: a payload holding a comment, whitespace-only text, and a
nested foreign element is captured exactly and delimited by the matching
end element. -/
theorem C7_payload_fidelity_witness :
    decodeDataLoop ⟨Namespace, "data"⟩ []
        ([.Comment "c", .CharData "  ", .StartElement ⟨"", "b"⟩ [], .EndElement ⟨"", "b"⟩]
          ++ .EndElement ⟨Namespace, "data"⟩ :: []) =
      .ok ([.Comment "c", .CharData "  ", .StartElement ⟨"", "b"⟩ [], .EndElement ⟨"", "b"⟩], []) :=
  C7_payload_fidelity.2.1 ⟨Namespace, "data"⟩
    [.Comment "c", .CharData "  ", .StartElement ⟨"", "b"⟩ [], .EndElement ⟨"", "b"⟩] []
    (by decide)

/-! ## Claim C8 -/

/-- C8: no partial document.  Whenever the inner decode run fails, the
entry point returns exactly that error — the partially built document
inside the decoder state is discarded — and a document is returned only
when the inner run of the root element completes successfully, in which
case it is the fully built document of the final state. -/
theorem C8_no_partial_document :
    ∀ ts, (∀ e, decodeRun ts = .error e → DecodeFromTokens ts = .error e)
      ∧ (∀ doc, DecodeFromTokens ts = .ok doc →
          ∃ st rest, decodeRun ts = .ok (st, rest) ∧ doc = st.doc) := by
  intro ts
  constructor
  · intro e h
    simp [DecodeFromTokens, h]
  · intro doc h
    simp only [DecodeFromTokens] at h
    split at h
    · cases h
    · rename_i st rest hR
      rw [Except.ok.injEq] at h
      exact ⟨st, rest, hR, h.symm⟩

/-- C8, witness: the empty stream fails with unexpectedEOF and yields no
document. -/
theorem C8_no_partial_document_witness :
    DecodeFromTokens [] = .error .unexpectedEOF :=
  (C8_no_partial_document []).1 .unexpectedEOF rfl

/-! ## Claim C9 -/

/-- A document whose graphs, nodes and edges carry no identifier (one node
carries an explicitly empty one). -/
def C9emptyIDStream : List Token :=
  [.StartElement ⟨Namespace, "graphml"⟩ [newAttr "" "xmlns" Namespace],
   .StartElement ⟨Namespace, "graph"⟩ [],
   .StartElement ⟨Namespace, "node"⟩ [],
   .EndElement ⟨Namespace, "node"⟩,
   .StartElement ⟨Namespace, "node"⟩ [newAttr "" "id" ""],
   .EndElement ⟨Namespace, "node"⟩,
   .StartElement ⟨Namespace, "edge"⟩ [],
   .EndElement ⟨Namespace, "edge"⟩,
   .EndElement ⟨Namespace, "graph"⟩,
   .StartElement ⟨Namespace, "graph"⟩ [],
   .EndElement ⟨Namespace, "graph"⟩,
   .EndElement ⟨Namespace, "graphml"⟩]

/-- C9: identifiers are optional.  The empty identifier is accepted
without being registered, a fresh non-empty identifier is accepted and
registered, a seen non-empty identifier fails with DuplicateID, and a
document full of identifier-less graphs, nodes and edges decodes without
a DuplicateID error. -/
theorem C9_optional_ids :
    (∀ st, addID st "" = .ok ("", st))
    ∧ (∀ st id, id ≠ "" → hasID st.ids id = false →
        addID st id = .ok (id, { st with ids := st.ids ++ [id] }))
    ∧ (∀ st id, id ≠ "" → hasID st.ids id = true →
        addID st id = .error (.redefinitionOfID id))
    ∧ (∃ d, DecodeFromTokens C9emptyIDStream = .ok d ∧ d.Graphs.length = 2) := by
  refine ⟨fun st => rfl, ?_, ?_, ⟨_, by rfl, by rfl⟩⟩
  · intro st id h1 h2
    simp [addID, h1, h2]
  · intro st id h1 h2
    simp [addID, h1, h2]

/-- C9, witness: a fresh identifier n0 is accepted and registered from the
initial state. -/
theorem C9_optional_ids_witness :
    addID docDecoder.init "n0" =
      .ok ("n0", { docDecoder.init with ids := docDecoder.init.ids ++ ["n0"] }) :=
  C9_optional_ids.2.1 docDecoder.init "n0" (by decide) rfl

/-! ## Claim C10 -/

/-- C10: decode returns at the root end element and never reads past it —
whatever tokens follow a stream that decodes successfully, the extended
stream decodes to the same document. -/
theorem C10_trailing_tokens :
    ∀ ts extra doc, DecodeFromTokens ts = .ok doc →
      DecodeFromTokens (ts ++ extra) = .ok doc := by
  intro ts extra doc h
  simp only [DecodeFromTokens] at h ⊢
  split at h
  · cases h
  · rename_i st rest2 hRun
    rw [Except.ok.injEq] at h
    subst h
    have hRun2 : decodeRun (ts ++ extra) = .ok (st, rest2 ++ extra) := by
      simp only [decodeRun] at hRun ⊢
      split at hRun
      · cases hRun
      · rename_i doc1 rootName rest hS
        simp only [startGraphML_append ts _ _ _ _ hS extra]
        exact (decoders_extend (rest.length + 1)).1 ((rest ++ extra).length + 1)
          (by simp only [List.length_append]; omega) _ _ _ _ _ hRun extra
    rw [hRun2]

/-- C10, witness: a trailing text token and a stray end element after the
root close tag are ignored. -/
theorem C10_trailing_tokens_witness :
    DecodeFromTokens
        ([.StartElement ⟨Namespace, "graphml"⟩ [newAttr "" "xmlns" Namespace],
          .EndElement ⟨Namespace, "graphml"⟩] ++ [.CharData "trailing", .EndElement ⟨"", "x"⟩]) =
      .ok ⟨⟨"", ""⟩, [newAttr "" "xmlns" Namespace], [], [], []⟩ :=
  C10_trailing_tokens _ _ _ rfl

/-! ## Claim C1 -/

/-- A decodable stream whose elements carry the GraphML namespace in
prefix form, so that no default xmlns declaration is stored in the root
attributes. -/
def C1prefixStream : List Token :=
  [.StartElement ⟨Namespace, "graphml"⟩ [], .EndElement ⟨Namespace, "graphml"⟩]

/-- The document decoded from C1prefixStream. -/
def C1prefixDoc : Document := ⟨⟨"", ""⟩, [], [], [], []⟩

/-- C1, counterexample: a stream the decoder accepts whose re-encoding
does not re-decode.  The root carries no default xmlns declaration, so
the namespace-less element names the encoder emits do not re-acquire the
GraphML namespace through the serialize-and-retokenize bridge, and
re-decoding fails at the root start element instead of succeeding. -/
theorem C1_claim_cex :
    DecodeFromTokens C1prefixStream = .ok C1prefixDoc ∧
    DecodeFromTokens (retokenize (EncodeTokens C1prefixDoc))
      = .error (.unexpectedToken (.StartElement ⟨"", "graphml"⟩ [])) :=
  ⟨rfl, rfl⟩

/-- C1, amended: re-decoding the re-encoded output of an accepted stream
succeeds and yields the same document, provided the decoded document's
stored root attributes declare the GraphML namespace as the default
namespace and every raw data payload element carries an explicit
namespace — the conditions under which the external serialize-and-
retokenize bridge restores the GraphML namespace on exactly the element
names the encoder emitted without one. -/
theorem C1_roundtrip (ts : List Token) (doc : Document)
    (h : DecodeFromTokens ts = .ok doc) (hNS : docNSB doc = true) :
    DecodeFromTokens (retokenize (EncodeTokens doc)) = .ok doc := by
  rw [retokenize_encode doc hNS]
  exact decode_encodeW doc (DecodeFromTokens_wf ts doc h)

/-- An accepted stream whose root declares the GraphML namespace as the
default namespace. -/
def C1okStream : List Token :=
  [.StartElement ⟨Namespace, "graphml"⟩ [newAttr "" "xmlns" Namespace],
   .StartElement ⟨Namespace, "graph"⟩ [newAttr "" "id" "g0"],
   .StartElement ⟨Namespace, "node"⟩ [newAttr "" "id" "n0"],
   .EndElement ⟨Namespace, "node"⟩,
   .EndElement ⟨Namespace, "graph"⟩,
   .EndElement ⟨Namespace, "graphml"⟩]

/-- The document decoded from C1okStream. -/
def C1okDoc : Document :=
  ⟨⟨"", ""⟩, [newAttr "" "xmlns" Namespace], [],
    [.mk ⟨⟨"g0", []⟩, []⟩ "" [.mk ⟨⟨"n0", []⟩, []⟩ []] []], []⟩

/-- C1, witness: a concrete accepted stream carrying the default xmlns
declaration round-trips through encode and the bridge to the same
document. -/
theorem C1_roundtrip_witness :
    DecodeFromTokens C1okStream = .ok C1okDoc ∧ docNSB C1okDoc = true ∧
    DecodeFromTokens (retokenize (EncodeTokens C1okDoc)) = .ok C1okDoc :=
  ⟨rfl, rfl, C1_roundtrip C1okStream C1okDoc rfl rfl⟩

/-! ## Claim C5 -/

/-- A stream reusing the node identifier n0 across different graphs and
different nesting levels: once in the first top-level graph, once inside
a subgraph of a node of the second top-level graph. -/
def C5dupStream : List Token :=
  [.StartElement ⟨Namespace, "graphml"⟩ [],
   .StartElement ⟨Namespace, "graph"⟩ [],
   .StartElement ⟨Namespace, "node"⟩ [newAttr "" "id" "n0"],
   .EndElement ⟨Namespace, "node"⟩,
   .EndElement ⟨Namespace, "graph"⟩,
   .StartElement ⟨Namespace, "graph"⟩ [],
   .StartElement ⟨Namespace, "node"⟩ [],
   .StartElement ⟨Namespace, "graph"⟩ [],
   .StartElement ⟨Namespace, "node"⟩ [newAttr "" "id" "n0"]]

/-- C5: the identifier uniqueness check is document-wide.  Every document
a successful decode publishes has pairwise distinct non-empty element
identifiers across all graphs, nodes and edges at every nesting level,
and a stream that reuses an identifier across different graphs and
nesting depths fails with the id-redefinition error. -/
theorem C5_duplicate_id :
    (∀ (ts : List Token) (doc : Document),
      DecodeFromTokens ts = .ok doc → (docIDs doc).Nodup) ∧
    DecodeFromTokens C5dupStream = .error (.redefinitionOfID "n0") := by
  constructor
  · intro ts doc h
    have hwf := DecodeFromTokens_wf ts doc h
    simp only [docWFB, Bool.and_eq_true] at hwf
    exact of_decide_eq_true hwf.2
  · rfl

/-- C5, witness: the published identifier list of a concrete accepted
stream is duplicate-free. -/
theorem C5_duplicate_id_witness :
    (docIDs (⟨⟨"", ""⟩, [], [], [], []⟩ : Document)).Nodup :=
  C5_duplicate_id.1
    [.StartElement ⟨Namespace, "graphml"⟩ [], .EndElement ⟨Namespace, "graphml"⟩]
    ⟨⟨"", ""⟩, [], [], [], []⟩ rfl

end GraphML
